import Mathlib

/-!
# TSP.cpp: distance table, nearest-neighbour construction, 2-opt optimisation

A shallow embedding of `processInput`, `initialPath` and `optimizePath` of `TSP.cpp`.

* C++ `int` values are integers reduced to 32-bit two's complement after every
  arithmetic operation (`wrap`).
* Arrays (`int*`, `bool*`) are maps from index to value; a write is `upd`.  Storage that
  the program allocates without initialising is passed in as an argument, so that what a
  function leaves unwritten stays visible in its result.
* The wall clock is an oracle `clock : Nat → Bool`: `clock k` answers the `k`-th comparison
  `elapsed.count() > LIMIT` made by the running function (`true`: limit reached).
* Loops whose trip count is not bounded syntactically take a fuel argument and return
  `none` when it is exhausted.
-/

namespace TSP

/-! ## Machine integers and arrays -/

/-- The constant `INT_MAX` of `<climits>` for a 32-bit `int`. -/
def INT_MAX : Int := 2147483647

/-- The constant `INT_MIN` of `<climits>` for a 32-bit `int`. -/
def INT_MIN : Int := -2147483648

/-- The constant `NN_CHECK` (line 15). -/
def NN_CHECK : Nat := 35

/-- Reduction of an integer to the 32-bit two's complement range. -/
def wrap (x : Int) : Int := (x + 2147483648) % 4294967296 - 2147483648

/-- Array write `a[i] = v`. -/
def upd {α : Type} (a : Nat → α) (i : Nat) (v : α) : Nat → α :=
  fun p => if p = i then v else a p

/-- A two-dimensional `int` table `int **`, indexed by the `int` values found in the program. -/
abbrev Matrix := Int → Int → Int

/-- Table write `T[i][j] = v`. -/
def set2 (T : Matrix) (i j : Nat) (v : Int) : Matrix :=
  fun a b => if a = (i : Int) ∧ b = (j : Int) then v else T a b

/-! ## processInput (lines 53-111) -/

/-- One input triple: `allCities[i][0]`, `allCities[i][1]`, `allCities[i][2]`. -/
structure City where
  id : Int
  x : Int
  y : Int

/-- The value of `(int)round(sqrt(m))` for an `int` argument `m`.  For `0 ≤ m ≤ INT_MAX` the
conversion to `double` is exact, IEEE `sqrt` is correctly rounded and the root of an integer
below `2^31` is farther than `10^-6` from every half-integer, so `round` yields the integer
nearest to the real square root: `s + 1` when `m > s^2 + s` and `s` otherwise, `s` being the
integer part of the root.  For `m < 0` the root is a NaN; the language leaves its conversion
to `int` open, and the value `INT_MIN` that x86 produces is taken. -/
def roundSqrt (m : Int) : Int :=
  if m < 0 then INT_MIN
  else if Nat.sqrt m.toNat < m.toNat - Nat.sqrt m.toNat * Nat.sqrt m.toNat
    then (Nat.sqrt m.toNat : Int) + 1
    else (Nat.sqrt m.toNat : Int)

/-- The `int` expression `(a - b) * (a - b)` of lines 103-106. -/
def sqDiff (a b : Int) : Int := wrap (wrap (a - b) * wrap (a - b))

/-- The right-hand side of the assignment of lines 103-106 for cities `p` and `q`. -/
def cityDist (p q : City) : Int :=
  roundSqrt (wrap (sqDiff p.x q.x + sqDiff p.y q.y))

/-- The two assignments of lines 103-107 for the pair `(i, j)`. -/
def fillCell (cities : List City) (i : Nat) (T : Matrix) (j : Nat) : Matrix :=
  set2 (set2 T i j (cityDist (cities.getD i ⟨0, 0, 0⟩) (cities.getD j ⟨0, 0, 0⟩))) j i
    (set2 T i j (cityDist (cities.getD i ⟨0, 0, 0⟩) (cities.getD j ⟨0, 0, 0⟩)) i j)

/-- The inner loop of lines 101-108 for a fixed `i`: `j` runs from `i` to `size - 1`. -/
def fillRow (cities : List City) (size i : Nat) (T : Matrix) : Matrix :=
  (List.range' i (size - i)).foldl (fillCell cities i) T

/-- The table and the size that `processInput` returns for the city list read from the file;
`mem` is the content of the freshly allocated table. -/
def processInput (cities : List City) (mem : Matrix) : Matrix × Nat :=
  ((List.range cities.length).foldl (fun T i => fillRow cities cities.length i T) mem,
    cities.length)

/-! ## initialPath (lines 116-187) -/

/-- The variables of `initialPath`; `checks` counts the clock comparisons made so far. -/
structure NNState where
  visited : Nat → Bool
  temp : Nat → Int
  best : Nat → Int
  next : Int
  min : Int
  timed_out : Bool
  checks : Nat

/-- The stride between starting vertices (lines 134-135). -/
def jump (size : Nat) : Nat := if size < 250 then 1 else size / NN_CHECK

/-- The body of the loop of line 149 on the pair `(next, min)` (lines 150-153). -/
def nearestStep (dist : Matrix) (visited : Nat → Bool) (cur : Int) (nm : Int × Int)
    (k : Nat) : Int × Int :=
  if visited k = false ∧ dist cur (k : Int) < nm.2 then ((k : Int), dist cur (k : Int))
  else nm

/-- The scan of lines 146-154: the pair `(next, min)` after `k` has run over `0..size-1`,
from the path end `cur = temp[j-1]`. -/
def nearest (dist : Matrix) (size : Nat) (visited : Nat → Bool) (cur : Int) : Int × Int :=
  (List.range size).foldl (nearestStep dist visited cur) (-1, INT_MAX)

/-- One iteration of the loop of line 145 (lines 146-167).  When no vertex was selected,
`next` is `-1` and `visited[next] = 1` writes outside the array: no result. -/
def addCity (clock : Nat → Bool) (dist : Matrix) (size j : Nat) (st : NNState) :
    Option NNState :=
  let nm := nearest dist size st.visited (st.temp (j - 1))
  let temp1 := upd st.temp j nm.1
  let temp2 := upd temp1 0 (wrap (temp1 0 + nm.2))
  if nm.1 < 0 then none
  else some
    { st with
      next := nm.1
      min := nm.2
      temp := temp2
      visited := upd st.visited nm.1.toNat true
      timed_out := if clock st.checks then true else st.timed_out
      checks := st.checks + 1 }

/-- The loop of line 145 over the remaining values of `j`, left when `timed_out` is set. -/
def growPath (clock : Nat → Bool) (dist : Matrix) (size : Nat) :
    List Nat → NNState → Option NNState
  | [], st => some st
  | j :: js, st =>
    if st.timed_out then some st
    else (addCity clock dist size j st).bind (growPath clock dist size js)

/-- The loop of line 139. -/
def resetVisited (size : Nat) (visited : Nat → Bool) : Nat → Bool :=
  (List.range size).foldl (fun v j => upd v j false) visited

/-- The loop of line 176: `best[j] = temp[j]` for `j` in `0..size`. -/
def copyTour (size : Nat) (temp best : Nat → Int) : Nat → Int :=
  (List.range (size + 1)).foldl (fun b j => upd b j (temp j)) best

/-- The body of the loop of line 137 for the start `i` (lines 139-178). -/
def attempt (clock : Nat → Bool) (dist : Matrix) (size i : Nat) (st : NNState) :
    Option NNState :=
  (growPath clock dist size (List.range' 2 (size - 1))
      { st with
        visited := upd (resetVisited size st.visited) i true
        temp := upd (upd st.temp 0 0) 1 (i : Int) }).bind
    fun st2 =>
      if st2.timed_out then some st2
      else
        let temp3 := upd st2.temp 0 (wrap (st2.temp 0 + dist st2.next (i : Int)))
        if temp3 0 < st2.best 0 then
          some { st2 with temp := temp3, best := copyTour size temp3 st2.best }
        else some { st2 with temp := temp3 }

/-- The loop of line 137 from the start `i` on; every iteration advances `i` by
`jump size`. -/
def startsLoop (clock : Nat → Bool) (dist : Matrix) (size : Nat) :
    Nat → Nat → NNState → Option NNState
  | 0, i, st => if i < size ∧ st.timed_out = false then none else some st
  | fuel + 1, i, st =>
    if i < size ∧ st.timed_out = false then
      (attempt clock dist size i st).bind (startsLoop clock dist size fuel (i + jump size))
    else some st

/-- The function `initialPath`: `mem` holds the content of the uninitialised variables and
arrays; the result carries `best` and the returned flag `timed_out`. -/
def initialPath (clock : Nat → Bool) (dist : Matrix) (size : Nat) (mem : NNState) :
    Option NNState :=
  startsLoop clock dist size size 0
    { mem with best := upd mem.best 0 INT_MAX, timed_out := false, checks := 0 }

/-! ## optimizePath (lines 213-275) -/

/-- The variables that the scan of lines 227-241 sets. -/
structure Scan where
  improve : Int
  swapi : Nat
  swapj : Nat
  imp_found : Bool

/-- The value assigned to `check` at lines 232-233. -/
def check (dist : Matrix) (best : Nat → Int) (i j : Nat) : Int :=
  wrap (wrap (dist (best (i + 1)) (best (i + 2)) + dist (best (j + 1)) (best (j + 2))) -
    wrap (dist (best (i + 1)) (best (j + 1)) + dist (best (i + 2)) (best (j + 2))))

/-- The body of the loop of line 230 (lines 232-239). -/
def scanStep (dist : Matrix) (best : Nat → Int) (i : Nat) (s : Scan) (j : Nat) : Scan :=
  if s.improve < check dist best i j then
    { improve := check dist best i j, swapi := i + 1, swapj := j + 1, imp_found := true }
  else s

/-- The loop of line 230 for a fixed `i`: `j` runs from `i + 2` to `size - 2`. -/
def scanRow (dist : Matrix) (size : Nat) (best : Nat → Int) (i : Nat) (s : Scan) : Scan :=
  (List.range' (i + 2) (size - 1 - (i + 2))).foldl (scanStep dist best i) s

/-- The scan of lines 227-241.  `swapi` and `swapj` are read only after the scan has
assigned them, so their value on entry is immaterial and taken to be `0`. -/
def scan (dist : Matrix) (size : Nat) (best : Nat → Int) : Scan :=
  (List.range (size - 2)).foldl (fun s i => scanRow dist size best i s)
    { improve := 0, swapi := 0, swapj := 0, imp_found := false }

/-- The two loops of lines 245-254: `temp[i] = best[swapj - i]`, then
`best[swapi + 1 + i] = temp[i]`, for `i` in `0..spin-1`. -/
def reverseSegment (best : Nat → Int) (swapi swapj : Nat) : Nat → Int :=
  let spin := swapj - swapi
  let temp : Nat → Int :=
    (List.range spin).foldl (fun t i => upd t i (best (swapj - i))) (fun _ => 0)
  (List.range spin).foldl (fun b i => upd b (swapi + 1 + i) (temp i)) best

/-- One pass of the loop of line 226 up to the clock comparison (lines 227-257): the array
after the pass and the flag `imp_found`. -/
def pass (dist : Matrix) (size : Nat) (best : Nat → Int) : (Nat → Int) × Bool :=
  let s := scan dist size best
  if s.imp_found then
    let swapped := reverseSegment best s.swapi s.swapj
    (upd swapped 0 (wrap (swapped 0 - s.improve)), true)
  else (best, false)

/-- The function `optimizePath`, run for at most `fuel` passes; `t` is the number of clock
comparisons made so far.  The flag of the result tells how the function ended: `true` by
the `return` of line 264, `false` by leaving the loop with `imp_found` unset. -/
def optimizePath (clock : Nat → Bool) (dist : Matrix) (size : Nat) :
    Nat → Nat → (Nat → Int) → Option ((Nat → Int) × Bool)
  | 0, _, _ => none
  | fuel + 1, t, best =>
    if clock t then some ((pass dist size best).1, true)
    else if (pass dist size best).2 then
      optimizePath clock dist size fuel (t + 1) (pass dist size best).1
    else some ((pass dist size best).1, false)

/-- The array after `k` passes of the loop of line 226. -/
def passes (dist : Matrix) (size : Nat) : Nat → (Nat → Int) → (Nat → Int)
  | 0, best => best
  | k + 1, best => passes dist size k (pass dist size best).1

/-! ## Notions used to state the properties -/

/-- The closed-tour length recomputed from the table:
`d[best[1]][best[2]] + ... + d[best[n-1]][best[n]]` plus the closing edge
`d[best[n]][best[1]]`, in unbounded integers. -/
def tourLength (dist : Matrix) (n : Nat) (best : Nat → Int) : Int :=
  (∑ p ∈ Finset.Ico 1 n, dist (best p) (best (p + 1))) + dist (best n) (best 1)

/-- The cities at the positions `1..n` of a tour array. -/
def tourCities (n : Nat) (best : Nat → Int) : List Int :=
  (List.range n).map (fun p => best (p + 1))

/-- The positions `1..n` of `best` hold a permutation of `0..n-1`. -/
def IsTour (n : Nat) (best : Nat → Int) : Prop :=
  List.Perm (tourCities n best) ((List.range n).map (fun c : Nat => (c : Int)))

/-- The gain of the 2-opt move on the edges leaving the positions `p` and `q`, in unbounded
integers: `d[best[p]][best[p+1]] + d[best[q]][best[q+1]] - d[best[p]][best[q]] -
d[best[p+1]][best[q+1]]`. -/
def gain (dist : Matrix) (best : Nat → Int) (p q : Nat) : Int :=
  dist (best p) (best (p + 1)) + dist (best q) (best (q + 1)) - dist (best p) (best q) -
    dist (best (p + 1)) (best (q + 1))

/-- The tour array after the 2-opt move on the edges leaving the positions `p` and `q`: the
positions `p+1..q` in reverse order, every other position as before.  For `q = n` the
second edge is the closing edge from `best[n]` to `best[1]`. -/
def twoOpt (best : Nat → Int) (p q : Nat) : Nat → Int :=
  fun k => if p < k ∧ k ≤ q then best (p + 1 + q - k) else best k

/-- The state of the scan is consistent: `improve` is never negative, it is `0` as long as
`imp_found` is unset, and once `imp_found` is set it is the positive value of `check` at the
recorded pair, whose positions satisfy `1 ≤ swapi`, `swapi + 2 ≤ swapj < size`. -/
def ScanOK (dist : Matrix) (size : Nat) (best : Nat → Int) (s : Scan) : Prop :=
  0 ≤ s.improve ∧ (s.imp_found = false → s.improve = 0) ∧
    (s.imp_found = true →
      0 < s.improve ∧ 1 ≤ s.swapi ∧ s.swapi + 2 ≤ s.swapj ∧ s.swapj + 1 ≤ size ∧
        s.improve = check dist best (s.swapi - 1) (s.swapj - 1))

/-- An array given by the list of its first cells (`0` beyond them). -/
def arr (l : List Int) : Nat → Int := fun p => l.getD p 0

/-- A clock that never reaches the limit. -/
def never : Nat → Bool := fun _ => false

/-- The state of the attempt from the start `s` once the positions `1..m` of `temp` are
filled: they hold distinct cities below `n`, which are exactly the cities marked in
`visited`; `temp[0]` is the 32-bit value of the length of the path `temp[1..m]`; `next` is
the city added last. -/
def PathInv (dist : Matrix) (n s m : Nat) (st : NNState) : Prop :=
  st.temp 1 = (s : Int) ∧
    (∀ p, 1 ≤ p → p ≤ m → ∃ c : Nat, c < n ∧ st.temp p = (c : Int) ∧ st.visited c = true) ∧
    (∀ c : Nat, c < n → st.visited c = true → ∃ p, 1 ≤ p ∧ p ≤ m ∧ st.temp p = (c : Int)) ∧
    (∀ p q, 1 ≤ p → p < q → q ≤ m → st.temp p ≠ st.temp q) ∧
    st.temp 0 = wrap (∑ k ∈ Finset.Ico 1 m, dist (st.temp k) (st.temp (k + 1))) ∧
    (2 ≤ m → st.next = st.temp m)

/-- A state of `initialPath` in which every variable and array cell is zero. -/
def zeroState : NNState :=
  { visited := fun _ => false, temp := fun _ => 0, best := fun _ => 0, next := 0, min := 0,
    timed_out := false, checks := 0 }

/-- The array `temp` that the attempt from the start `s` builds when the clock never reaches
the limit (lines 139-172): `temp[0]` is the cost of the attempt, `temp[1..n]` its tour;
`none` when a selection finds no city. -/
def nnAttempt (dist : Matrix) (n s : Nat) : Option (Nat → Int) :=
  (attempt never dist n s zeroState).map (fun st => st.temp)

/-- The nearest-neighbour tours of all the starts that `initialPath` attempts, the multiples
of `jump n` below `n`, are built and have a closed-tour length below `INT_MAX`. -/
def NNCostsBelowIntMax (dist : Matrix) (n : Nat) : Prop :=
  ∀ s, s < n → s % jump n = 0 →
    ∃ t, nnAttempt dist n s = some t ∧ tourLength dist n t < INT_MAX

/-- The positions `0..n` of `best` hold the cheapest attempt among the attempted starts
below `i`, and among the cheapest ones the attempt of the smallest start. -/
def BestOf (dist : Matrix) (n i : Nat) (best : Nat → Int) : Prop :=
  ∃ s t, s < i ∧ s < n ∧ s % jump n = 0 ∧ nnAttempt dist n s = some t ∧
    (∀ p, p ≤ n → best p = t p) ∧
    ∀ s' t', s' < i → s' < n → s' % jump n = 0 → nnAttempt dist n s' = some t' →
      t 0 ≤ t' 0 ∧ (t' 0 = t 0 → s ≤ s')

/-- The entries of the table between the cities `0..n-1` are below `bound`. -/
def EntriesBelow (dist : Matrix) (n : Nat) (bound : Int) : Prop :=
  ∀ a : Nat, a < n → ∀ b : Nat, b < n → dist a b < bound

instance (dist : Matrix) (n : Nat) (bound : Int) : Decidable (EntriesBelow dist n bound) := by
  unfold EntriesBelow
  infer_instance

/-- The city at the position `j` of `temp` is a nearest unvisited neighbour of the city at
the position `j - 1`: it is a city below `n` that is not among `temp[1..j-1]`, no city
outside `temp[1..j-1]` is closer to `temp[j-1]`, and every such city of smaller index is
strictly farther. -/
def Selected (dist : Matrix) (n : Nat) (temp : Nat → Int) (j : Nat) : Prop :=
  ∃ c : Nat, c < n ∧ temp j = (c : Int) ∧ (∀ p, 1 ≤ p → p < j → temp p ≠ (c : Int)) ∧
    ∀ c' : Nat, c' < n → (∀ p, 1 ≤ p → p < j → temp p ≠ (c' : Int)) →
      dist (temp (j - 1)) (c : Int) ≤ dist (temp (j - 1)) (c' : Int) ∧
        (c' < c → dist (temp (j - 1)) (c : Int) < dist (temp (j - 1)) (c' : Int))

/-- The body of the loop of line 137 run for `k` starts in a row, from the start `i` on,
whatever `timed_out` holds: the state after `k` attempts. -/
def attempts (clock : Nat → Bool) (dist : Matrix) (size : Nat) :
    Nat → Nat → NNState → Option NNState
  | 0, _, st => some st
  | k + 1, i, st =>
    (attempt clock dist size i st).bind (attempts clock dist size k (i + jump size))

/-- The values that `i` takes in the loop of line 137 from `i` on while `timed_out` stays
unset: `i`, `i + jump`, ... as long as `i < size`. -/
def startsFrom (size : Nat) : Nat → Nat → List Nat
  | 0, _ => []
  | fuel + 1, i => if i < size then i :: startsFrom size fuel (i + jump size) else []

/-- The starting vertices that `initialPath` attempts when the clock never reaches the
limit. -/
def attemptedStarts (size : Nat) : List Nat := startsFrom size size 0

/-- The four cities `(0,0)`, `(0,10)`, `(10,10)`, `(10,0)`, numbered `0..3` in the order in
which they are read. -/
def squareCities : List City := [⟨0, 0, 0⟩, ⟨1, 0, 10⟩, ⟨2, 10, 10⟩, ⟨3, 10, 0⟩]

/-- Six cities of a small grid, `(0,3)`, `(0,2)`, `(5,1)`, `(2,0)`, `(1,0)`, `(0,0)`,
numbered `0..5` in the order in which they are read. -/
def gridCities : List City :=
  [⟨0, 0, 3⟩, ⟨1, 0, 2⟩, ⟨2, 5, 1⟩, ⟨3, 2, 0⟩, ⟨4, 1, 0⟩, ⟨5, 0, 0⟩]

/-- The table that `processInput` builds for `gridCities`, written out:
`d[i][j]` is the Euclidean distance of the cities `i` and `j` rounded to the nearest
integer. -/
def gridDist : Matrix := fun a b =>
  ((([[0, 1, 5, 4, 3, 3], [1, 0, 5, 3, 2, 2], [5, 5, 0, 3, 4, 5], [4, 3, 3, 0, 1, 2],
      [3, 2, 4, 1, 0, 1], [3, 2, 5, 2, 1, 0]] : List (List Int)).getD a.toNat []).getD
    b.toNat 0)

/-- The table that `processInput` builds for `gridCities` in storage that held zeros. -/
def gridTable : Matrix := (processInput gridCities (fun _ _ => 0)).1

/-- Four cities on a line, at `x = 0, 10000, 20000, 50000` (`y = 0`), numbered `0..3` in the
order in which they are read. -/
def lineCities : List City := [⟨0, 0, 0⟩, ⟨1, 10000, 0⟩, ⟨2, 20000, 0⟩, ⟨3, 50000, 0⟩]

/-- The table that `processInput` builds for `lineCities` in storage that held zeros. -/
def lineTable : Matrix := (processInput lineCities (fun _ _ => 0)).1

/-- Five cities on a line, at `x = 0, 10000, 20000, 30000, 50000` (`y = 0`), numbered `0..4`
in the order in which they are read. -/
def lineCities5 : List City :=
  [⟨0, 0, 0⟩, ⟨1, 10000, 0⟩, ⟨2, 20000, 0⟩, ⟨3, 30000, 0⟩, ⟨4, 50000, 0⟩]

/-- The table that `processInput` builds for `lineCities5` in storage that held zeros. -/
def lineTable5 : Matrix := (processInput lineCities5 (fun _ _ => 0)).1

/-- Four cities on a line, at `x = 0, 10000, 40000, 60000` (`y = 0`), numbered `0..3` in the
order in which they are read. -/
def farCities : List City := [⟨0, 0, 0⟩, ⟨1, 10000, 0⟩, ⟨2, 40000, 0⟩, ⟨3, 60000, 0⟩]

/-- The table that `processInput` builds for `farCities` in storage that held zeros. -/
def farTable : Matrix := (processInput farCities (fun _ _ => 0)).1

/-- The entries of `lineTable`, written out: a distance below `46341` is stored as it is,
the distance `50000` of the cities `0` and `3` as `INT_MIN`. -/
def lineDist : Matrix := fun a b =>
  ((([[0, 10000, 20000, -2147483648], [10000, 0, 10000, 40000], [20000, 10000, 0, 30000],
      [-2147483648, 40000, 30000, 0]] : List (List Int)).getD a.toNat []).getD b.toNat 0)

/-- The entries of `lineTable5`, written out: a distance below `46341` is stored as it is,
the distance `50000` of the cities `0` and `4` as `INT_MIN`. -/
def lineDist5 : Matrix := fun a b =>
  ((([[0, 10000, 20000, 30000, -2147483648], [10000, 0, 10000, 20000, 40000],
      [20000, 10000, 0, 10000, 30000], [30000, 20000, 10000, 0, 20000],
      [-2147483648, 40000, 30000, 20000, 0]] : List (List Int)).getD a.toNat []).getD
    b.toNat 0)

/-- The entries of `farTable`, written out: a distance below `46341` is stored as it is, the
distances `60000` and `50000` of the city `3` from the cities `0` and `1` as `INT_MIN`. -/
def farDist : Matrix := fun a b =>
  ((([[0, 10000, 40000, -2147483648], [10000, 0, 30000, -2147483648],
      [40000, 30000, 0, 20000], [-2147483648, -2147483648, 20000, 0]] :
      List (List Int)).getD a.toNat []).getD b.toNat 0)

/-- Two tables hold the same entries between the cities `0..n-1`. -/
def AgreeOn (dist dist2 : Matrix) (n : Nat) : Prop :=
  ∀ a : Nat, a < n → ∀ b : Nat, b < n → dist a b = dist2 a b

/-- The table is symmetric on the cities `0..n-1`. -/
def SymmetricOn (dist : Matrix) (n : Nat) : Prop :=
  ∀ a : Nat, a < n → ∀ b : Nat, b < n → dist a b = dist b a

instance (dist : Matrix) (n : Nat) : Decidable (SymmetricOn dist n) := by
  unfold SymmetricOn
  infer_instance

/-- The entries of the table between the cities `0..n-1` are non-negative and below
`bound`. -/
def EntriesIn (dist : Matrix) (n : Nat) (bound : Int) : Prop :=
  ∀ a : Nat, a < n → ∀ b : Nat, b < n → 0 ≤ dist a b ∧ dist a b < bound

instance (dist : Matrix) (n : Nat) (bound : Int) : Decidable (EntriesIn dist n bound) := by
  unfold EntriesIn
  infer_instance

instance (n : Nat) (best : Nat → Int) : Decidable (IsTour n best) := by
  unfold IsTour
  infer_instance

/-- The distance table of the four cities `(0,0)`, `(0,10)`, `(10,10)`, `(10,0)`: the sides
are `10`, the two diagonals round to `14`. -/
def squareDist : Matrix := fun a b =>
  if a = b then 0 else if (a + b) % 2 = 0 then 14 else 10

/-- A symmetric table of non-negative `int` entries on five cities in which the sum of two
entries exceeds `INT_MAX`: `d[0][2] = 2^30 + 1`, `d[1][3] = 2^30`, `d[3][4] = 5`, every
other entry `0`. -/
def wrapDist : Matrix := fun a b =>
  if min a b = 0 ∧ max a b = 2 then 1073741825
  else if min a b = 1 ∧ max a b = 3 then 1073741824
  else if min a b = 3 ∧ max a b = 4 then 5
  else 0

/-! ## Machine integers and arrays: lemmas -/

theorem wrap_of_range {x : Int} (h1 : INT_MIN ≤ x) (h2 : x ≤ INT_MAX) : wrap x = x := by
  unfold wrap; unfold INT_MIN at h1; unfold INT_MAX at h2; omega

theorem wrap_range (x : Int) : INT_MIN ≤ wrap x ∧ wrap x ≤ INT_MAX := by
  unfold wrap INT_MIN INT_MAX; omega

theorem wrap_add_wrap (a b : Int) : wrap (wrap a + b) = wrap (a + b) := by
  unfold wrap; omega

theorem upd_apply {α : Type} (a : Nat → α) (i : Nat) (v : α) (p : Nat) :
    upd a i v p = if p = i then v else a p := rfl

theorem foldl_upd_range {α : Type} (g : Nat → α) (o m : Nat) (t0 : Nat → α) (p : Nat) :
    (List.range m).foldl (fun t k => upd t (o + k) (g k)) t0 p =
      if o ≤ p ∧ p < o + m then g (p - o) else t0 p := by
  induction m with
  | zero =>
    have : ¬ (o ≤ p ∧ p < o + 0) := by omega
    rw [if_neg this]; rfl
  | succ m ih =>
    rw [List.range_succ, List.foldl_append]
    simp only [List.foldl_cons, List.foldl_nil, upd_apply, ih]
    by_cases h : p = o + m
    · subst h; simp
    · simp only [h, if_false]
      by_cases h2 : o ≤ p ∧ p < o + m
      · have : o ≤ p ∧ p < o + (m + 1) := ⟨h2.1, by omega⟩
        simp [h2, this]
      · have : ¬ (o ≤ p ∧ p < o + (m + 1)) := by omega
        simp [h2, this]

theorem foldl_upd_range0 {α : Type} (g : Nat → α) (m : Nat) (t0 : Nat → α) (p : Nat) :
    (List.range m).foldl (fun t k => upd t k (g k)) t0 p = if p < m then g p else t0 p := by
  have h := foldl_upd_range g 0 m t0 p
  simpa using h

/-- A loop invariant that may mention the part of the list already processed. -/
theorem foldl_invariant {α β : Type} (P : List α → β → Prop) (f : β → α → β) (b : β)
    (l : List α) (h0 : P [] b)
    (hstep : ∀ pre a acc, pre ++ [a] <+: l → P pre acc → P (pre ++ [a]) (f acc a)) :
    P l (l.foldl f b) := by
  induction l using List.reverseRecOn with
  | nil => simpa using h0
  | append_singleton l a ih =>
    rw [List.foldl_append]
    simp only [List.foldl_cons, List.foldl_nil]
    apply hstep l a _ (List.prefix_refl _)
    apply ih
    intro pre x acc hpre hP
    exact hstep pre x acc (hpre.trans (List.prefix_append l [a])) hP

/-! ## processInput: the table it builds -/

theorem set2_apply (T : Matrix) (i j : Nat) (v : Int) (a b : Int) :
    set2 T i j v a b = if a = (i : Int) ∧ b = (j : Int) then v else T a b := rfl

theorem fillCell_apply (cities : List City) (i j : Nat) (T : Matrix) (a b : Nat) :
    fillCell cities i T j a b =
      if a = j ∧ b = i then
        cityDist (cities.getD i ⟨0, 0, 0⟩) (cities.getD j ⟨0, 0, 0⟩)
      else if a = i ∧ b = j then
        cityDist (cities.getD i ⟨0, 0, 0⟩) (cities.getD j ⟨0, 0, 0⟩)
      else T a b := by
  unfold fillCell
  simp only [set2_apply, Nat.cast_inj, and_self, if_true]

theorem fillRow_upto (cities : List City) (i m : Nat) (T : Matrix) (a b : Nat) :
    (List.range' i m).foldl (fillCell cities i) T a b =
      if a = i ∧ i ≤ b ∧ b < i + m then
        cityDist (cities.getD i ⟨0, 0, 0⟩) (cities.getD b ⟨0, 0, 0⟩)
      else if b = i ∧ i ≤ a ∧ a < i + m then
        cityDist (cities.getD i ⟨0, 0, 0⟩) (cities.getD a ⟨0, 0, 0⟩)
      else T a b := by
  induction m with
  | zero =>
    have h1 : ¬ (a = i ∧ i ≤ b ∧ b < i + 0) := by omega
    have h2 : ¬ (b = i ∧ i ≤ a ∧ a < i + 0) := by omega
    rw [if_neg h1, if_neg h2]; rfl
  | succ m ih =>
    rw [List.range'_1_concat, List.foldl_append]
    simp only [List.foldl_cons, List.foldl_nil]
    rw [fillCell_apply, ih]
    by_cases hb : a = i + m ∧ b = i
    · obtain ⟨ha, hb⟩ := hb
      subst ha; subst hb
      by_cases hm : m = 0
      · subst hm; simp
      · have h3 : ¬ (b + m = b ∧ b ≤ b ∧ b < b + (m + 1)) := by omega
        have h4 : (b = b ∧ b ≤ b + m ∧ b + m < b + (m + 1)) := by omega
        rw [if_pos ⟨rfl, rfl⟩, if_neg h3, if_pos h4]
    · rw [if_neg hb]
      by_cases ha : a = i ∧ b = i + m
      · obtain ⟨ha, hb2⟩ := ha
        subst ha; subst hb2
        have h4 : (a = a ∧ a ≤ a + m ∧ a + m < a + (m + 1)) := by omega
        simp [h4]
      · rw [if_neg ha]
        by_cases h1 : a = i ∧ i ≤ b ∧ b < i + m
        · have h1b : a = i ∧ i ≤ b ∧ b < i + (m + 1) := by omega
          rw [if_pos h1, if_pos h1b]
        · have h1b : ¬ (a = i ∧ i ≤ b ∧ b < i + (m + 1)) := by omega
          rw [if_neg h1, if_neg h1b]
          by_cases h2 : b = i ∧ i ≤ a ∧ a < i + m
          · have h2b : b = i ∧ i ≤ a ∧ a < i + (m + 1) := by omega
            rw [if_pos h2, if_pos h2b]
          · have h2b : ¬ (b = i ∧ i ≤ a ∧ a < i + (m + 1)) := by omega
            rw [if_neg h2, if_neg h2b]

theorem fillRow_apply (cities : List City) (size i : Nat) (T : Matrix) (a b : Nat) :
    fillRow cities size i T a b =
      if a = i ∧ i ≤ b ∧ b < size then
        cityDist (cities.getD i ⟨0, 0, 0⟩) (cities.getD b ⟨0, 0, 0⟩)
      else if b = i ∧ i ≤ a ∧ a < size then
        cityDist (cities.getD i ⟨0, 0, 0⟩) (cities.getD a ⟨0, 0, 0⟩)
      else T a b := by
  unfold fillRow
  rw [fillRow_upto]
  by_cases h1 : a = i ∧ i ≤ b ∧ b < size
  · have h1b : a = i ∧ i ≤ b ∧ b < i + (size - i) := by omega
    rw [if_pos h1, if_pos h1b]
  · have h1b : ¬ (a = i ∧ i ≤ b ∧ b < i + (size - i)) := by omega
    rw [if_neg h1, if_neg h1b]
    by_cases h2 : b = i ∧ i ≤ a ∧ a < size
    · have h2b : b = i ∧ i ≤ a ∧ a < i + (size - i) := by omega
      rw [if_pos h2, if_pos h2b]
    · have h2b : ¬ (b = i ∧ i ≤ a ∧ a < i + (size - i)) := by omega
      rw [if_neg h2, if_neg h2b]

/-- After the rows `0..m-1`, the entries `[a][b]` and `[b][a]` with `a < m`, `a ≤ b < size`
both hold the value computed for the pair `(a, b)`. -/
theorem rows_upto (cities : List City) (size m : Nat) (mem : Matrix) (a b : Nat)
    (hab : a ≤ b) (hb : b < size) (ham : a < m) :
    (List.range m).foldl (fun T i => fillRow cities size i T) mem a b =
        cityDist (cities.getD a ⟨0, 0, 0⟩) (cities.getD b ⟨0, 0, 0⟩) ∧
      (List.range m).foldl (fun T i => fillRow cities size i T) mem b a =
        cityDist (cities.getD a ⟨0, 0, 0⟩) (cities.getD b ⟨0, 0, 0⟩) := by
  induction m with
  | zero => omega
  | succ m ih =>
    rw [List.range_succ, List.foldl_append]
    simp only [List.foldl_cons, List.foldl_nil]
    rw [fillRow_apply, fillRow_apply]
    by_cases hm : a = m
    · subst hm
      have h1 : a = a ∧ a ≤ b ∧ b < size := by omega
      rw [if_pos h1]
      refine ⟨rfl, ?_⟩
      by_cases hba : b = a
      · subst hba; rw [if_pos h1]
      · have h2 : ¬ (b = a ∧ a ≤ a ∧ a < size) := by omega
        have h3 : a = a ∧ a ≤ b ∧ b < size := by omega
        rw [if_neg h2, if_pos h3]
    · have ham2 : a < m := by omega
      have h1 : ¬ (a = m ∧ m ≤ b ∧ b < size) := by omega
      have h2 : ¬ (b = m ∧ m ≤ a ∧ a < size) := by omega
      have h3 : ¬ (b = m ∧ m ≤ a ∧ a < size) := by omega
      have h4 : ¬ (a = m ∧ m ≤ b ∧ b < size) := by omega
      rw [if_neg h1, if_neg h2, if_neg h3, if_neg h4]
      exact ih ham2

/-- Every entry of the table is the value computed for the pair ordered by index. -/
theorem processInput_entry (cities : List City) (mem : Matrix) (i j : Nat)
    (hi : i < cities.length) (hj : j < cities.length) :
    (processInput cities mem).1 i j =
      cityDist (cities.getD (min i j) ⟨0, 0, 0⟩) (cities.getD (max i j) ⟨0, 0, 0⟩) := by
  unfold processInput
  simp only
  rcases Nat.le_total i j with h | h
  · rw [min_eq_left h, max_eq_right h]
    exact (rows_upto cities cities.length cities.length mem i j h hj hi).1
  · rw [min_eq_right h, max_eq_left h]
    exact (rows_upto cities cities.length cities.length mem j i h hi hj).2

theorem cityDist_self (p : City) : cityDist p p = 0 := by
  unfold cityDist sqDiff
  simp only [sub_self]
  decide

/-! ## processInput: rounding -/

theorem roundSqrt_nearest (m : Int) (h0 : 0 ≤ m) :
    0 ≤ roundSqrt m ∧ |((roundSqrt m : Int) : ℝ) - Real.sqrt (m : ℝ)| < 1 / 2 := by
  obtain ⟨M, rfl⟩ := Int.eq_ofNat_of_zero_le h0
  have hs1 : Nat.sqrt M * Nat.sqrt M ≤ M := Nat.sqrt_le M
  have hs2 : M < (Nat.sqrt M + 1) * (Nat.sqrt M + 1) := Nat.lt_succ_sqrt M
  have hs1r : (Nat.sqrt M : ℝ) * (Nat.sqrt M : ℝ) ≤ (M : ℝ) := by exact_mod_cast hs1
  have hs2r : (M : ℝ) < ((Nat.sqrt M : ℝ) + 1) * ((Nat.sqrt M : ℝ) + 1) := by exact_mod_cast hs2
  have hs0 : (0 : ℝ) ≤ (Nat.sqrt M : ℝ) := Nat.cast_nonneg _
  have hupper : Real.sqrt (M : ℝ) < (Nat.sqrt M : ℝ) + 1 := by
    rw [Real.sqrt_lt' (by linarith)]
    nlinarith
  have hlower : (Nat.sqrt M : ℝ) ≤ Real.sqrt (M : ℝ) := by
    apply Real.le_sqrt_of_sq_le
    nlinarith
  unfold roundSqrt
  rw [if_neg (by omega)]
  simp only [Int.toNat_ofNat, Int.cast_natCast]
  split_ifs with h
  · refine ⟨by positivity, ?_⟩
    have hM : Nat.sqrt M * Nat.sqrt M + Nat.sqrt M + 1 ≤ M := by omega
    have hMr : (Nat.sqrt M : ℝ) * (Nat.sqrt M : ℝ) + (Nat.sqrt M : ℝ) + 1 ≤ (M : ℝ) := by
      exact_mod_cast hM
    have hhalf : (Nat.sqrt M : ℝ) + 1 / 2 < Real.sqrt (M : ℝ) := by
      rw [Real.lt_sqrt (by linarith)]
      nlinarith
    push_cast
    rw [abs_lt]
    constructor <;> linarith
  · refine ⟨by positivity, ?_⟩
    have hM : M ≤ Nat.sqrt M * Nat.sqrt M + Nat.sqrt M := by omega
    have hMr : (M : ℝ) ≤ (Nat.sqrt M : ℝ) * (Nat.sqrt M : ℝ) + (Nat.sqrt M : ℝ) := by
      exact_mod_cast hM
    have hhalf : Real.sqrt (M : ℝ) < (Nat.sqrt M : ℝ) + 1 / 2 := by
      rw [Real.sqrt_lt' (by linarith)]
      nlinarith
    push_cast
    rw [abs_lt]
    constructor <;> linarith

/-- Without overflow the argument of the root is the squared Euclidean distance. -/
theorem cityDist_of_fit (p q : City)
    (hfit : (p.x - q.x) ^ 2 + (p.y - q.y) ^ 2 ≤ INT_MAX) :
    cityDist p q = roundSqrt ((p.x - q.x) ^ 2 + (p.y - q.y) ^ 2) := by
  unfold INT_MAX at hfit
  have hx2 : 0 ≤ (p.x - q.x) ^ 2 := sq_nonneg _
  have hy2 : 0 ≤ (p.y - q.y) ^ 2 := sq_nonneg _
  have hx : -46341 < p.x - q.x ∧ p.x - q.x < 46341 := by constructor <;> nlinarith
  have hy : -46341 < p.y - q.y ∧ p.y - q.y < 46341 := by constructor <;> nlinarith
  have wx : wrap (p.x - q.x) = p.x - q.x :=
    wrap_of_range (by unfold INT_MIN; omega) (by unfold INT_MAX; omega)
  have wy : wrap (p.y - q.y) = p.y - q.y :=
    wrap_of_range (by unfold INT_MIN; omega) (by unfold INT_MAX; omega)
  have wxx : wrap ((p.x - q.x) * (p.x - q.x)) = (p.x - q.x) ^ 2 := by
    rw [wrap_of_range (by unfold INT_MIN; nlinarith) (by unfold INT_MAX; nlinarith)]
    ring
  have wyy : wrap ((p.y - q.y) * (p.y - q.y)) = (p.y - q.y) ^ 2 := by
    rw [wrap_of_range (by unfold INT_MIN; nlinarith) (by unfold INT_MAX; nlinarith)]
    ring
  unfold cityDist sqDiff
  rw [wx, wy, wxx, wyy, wrap_of_range (by unfold INT_MIN; omega) (by unfold INT_MAX; omega)]

theorem cityDist_nearest (p q : City)
    (hfit : (p.x - q.x) ^ 2 + (p.y - q.y) ^ 2 ≤ INT_MAX) :
    0 ≤ cityDist p q ∧
      |((cityDist p q : Int) : ℝ) -
        Real.sqrt ((((p.x - q.x) ^ 2 + (p.y - q.y) ^ 2 : Int)) : ℝ)| < 1 / 2 := by
  rw [cityDist_of_fit p q hfit]
  exact roundSqrt_nearest _ (by positivity)

theorem nearest_int_unique (x : ℝ) (d r : Int) (hd : |(d : ℝ) - x| < 1 / 2)
    (hr : |(r : ℝ) - x| < 1 / 2) : r = d := by
  rw [abs_lt] at hd hr
  have h1 : ((r - d : Int) : ℝ) < 1 := by push_cast; linarith
  have h2 : (-1 : ℝ) < ((r - d : Int) : ℝ) := by push_cast; linarith
  have h3 : r - d < 1 := by exact_mod_cast h1
  have h4 : -1 < r - d := by exact_mod_cast h2
  omega

/-! ## processInput: the claims -/

/-- C8: the table built by `processInput` is symmetric, `d[i][j] = d[j][i]`, and has a zero
diagonal, `d[i][i] = 0`, for all indices below the returned size. -/
theorem processInput_symmetric_zero_diagonal (cities : List City) (mem : Matrix) (i j : Nat)
    (hi : i < (processInput cities mem).2) (hj : j < (processInput cities mem).2) :
    (processInput cities mem).1 i j = (processInput cities mem).1 j i ∧
      (processInput cities mem).1 i i = 0 := by
  have hi2 : i < cities.length := hi
  have hj2 : j < cities.length := hj
  constructor
  · rw [processInput_entry cities mem i j hi2 hj2, processInput_entry cities mem j i hj2 hi2,
      min_comm, max_comm]
  · rw [processInput_entry cities mem i i hi2 hi2, min_self, max_self, cityDist_self]

theorem processInput_symmetric_zero_diagonal_witness :
    (0 < (processInput [⟨1, 0, 0⟩, ⟨2, 3, 4⟩] (fun _ _ => 0)).2 ∧
        1 < (processInput [⟨1, 0, 0⟩, ⟨2, 3, 4⟩] (fun _ _ => 0)).2) ∧
      (processInput [⟨1, 0, 0⟩, ⟨2, 3, 4⟩] (fun _ _ => 0)).1 (0 : Nat) (1 : Nat) =
          (processInput [⟨1, 0, 0⟩, ⟨2, 3, 4⟩] (fun _ _ => 0)).1 (1 : Nat) (0 : Nat) ∧
        (processInput [⟨1, 0, 0⟩, ⟨2, 3, 4⟩] (fun _ _ => 0)).1 (0 : Nat) (0 : Nat) = 0 :=
  ⟨⟨by decide, by decide⟩,
    processInput_symmetric_zero_diagonal [⟨1, 0, 0⟩, ⟨2, 3, 4⟩] (fun _ _ => 0) 0 1
      (by decide) (by decide)⟩

/-- C9, the input on which the code departs from it: for the cities `(0, 0)` and
`(65536, 0)` the product `(0 - 65536) * (0 - 65536)` is `2^32`, which a 32-bit `int` holds
as `0`, so the entry `d[0][1]` is `0` although the Euclidean distance is `65536`. -/
theorem processInput_entry_overflow :
    (processInput [⟨1, 0, 0⟩, ⟨2, 65536, 0⟩] (fun _ _ => 0)).1 (0 : Nat) (1 : Nat) = 0 ∧
      ¬ |(((processInput [⟨1, 0, 0⟩, ⟨2, 65536, 0⟩] (fun _ _ => 0)).1 (0 : Nat) (1 : Nat) :
            Int) : ℝ) -
          Real.sqrt ((((0 - 65536) ^ 2 + (0 - 0) ^ 2 : Int)) : ℝ)| < 1 / 2 := by
  have h : (processInput [⟨1, 0, 0⟩, ⟨2, 65536, 0⟩] (fun _ _ => 0)).1 (0 : Nat) (1 : Nat) = 0 := by
    decide
  refine ⟨h, ?_⟩
  rw [h]
  have hs : Real.sqrt ((((0 - 65536) ^ 2 + (0 - 0) ^ 2 : Int)) : ℝ) = 65536 := by
    rw [show ((((0 - 65536) ^ 2 + (0 - 0) ^ 2 : Int)) : ℝ) = (65536 : ℝ) ^ 2 by norm_num]
    exact Real.sqrt_sq (by norm_num)
  rw [hs]
  norm_num

/-- C9, where nothing overflows: when the squared distance `(xi - xj)^2 + (yi - yj)^2` of
the cities `i` and `j` does not exceed `INT_MAX`, the entry `d[i][j]` is the non-negative
integer nearest to the Euclidean distance, and the only integer within `1/2` of it. -/
theorem processInput_entry_nearest (cities : List City) (mem : Matrix) (i j : Nat)
    (hi : i < (processInput cities mem).2) (hj : j < (processInput cities mem).2)
    (hfit : ((cities.getD i ⟨0, 0, 0⟩).x - (cities.getD j ⟨0, 0, 0⟩).x) ^ 2 +
      ((cities.getD i ⟨0, 0, 0⟩).y - (cities.getD j ⟨0, 0, 0⟩).y) ^ 2 ≤ INT_MAX) :
    0 ≤ (processInput cities mem).1 i j ∧
      |(((processInput cities mem).1 i j : Int) : ℝ) -
          Real.sqrt (((((cities.getD i ⟨0, 0, 0⟩).x - (cities.getD j ⟨0, 0, 0⟩).x) ^ 2 +
            ((cities.getD i ⟨0, 0, 0⟩).y - (cities.getD j ⟨0, 0, 0⟩).y) ^ 2 : Int)) : ℝ)|
        < 1 / 2 ∧
      ∀ r : Int,
        |(r : ℝ) -
          Real.sqrt (((((cities.getD i ⟨0, 0, 0⟩).x - (cities.getD j ⟨0, 0, 0⟩).x) ^ 2 +
            ((cities.getD i ⟨0, 0, 0⟩).y - (cities.getD j ⟨0, 0, 0⟩).y) ^ 2 : Int)) : ℝ)|
          < 1 / 2 → r = (processInput cities mem).1 i j := by
  have hi2 : i < cities.length := hi
  have hj2 : j < cities.length := hj
  have key : 0 ≤ (processInput cities mem).1 i j ∧
      |(((processInput cities mem).1 i j : Int) : ℝ) -
          Real.sqrt (((((cities.getD i ⟨0, 0, 0⟩).x - (cities.getD j ⟨0, 0, 0⟩).x) ^ 2 +
            ((cities.getD i ⟨0, 0, 0⟩).y - (cities.getD j ⟨0, 0, 0⟩).y) ^ 2 : Int)) : ℝ)|
        < 1 / 2 := by
    rw [processInput_entry cities mem i j hi2 hj2]
    rcases Nat.le_total i j with h | h
    · rw [min_eq_left h, max_eq_right h]
      exact cityDist_nearest _ _ hfit
    · rw [min_eq_right h, max_eq_left h]
      have e : ((cities.getD i ⟨0, 0, 0⟩).x - (cities.getD j ⟨0, 0, 0⟩).x) ^ 2 +
          ((cities.getD i ⟨0, 0, 0⟩).y - (cities.getD j ⟨0, 0, 0⟩).y) ^ 2 =
          ((cities.getD j ⟨0, 0, 0⟩).x - (cities.getD i ⟨0, 0, 0⟩).x) ^ 2 +
          ((cities.getD j ⟨0, 0, 0⟩).y - (cities.getD i ⟨0, 0, 0⟩).y) ^ 2 := by ring
      rw [e] at hfit ⊢
      exact cityDist_nearest _ _ hfit
  exact ⟨key.1, key.2, fun r hr => nearest_int_unique _ _ r key.2 hr⟩

theorem processInput_entry_nearest_witness :
    ((0 < (processInput [⟨1, 0, 0⟩, ⟨2, 3, 4⟩] (fun _ _ => 0)).2 ∧
        1 < (processInput [⟨1, 0, 0⟩, ⟨2, 3, 4⟩] (fun _ _ => 0)).2) ∧
      ((0 : Int) - 3) ^ 2 + ((0 : Int) - 4) ^ 2 ≤ INT_MAX) ∧
      0 ≤ (processInput [⟨1, 0, 0⟩, ⟨2, 3, 4⟩] (fun _ _ => 0)).1 (0 : Nat) (1 : Nat) ∧
      |(((processInput [⟨1, 0, 0⟩, ⟨2, 3, 4⟩] (fun _ _ => 0)).1 (0 : Nat) (1 : Nat) : Int) : ℝ) -
          Real.sqrt (((((0 : Int) - 3) ^ 2 + ((0 : Int) - 4) ^ 2 : Int)) : ℝ)| < 1 / 2 ∧
      ∀ r : Int,
        |(r : ℝ) - Real.sqrt (((((0 : Int) - 3) ^ 2 + ((0 : Int) - 4) ^ 2 : Int)) : ℝ)| < 1 / 2 →
          r = (processInput [⟨1, 0, 0⟩, ⟨2, 3, 4⟩] (fun _ _ => 0)).1 (0 : Nat) (1 : Nat) :=
  ⟨⟨⟨by decide, by decide⟩, by decide⟩,
    processInput_entry_nearest [⟨1, 0, 0⟩, ⟨2, 3, 4⟩] (fun _ _ => 0) 0 1
      (by decide) (by decide) (by decide)⟩

/-! ## optimizePath: the scan -/

theorem scanStep_ok (dist : Matrix) (size : Nat) (best : Nat → Int) (i j : Nat) (s : Scan)
    (hj1 : i + 2 ≤ j) (hj2 : j + 1 < size) (hs : ScanOK dist size best s) :
    ScanOK dist size best (scanStep dist best i s j) := by
  unfold scanStep
  split_ifs with h
  · refine ⟨?_, ?_, ?_⟩
    · exact le_of_lt (lt_of_le_of_lt hs.1 h)
    · intro hf; exact absurd hf (by simp)
    · intro _
      refine ⟨lt_of_le_of_lt hs.1 h, ?_, ?_, ?_, ?_⟩
      · show 1 ≤ i + 1
        omega
      · show i + 1 + 2 ≤ j + 1
        omega
      · show j + 1 + 1 ≤ size
        omega
      · show check dist best i j = check dist best (i + 1 - 1) (j + 1 - 1)
        simp
  · exact hs

theorem scanStep_mono (dist : Matrix) (best : Nat → Int) (i j : Nat) (s : Scan) :
    s.improve ≤ (scanStep dist best i s j).improve ∧
      check dist best i j ≤ (scanStep dist best i s j).improve := by
  unfold scanStep
  split_ifs with h
  · exact ⟨le_of_lt h, le_refl _⟩
  · exact ⟨le_refl _, not_lt.1 h⟩

theorem scanRow_spec (dist : Matrix) (size : Nat) (best : Nat → Int) (i : Nat) (s : Scan)
    (hs : ScanOK dist size best s) :
    ScanOK dist size best (scanRow dist size best i s) ∧
      s.improve ≤ (scanRow dist size best i s).improve ∧
      ∀ j, i + 2 ≤ j → j + 1 < size →
        check dist best i j ≤ (scanRow dist size best i s).improve := by
  unfold scanRow
  have key := foldl_invariant
    (fun (pre : List Nat) (acc : Scan) =>
      ScanOK dist size best acc ∧ s.improve ≤ acc.improve ∧
        ∀ j ∈ pre, check dist best i j ≤ acc.improve)
    (scanStep dist best i) s (List.range' (i + 2) (size - 1 - (i + 2)))
    ⟨hs, le_refl _, by simp⟩
    (by
      intro pre a acc hpre hP
      have ha : a ∈ List.range' (i + 2) (size - 1 - (i + 2)) :=
        hpre.subset (by simp)
      rw [List.mem_range'_1] at ha
      obtain ⟨h1, h2, h3⟩ := hP
      have hm := scanStep_mono dist best i a acc
      refine ⟨scanStep_ok dist size best i a acc ha.1 (by omega) h1, le_trans h2 hm.1, ?_⟩
      intro j hj
      rw [List.mem_append, List.mem_singleton] at hj
      rcases hj with hj | hj
      · exact le_trans (h3 j hj) hm.1
      · subst hj; exact hm.2)
  refine ⟨key.1, key.2.1, ?_⟩
  intro j hj1 hj2
  apply key.2.2
  rw [List.mem_range'_1]
  omega

theorem scan_spec (dist : Matrix) (size : Nat) (best : Nat → Int) :
    ScanOK dist size best (scan dist size best) ∧
      ∀ i j, i + 2 ≤ j → j + 1 < size →
        check dist best i j ≤ (scan dist size best).improve := by
  unfold scan
  have key := foldl_invariant
    (fun (pre : List Nat) (acc : Scan) =>
      ScanOK dist size best acc ∧
        ∀ i ∈ pre, ∀ j, i + 2 ≤ j → j + 1 < size → check dist best i j ≤ acc.improve)
    (fun s i => scanRow dist size best i s)
    { improve := 0, swapi := 0, swapj := 0, imp_found := false }
    (List.range (size - 2))
    ⟨⟨le_refl _, fun _ => rfl, fun h => absurd h (by simp)⟩, by simp⟩
    (by
      intro pre a acc _ hP
      obtain ⟨h1, h2⟩ := hP
      have hr := scanRow_spec dist size best a acc h1
      refine ⟨hr.1, ?_⟩
      intro i hi j hj1 hj2
      rw [List.mem_append, List.mem_singleton] at hi
      rcases hi with hi | hi
      · exact le_trans (h2 i hi j hj1 hj2) hr.2.1
      · subst hi; exact hr.2.2 j hj1 hj2)
  refine ⟨key.1, ?_⟩
  intro i j hj1 hj2
  apply key.2 i _ j hj1 hj2
  rw [List.mem_range]
  omega

/-! ## optimizePath: the reversal -/

theorem reverseSegment_eq_twoOpt (best : Nat → Int) (swapi swapj : Nat) :
    reverseSegment best swapi swapj = twoOpt best swapi swapj := by
  funext p
  unfold reverseSegment twoOpt
  have h := foldl_upd_range
    (fun i => (List.range (swapj - swapi)).foldl (fun t k => upd t k (best (swapj - k)))
      (fun _ => 0) i) (swapi + 1) (swapj - swapi) best p
  show (List.range (swapj - swapi)).foldl
      (fun b i => upd b (swapi + 1 + i)
        ((List.range (swapj - swapi)).foldl (fun t k => upd t k (best (swapj - k)))
          (fun _ => 0) i)) best p = _
  rw [h]
  by_cases hp : swapi < p ∧ p ≤ swapj
  · have hp2 : swapi + 1 ≤ p ∧ p < swapi + 1 + (swapj - swapi) := by omega
    rw [if_pos hp, if_pos hp2, foldl_upd_range0]
    have hp3 : p - (swapi + 1) < swapj - swapi := by omega
    rw [if_pos hp3]
    congr 1
    omega
  · have hp2 : ¬ (swapi + 1 ≤ p ∧ p < swapi + 1 + (swapj - swapi)) := by omega
    rw [if_neg hp, if_neg hp2]

/-! ## Tours: permutations and lengths -/

theorem perm_range_of_injOn (n : Nat) (τ : Nat → Nat) (hlt : ∀ k, k < n → τ k < n)
    (hinj : ∀ x, x < n → ∀ y, y < n → τ x = τ y → x = y) :
    List.Perm ((List.range n).map τ) (List.range n) := by
  apply List.Subperm.perm_of_length_le
  · apply List.subperm_of_subset
    · apply (List.nodup_range n).map_on
      intro x hx y hy h
      exact hinj x (List.mem_range.1 hx) y (List.mem_range.1 hy) h
    · intro a ha
      rw [List.mem_map] at ha
      obtain ⟨k, hk, rfl⟩ := ha
      exact List.mem_range.2 (hlt k (List.mem_range.1 hk))
  · simp

theorem tourCities_twoOpt_perm (best : Nat → Int) (n p q : Nat) (hq : q ≤ n) :
    List.Perm (tourCities n (twoOpt best p q)) (tourCities n best) := by
  have e : tourCities n (twoOpt best p q) =
      ((List.range n).map (fun k => if p < k + 1 ∧ k + 1 ≤ q then p + q - (k + 1) else k)).map
        (fun k => best (k + 1)) := by
    unfold tourCities twoOpt
    rw [List.map_map]
    apply List.map_congr_left
    intro k _
    simp only [Function.comp]
    split_ifs with h
    · congr 1; omega
    · rfl
  rw [e]
  unfold tourCities
  apply List.Perm.map
  apply perm_range_of_injOn
  · intro k hk
    beta_reduce
    split_ifs with h <;> omega
  · intro x hx y hy h
    beta_reduce at h
    split_ifs at h <;> omega

theorem tourCities_upd_zero (n : Nat) (best : Nat → Int) (v : Int) :
    tourCities n (upd best 0 v) = tourCities n best := by
  unfold tourCities
  apply List.map_congr_left
  intro k _
  rw [upd_apply, if_neg (by omega)]

theorem isTour_range (n : Nat) (best : Nat → Int) (h : IsTour n best) (k : Nat) (hk1 : 1 ≤ k)
    (hk2 : k ≤ n) : ∃ c : Nat, c < n ∧ best k = (c : Int) := by
  have hmem : best k ∈ tourCities n best := by
    unfold tourCities
    rw [List.mem_map]
    exact ⟨k - 1, List.mem_range.2 (by omega), by congr 1; omega⟩
  have hmem2 := (List.Perm.mem_iff h).1 hmem
  rw [List.mem_map] at hmem2
  obtain ⟨c, hc, hcb⟩ := hmem2
  exact ⟨c, List.mem_range.1 hc, hcb.symm⟩

theorem sum_Ico_split (f : Nat → Int) (n p q : Nat) (hp : 1 ≤ p) (hpq : p < q)
    (hq : q + 1 ≤ n) :
    ∑ k ∈ Finset.Ico 1 n, f k =
      ∑ k ∈ Finset.Ico 1 p, f k + (f p + ∑ k ∈ Finset.Ico (p + 1) q, f k + f q) +
        ∑ k ∈ Finset.Ico (q + 1) n, f k := by
  rw [← Finset.sum_Ico_consecutive f hp (show p ≤ n by omega),
    ← Finset.sum_Ico_consecutive f (show p ≤ q + 1 by omega) hq,
    Finset.sum_Ico_succ_top (show p ≤ q by omega), Finset.sum_eq_sum_Ico_succ_bot hpq]
  ring

/-- Reversing the positions `p+1..q` of a tour, `1 ≤ p < q < n`, over a table that is
symmetric on the cities of the tour, shortens the closed tour by exactly the gain. -/
theorem tourLength_twoOpt (dist : Matrix) (n : Nat) (best : Nat → Int) (p q : Nat)
    (hp : 1 ≤ p) (hpq : p < q) (hq : q + 1 ≤ n)
    (hsym : ∀ k l, 1 ≤ k → k ≤ n → 1 ≤ l → l ≤ n →
      dist (best k) (best l) = dist (best l) (best k)) :
    tourLength dist n (twoOpt best p q) = tourLength dist n best - gain dist best p q := by
  unfold tourLength gain
  have hclose : dist (twoOpt best p q n) (twoOpt best p q 1) = dist (best n) (best 1) := by
    unfold twoOpt
    rw [if_neg (by omega), if_neg (by omega)]
  rw [hclose, sum_Ico_split (fun k => dist (twoOpt best p q k) (twoOpt best p q (k + 1))) n p q
      hp hpq hq,
    sum_Ico_split (fun k => dist (best k) (best (k + 1))) n p q hp hpq hq]
  have h1 : ∑ k ∈ Finset.Ico 1 p, dist (twoOpt best p q k) (twoOpt best p q (k + 1)) =
      ∑ k ∈ Finset.Ico 1 p, dist (best k) (best (k + 1)) := by
    apply Finset.sum_congr rfl
    intro k hk
    rw [Finset.mem_Ico] at hk
    unfold twoOpt
    rw [if_neg (by omega), if_neg (by omega)]
  have h3 : ∑ k ∈ Finset.Ico (q + 1) n, dist (twoOpt best p q k) (twoOpt best p q (k + 1)) =
      ∑ k ∈ Finset.Ico (q + 1) n, dist (best k) (best (k + 1)) := by
    apply Finset.sum_congr rfl
    intro k hk
    rw [Finset.mem_Ico] at hk
    unfold twoOpt
    rw [if_neg (by omega), if_neg (by omega)]
  have h2 : ∑ k ∈ Finset.Ico (p + 1) q, dist (twoOpt best p q k) (twoOpt best p q (k + 1)) =
      ∑ k ∈ Finset.Ico (p + 1) q, dist (best k) (best (k + 1)) := by
    have hr := Finset.sum_Ico_reflect (fun k => dist (best k) (best (k + 1))) (p + 1)
      (show q ≤ p + q + 1 by omega)
    have e1 : p + q + 1 - q = p + 1 := by omega
    have e2 : p + q + 1 - (p + 1) = q := by omega
    rw [e1, e2] at hr
    rw [← hr]
    apply Finset.sum_congr rfl
    intro k hk
    rw [Finset.mem_Ico] at hk
    unfold twoOpt
    rw [if_pos (by omega), if_pos (by omega)]
    have e3 : p + 1 + q - k = p + q - k + 1 := by omega
    have e4 : p + 1 + q - (k + 1) = p + q - k := by omega
    rw [e3, e4]
    exact hsym _ _ (by omega) (by omega) (by omega) (by omega)
  have hp' : dist (twoOpt best p q p) (twoOpt best p q (p + 1)) = dist (best p) (best q) := by
    unfold twoOpt
    rw [if_neg (by omega), if_pos (by omega)]
    congr 2
    omega
  have hq' : dist (twoOpt best p q q) (twoOpt best p q (q + 1)) =
      dist (best (p + 1)) (best (q + 1)) := by
    unfold twoOpt
    rw [if_pos (by omega), if_neg (by omega)]
    congr 2
    omega
  rw [h1, h2, h3, hp', hq']
  ring

/-! ## optimizePath: one pass and the loop -/

theorem pass_of_not_found (dist : Matrix) (n : Nat) (best : Nat → Int)
    (h : (scan dist n best).imp_found = false) : pass dist n best = (best, false) := by
  unfold pass
  simp only [h]
  rfl

theorem pass_of_found (dist : Matrix) (n : Nat) (best : Nat → Int)
    (h : (scan dist n best).imp_found = true) :
    pass dist n best =
      (upd (twoOpt best (scan dist n best).swapi (scan dist n best).swapj) 0
        (wrap (best 0 - (scan dist n best).improve)), true) := by
  unfold pass
  simp only [h, if_true]
  rw [reverseSegment_eq_twoOpt]
  have h0 : twoOpt best (scan dist n best).swapi (scan dist n best).swapj 0 = best 0 := by
    unfold twoOpt
    rw [if_neg (by omega)]
  rw [h0]

theorem pass_snd (dist : Matrix) (n : Nat) (best : Nat → Int) :
    (pass dist n best).2 = (scan dist n best).imp_found := by
  cases h : (scan dist n best).imp_found
  · rw [pass_of_not_found dist n best h]
  · rw [pass_of_found dist n best h]

theorem pass_isTour (dist : Matrix) (n : Nat) (best : Nat → Int) (h : IsTour n best) :
    IsTour n (pass dist n best).1 := by
  cases hf : (scan dist n best).imp_found
  · rw [pass_of_not_found dist n best hf]
    exact h
  · rw [pass_of_found dist n best hf]
    have hs := ((scan_spec dist n best).1).2.2 hf
    unfold IsTour
    rw [tourCities_upd_zero]
    exact (tourCities_twoOpt_perm best n _ _ (by omega)).trans h

theorem passes_succ_last (dist : Matrix) (n k : Nat) (best : Nat → Int) :
    passes dist n (k + 1) best = (pass dist n (passes dist n k best)).1 := by
  induction k generalizing best with
  | zero => rfl
  | succ k ih =>
    show passes dist n (k + 1) (pass dist n best).1 = _
    rw [ih]
    rfl

/-- An invariant of `pass` holds after every number of passes. -/
theorem passes_invariant (dist : Matrix) (n : Nat) (P : (Nat → Int) → Prop)
    (hP : ∀ b, P b → P (pass dist n b).1) (k : Nat) (best : Nat → Int) (h : P best) :
    P (passes dist n k best) := by
  induction k generalizing best with
  | zero => exact h
  | succ k ih => exact ih _ (hP best h)

/-- Whatever `optimizePath` returns is the array after some positive number of passes. -/
theorem optimizePath_eq_passes (clock : Nat → Bool) (dist : Matrix) (n fuel t : Nat)
    (best r : Nat → Int) (flag : Bool)
    (h : optimizePath clock dist n fuel t best = some (r, flag)) :
    ∃ k, 1 ≤ k ∧ k ≤ fuel ∧ r = passes dist n k best := by
  induction fuel generalizing t best with
  | zero => simp [optimizePath] at h
  | succ fuel ih =>
    unfold optimizePath at h
    split_ifs at h with h1 h2
    · simp only [Option.some.injEq, Prod.mk.injEq] at h
      exact ⟨1, le_refl _, by omega, h.1.symm⟩
    · obtain ⟨k, hk1, hk2, hk3⟩ := ih _ _ h
      exact ⟨k + 1, by omega, by omega, hk3⟩
    · simp only [Option.some.injEq, Prod.mk.injEq] at h
      exact ⟨1, le_refl _, by omega, h.1.symm⟩

/-- When `optimizePath` leaves its loop with `imp_found` unset, a further scan of the
returned array finds no improvement. -/
theorem optimizePath_converged (clock : Nat → Bool) (dist : Matrix) (n fuel t : Nat)
    (best r : Nat → Int)
    (h : optimizePath clock dist n fuel t best = some (r, false)) :
    (scan dist n r).imp_found = false := by
  induction fuel generalizing t best with
  | zero => simp [optimizePath] at h
  | succ fuel ih =>
    unfold optimizePath at h
    split_ifs at h with h1 h2
    · simp at h
    · exact ih _ _ h
    · simp only [Option.some.injEq, Prod.mk.injEq, and_true] at h
      have hf : (scan dist n best).imp_found = false := by
        rw [← pass_snd]
        simpa using h2
      rw [pass_of_not_found dist n best hf] at h
      rw [← h]
      exact hf

/-! ## optimizePath: permutation and idempotence -/

/-- C4: when the positions `1..n` of the input hold a permutation of `0..n-1`, they still do
after every number of passes, and in every array that `optimizePath` returns. -/
theorem optimizePath_preserves_permutation (dist : Matrix) (n : Nat) (best : Nat → Int)
    (htour : IsTour n best) :
    (∀ k, IsTour n (passes dist n k best)) ∧
      ∀ (clock : Nat → Bool) (fuel t : Nat) (r : Nat → Int) (flag : Bool),
        optimizePath clock dist n fuel t best = some (r, flag) → IsTour n r := by
  have hall : ∀ k, IsTour n (passes dist n k best) := fun k =>
    passes_invariant dist n (IsTour n) (fun b hb => pass_isTour dist n b hb) k best htour
  refine ⟨hall, ?_⟩
  intro clock fuel t r flag h
  obtain ⟨k, _, _, hk⟩ := optimizePath_eq_passes clock dist n fuel t best r flag h
  rw [hk]
  exact hall k

/-- C7: when `optimizePath` ends by convergence with the array `r`, every further run of
`optimizePath` on `r` returns `r` itself, cost and sequence, after a single pass. -/
theorem optimizePath_idempotent (clock : Nat → Bool) (dist : Matrix) (n fuel t : Nat)
    (best r : Nat → Int)
    (hconv : optimizePath clock dist n fuel t best = some (r, false)) :
    ∀ (clock2 : Nat → Bool) (fuel2 t2 : Nat),
      optimizePath clock2 dist n (fuel2 + 1) t2 r = some (r, clock2 t2) := by
  intro clock2 fuel2 t2
  have hf := optimizePath_converged clock dist n fuel t best r hconv
  unfold optimizePath
  rw [pass_of_not_found dist n r hf]
  cases hc : clock2 t2 <;> simp

theorem optimizePath_preserves_permutation_witness :
    IsTour 4 (arr [48, 0, 2, 3, 1]) ∧
      ((∀ k, IsTour 4 (passes squareDist 4 k (arr [48, 0, 2, 3, 1]))) ∧
        ∀ (clock : Nat → Bool) (fuel t : Nat) (r : Nat → Int) (flag : Bool),
          optimizePath clock squareDist 4 fuel t (arr [48, 0, 2, 3, 1]) = some (r, flag) →
            IsTour 4 r) :=
  ⟨by decide, optimizePath_preserves_permutation squareDist 4 (arr [48, 0, 2, 3, 1]) (by decide)⟩

theorem optimizePath_idempotent_witness :
    optimizePath never squareDist 4 5 0 (arr [48, 0, 2, 3, 1]) =
        some (passes squareDist 4 2 (arr [48, 0, 2, 3, 1]), false) ∧
      ∀ (clock2 : Nat → Bool) (fuel2 t2 : Nat),
        optimizePath clock2 squareDist 4 (fuel2 + 1) t2
            (passes squareDist 4 2 (arr [48, 0, 2, 3, 1])) =
          some (passes squareDist 4 2 (arr [48, 0, 2, 3, 1]), clock2 t2) :=
  ⟨rfl, optimizePath_idempotent never squareDist 4 5 0 (arr [48, 0, 2, 3, 1])
    (passes squareDist 4 2 (arr [48, 0, 2, 3, 1])) rfl⟩


/-! ## optimizePath: the cached cost -/

theorem check_eq_gain (dist : Matrix) (best : Nat → Int) (p q : Nat) (hp : 1 ≤ p) (hq : 1 ≤ q)
    (h1 : 0 ≤ dist (best p) (best (p + 1)) ∧ dist (best p) (best (p + 1)) < 1073741824)
    (h2 : 0 ≤ dist (best q) (best (q + 1)) ∧ dist (best q) (best (q + 1)) < 1073741824)
    (h3 : 0 ≤ dist (best p) (best q) ∧ dist (best p) (best q) < 1073741824)
    (h4 : 0 ≤ dist (best (p + 1)) (best (q + 1)) ∧
      dist (best (p + 1)) (best (q + 1)) < 1073741824) :
    check dist best (p - 1) (q - 1) = gain dist best p q := by
  unfold check gain
  have e1 : p - 1 + 1 = p := by omega
  have e2 : p - 1 + 2 = p + 1 := by omega
  have e3 : q - 1 + 1 = q := by omega
  have e4 : q - 1 + 2 = q + 1 := by omega
  rw [e1, e2, e3, e4]
  unfold wrap
  omega

theorem tourLength_upd_zero (dist : Matrix) (n : Nat) (best : Nat → Int) (v : Int)
    (hn : 1 ≤ n) : tourLength dist n (upd best 0 v) = tourLength dist n best := by
  unfold tourLength
  rw [upd_apply, upd_apply, if_neg (by omega), if_neg (by omega)]
  congr 1
  apply Finset.sum_congr rfl
  intro k hk
  rw [Finset.mem_Ico] at hk
  rw [upd_apply, upd_apply, if_neg (by omega), if_neg (by omega)]

theorem tourLength_nonneg (dist : Matrix) (n : Nat) (best : Nat → Int) (hn : 1 ≤ n)
    (hpos : ∀ k l, 1 ≤ k → k ≤ n → 1 ≤ l → l ≤ n → 0 ≤ dist (best k) (best l)) :
    0 ≤ tourLength dist n best := by
  unfold tourLength
  apply add_nonneg
  · apply Finset.sum_nonneg
    intro k hk
    rw [Finset.mem_Ico] at hk
    exact hpos _ _ (by omega) (by omega) (by omega) (by omega)
  · exact hpos _ _ (by omega) (by omega) (by omega) (by omega)

/-- A property of the table on the cities `0..n-1` holds at the cities of a tour. -/
theorem isTour_lift (n : Nat) (best : Nat → Int) (P : Int → Int → Prop)
    (h : IsTour n best) (hP : ∀ a : Nat, a < n → ∀ b : Nat, b < n → P (a : Int) (b : Int))
    (k l : Nat) (hk1 : 1 ≤ k) (hk2 : k ≤ n) (hl1 : 1 ≤ l) (hl2 : l ≤ n) :
    P (best k) (best l) := by
  obtain ⟨a, ha, hak⟩ := isTour_range n best h k hk1 hk2
  obtain ⟨b, hb, hbl⟩ := isTour_range n best h l hl1 hl2
  rw [hak, hbl]
  exact hP a ha b hb

/-- The state of a tour array that `optimizePath` maintains on a symmetric table with
entries in `0 .. 2^30 - 1`. -/
theorem pass_cost (dist : Matrix) (n : Nat) (best : Nat → Int)
    (hsym : SymmetricOn dist n) (hbound : EntriesIn dist n 1073741824)
    (h : IsTour n best ∧ best 0 = tourLength dist n best ∧ best 0 ≤ INT_MAX) :
    IsTour n (pass dist n best).1 ∧
      (pass dist n best).1 0 = tourLength dist n (pass dist n best).1 ∧
      (pass dist n best).1 0 ≤ INT_MAX := by
  obtain ⟨htour, hcost, hmax⟩ := h
  have htour2 := pass_isTour dist n best htour
  refine ⟨htour2, ?_⟩
  cases hf : (scan dist n best).imp_found
  · rw [pass_of_not_found dist n best hf]
    exact ⟨hcost, hmax⟩
  · rw [pass_of_found dist n best hf] at htour2 ⊢
    obtain ⟨hpos, hsi, hsij, hsj, himp⟩ := ((scan_spec dist n best).1).2.2 hf
    have hb := fun k l h1 h2 h3 h4 => isTour_lift n best
      (fun x y => 0 ≤ dist x y ∧ dist x y < 1073741824) htour hbound k l h1 h2 h3 h4
    have hs := fun k l h1 h2 h3 h4 => isTour_lift n best
      (fun x y => dist x y = dist y x) htour hsym k l h1 h2 h3 h4
    have hg : (scan dist n best).improve =
        gain dist best (scan dist n best).swapi (scan dist n best).swapj := by
      rw [himp]
      exact check_eq_gain dist best _ _ hsi (by omega)
        (hb _ _ (by omega) (by omega) (by omega) (by omega))
        (hb _ _ (by omega) (by omega) (by omega) (by omega))
        (hb _ _ (by omega) (by omega) (by omega) (by omega))
        (hb _ _ (by omega) (by omega) (by omega) (by omega))
    have hlen : tourLength dist n
        (upd (twoOpt best (scan dist n best).swapi (scan dist n best).swapj) 0
          (wrap (best 0 - (scan dist n best).improve))) =
        best 0 - (scan dist n best).improve := by
      rw [tourLength_upd_zero dist n _ _ (by omega),
        tourLength_twoOpt dist n best _ _ hsi (by omega) hsj hs, hcost, hg]
    have hnn : 0 ≤ tourLength dist n
        (upd (twoOpt best (scan dist n best).swapi (scan dist n best).swapj) 0
          (wrap (best 0 - (scan dist n best).improve))) := by
      apply tourLength_nonneg dist n _ (by omega)
      intro k l h1 h2 h3 h4
      exact (isTour_lift n _ (fun x y => 0 ≤ dist x y ∧ dist x y < 1073741824) htour2
        hbound k l h1 h2 h3 h4).1
    rw [hlen] at hnn ⊢
    have hw : wrap (best 0 - (scan dist n best).improve) =
        best 0 - (scan dist n best).improve :=
      wrap_of_range (by unfold INT_MIN; omega) (by omega)
    simp only [upd_apply, if_true]
    rw [hw]
    exact ⟨rfl, by omega⟩

/-- The function alone, on a table that `processInput` builds from no input: on the
symmetric table `wrapDist` the tour `0 1 2 3 4` has length `5`, cached in `best[0]`.  The
first pass computes `d[0][2] + d[1][3] = 2^31 + 1`, which a 32-bit `int` holds as
`-2^31 + 1`, takes `check = INT_MAX` for an improvement and reverses the positions `2..3`:
`best[0]` becomes `5 - INT_MAX`, which is the length `2147483654` of the tour `0 2 1 3 4`
reduced to 32 bits, not that length itself. -/
theorem optimizePath_cost_wraps :
    SymmetricOn wrapDist 5 ∧
      IsTour 5 (arr [5, 0, 1, 2, 3, 4]) ∧
      arr [5, 0, 1, 2, 3, 4] 0 = tourLength wrapDist 5 (arr [5, 0, 1, 2, 3, 4]) ∧
      optimizePath (fun _ => true) wrapDist 5 1 0 (arr [5, 0, 1, 2, 3, 4]) =
        some (passes wrapDist 5 1 (arr [5, 0, 1, 2, 3, 4]), true) ∧
      passes wrapDist 5 1 (arr [5, 0, 1, 2, 3, 4]) 0 = -2147483642 ∧
      tourLength wrapDist 5 (passes wrapDist 5 1 (arr [5, 0, 1, 2, 3, 4])) = 2147483654 ∧
      passes wrapDist 5 1 (arr [5, 0, 1, 2, 3, 4]) 0 ≠
        tourLength wrapDist 5 (passes wrapDist 5 1 (arr [5, 0, 1, 2, 3, 4])) :=
  ⟨by decide, by decide, by decide, rfl, by decide, by decide, by decide⟩

/-! ## optimizePath: convergence and monotonicity -/

/-- C5 fails as stated: on the square table the tour `0 1 3 2` of cost `48` uses both
diagonals, as the edge from `best[2]` to `best[3]` and the closing edge from `best[4]` to
`best[1]`.  The scan compares only the pair of edges leaving the positions `1` and `3`,
finds no gain and `optimizePath` ends by convergence with the array unchanged, although the
2-opt move on the edges leaving the positions `2` and `4` gives the tour `0 1 2 3` of
length `40`. -/
theorem optimizePath_ignores_closing_edge :
    optimizePath never squareDist 4 1 0 (arr [48, 0, 1, 3, 2]) =
        some (arr [48, 0, 1, 3, 2], false) ∧
      tourLength squareDist 4 (arr [48, 0, 1, 3, 2]) = 48 ∧
      (List.range 5).map (twoOpt (arr [48, 0, 1, 3, 2]) 2 4) = [48, 0, 1, 2, 3] ∧
      tourLength squareDist 4 (twoOpt (arr [48, 0, 1, 3, 2]) 2 4) = 40 ∧
      tourLength squareDist 4 (twoOpt (arr [48, 0, 1, 3, 2]) 2 4) <
        tourLength squareDist 4 (arr [48, 0, 1, 3, 2]) :=
  ⟨rfl, by decide, by decide, by decide, by decide⟩

theorem converged_gain_nonpos (dist : Matrix) (n : Nat) (r : Nat → Int)
    (hbound : EntriesIn dist n 1073741824) (htour : IsTour n r)
    (hf : (scan dist n r).imp_found = false) (p q : Nat) (hp : 1 ≤ p) (hpq : p + 2 ≤ q)
    (hq : q + 1 ≤ n) : gain dist r p q ≤ 0 := by
  have hb := fun k l h1 h2 h3 h4 => isTour_lift n r
    (fun x y => 0 ≤ dist x y ∧ dist x y < 1073741824) htour hbound k l h1 h2 h3 h4
  have hc := (scan_spec dist n r).2 (p - 1) (q - 1) (by omega) (by omega)
  rw [((scan_spec dist n r).1).2.1 hf,
    check_eq_gain dist r p q hp (by omega)
      (hb _ _ (by omega) (by omega) (by omega) (by omega))
      (hb _ _ (by omega) (by omega) (by omega) (by omega))
      (hb _ _ (by omega) (by omega) (by omega) (by omega))
      (hb _ _ (by omega) (by omega) (by omega) (by omega))] at hc
  exact hc

/-- C5, amended: on a symmetric table with entries in `0 .. 2^30 - 1` and for an input whose
positions `1..n` hold a permutation, when `optimizePath` ends by convergence the returned
tour admits no improving 2-opt move on two non-adjacent edges between consecutive positions
`best[1..n]`: for the edges leaving the positions `p` and `q`, `1 ≤ p`, `p + 2 ≤ q < n`,
reversing the positions `p+1..q` does not shorten the closed tour.  The closing edge from
`best[n]` to `best[1]` is not among the edges compared. -/
theorem optimizePath_converged_no_path_move (clock : Nat → Bool) (dist : Matrix)
    (n fuel t : Nat) (best r : Nat → Int)
    (hsym : SymmetricOn dist n) (hbound : EntriesIn dist n 1073741824)
    (htour : IsTour n best)
    (hconv : optimizePath clock dist n fuel t best = some (r, false)) :
    ∀ p q, 1 ≤ p → p + 2 ≤ q → q + 1 ≤ n →
      tourLength dist n r ≤ tourLength dist n (twoOpt r p q) := by
  intro p q hp hpq hq
  have hf := optimizePath_converged clock dist n fuel t best r hconv
  obtain ⟨k, _, _, hk⟩ := optimizePath_eq_passes clock dist n fuel t best r false hconv
  have htr : IsTour n r := by
    rw [hk]
    exact passes_invariant dist n (IsTour n) (fun b hb => pass_isTour dist n b hb) k best htour
  have hs := fun k l h1 h2 h3 h4 => isTour_lift n r
    (fun x y => dist x y = dist y x) htr hsym k l h1 h2 h3 h4
  rw [tourLength_twoOpt dist n r p q hp (by omega) hq hs]
  have hg := converged_gain_nonpos dist n r hbound htr hf p q hp hpq hq
  omega

theorem optimizePath_converged_no_path_move_witness :
    (SymmetricOn squareDist 4 ∧ EntriesIn squareDist 4 1073741824 ∧
        IsTour 4 (arr [48, 0, 2, 3, 1]) ∧
        optimizePath never squareDist 4 5 0 (arr [48, 0, 2, 3, 1]) =
          some (passes squareDist 4 2 (arr [48, 0, 2, 3, 1]), false)) ∧
      ∀ p q, 1 ≤ p → p + 2 ≤ q → q + 1 ≤ 4 →
        tourLength squareDist 4 (passes squareDist 4 2 (arr [48, 0, 2, 3, 1])) ≤
          tourLength squareDist 4 (twoOpt (passes squareDist 4 2 (arr [48, 0, 2, 3, 1])) p q) :=
  ⟨⟨by decide, by decide, by decide, rfl⟩,
    optimizePath_converged_no_path_move never squareDist 4 5 0 (arr [48, 0, 2, 3, 1])
      (passes squareDist 4 2 (arr [48, 0, 2, 3, 1])) (by decide) (by decide) (by decide) rfl⟩

/-- The function alone, on a table that `processInput` builds from no input: on the
symmetric table `wrapDist` and the tour `0 1 2 3 4` with its length `5` cached, the first
pass takes the wrapped `check = INT_MAX` of the positions `1, 3` for an improvement and
leaves `best[0] = 5 - INT_MAX = -2147483642`; the second pass finds `check = 2^30 + 6` at
the positions `1, 4`, and `best[0] - check` is below `INT_MIN`, which a 32-bit `int` holds
as `1073741824`. -/
theorem pass_cost_increases :
    SymmetricOn wrapDist 5 ∧ EntriesIn wrapDist 5 2147483647 ∧
      IsTour 5 (arr [5, 0, 1, 2, 3, 4]) ∧
      arr [5, 0, 1, 2, 3, 4] 0 = tourLength wrapDist 5 (arr [5, 0, 1, 2, 3, 4]) ∧
      (pass wrapDist 5 (arr [5, 0, 1, 2, 3, 4])).1 0 = -2147483642 ∧
      (pass wrapDist 5 (pass wrapDist 5 (arr [5, 0, 1, 2, 3, 4])).1).1 0 = 1073741824 ∧
      (pass wrapDist 5 (arr [5, 0, 1, 2, 3, 4])).1 0 <
        (pass wrapDist 5 (pass wrapDist 5 (arr [5, 0, 1, 2, 3, 4])).1).1 0 :=
  ⟨by decide, by decide, by decide, by decide, by decide, by decide, by decide⟩

theorem pass_cost_le (dist : Matrix) (n : Nat) (best : Nat → Int) (hlo : -1 ≤ best 0)
    (hhi : best 0 ≤ INT_MAX) :
    (pass dist n best).1 0 ≤ best 0 ∧
      ((pass dist n best).2 = true →
        (pass dist n best).1 0 = best 0 - (scan dist n best).improve ∧
          (pass dist n best).1 0 < best 0) := by
  cases hf : (scan dist n best).imp_found
  · rw [pass_of_not_found dist n best hf]
    exact ⟨le_refl _, fun h => absurd h (by simp)⟩
  · rw [pass_of_found dist n best hf]
    obtain ⟨hpos, _, _, _, himp⟩ := ((scan_spec dist n best).1).2.2 hf
    have hle : (scan dist n best).improve ≤ INT_MAX := by
      rw [himp]
      unfold check
      exact (wrap_range _).2
    have hw : wrap (best 0 - (scan dist n best).improve) =
        best 0 - (scan dist n best).improve := by
      unfold INT_MAX at hle hhi
      exact wrap_of_range (by unfold INT_MIN; omega) (by unfold INT_MAX; omega)
    simp only [upd_apply, if_true]
    rw [hw]
    exact ⟨by omega, fun _ => ⟨rfl, by omega⟩⟩

/-! ## initialPath: selecting and adding a city -/

theorem foldl_congr_mem {α β : Type} (l : List α) (f g : β → α → β) (b : β)
    (h : ∀ acc a, a ∈ l → f acc a = g acc a) : l.foldl f b = l.foldl g b := by
  induction l generalizing b with
  | nil => rfl
  | cons x xs ih =>
    simp only [List.foldl_cons]
    rw [h b x (List.mem_cons_self _ _)]
    exact ih _ (fun acc a ha => h acc a (List.mem_cons_of_mem _ ha))

theorem nearest_congr (dist : Matrix) (n : Nat) (v1 v2 : Nat → Bool) (cur : Int)
    (h : ∀ k, k < n → v1 k = v2 k) : nearest dist n v1 cur = nearest dist n v2 cur := by
  unfold nearest
  apply foldl_congr_mem
  intro acc a ha
  unfold nearestStep
  rw [h a (List.mem_range.1 ha)]

/-- The scan either leaves `next = -1` or selects an unvisited city `c < size`, with `min`
its distance from the path end. -/
theorem nearest_spec (dist : Matrix) (n : Nat) (visited : Nat → Bool) (cur : Int) :
    (nearest dist n visited cur).1 = -1 ∨
      ∃ c : Nat, c < n ∧ (nearest dist n visited cur).1 = (c : Int) ∧ visited c = false ∧
        (nearest dist n visited cur).2 = dist cur (c : Int) := by
  unfold nearest
  have key := foldl_invariant
    (fun (pre : List Nat) (nm : Int × Int) =>
      nm.1 = -1 ∨ ∃ c : Nat, c ∈ pre ∧ nm.1 = (c : Int) ∧ visited c = false ∧
        nm.2 = dist cur (c : Int))
    (nearestStep dist visited cur) (-1, INT_MAX) (List.range n) (Or.inl rfl)
    (by
      intro pre a acc _ hP
      unfold nearestStep
      split_ifs with hc
      · exact Or.inr ⟨a, by simp, rfl, hc.1, rfl⟩
      · rcases hP with hP | ⟨c, hc1, hc2⟩
        · exact Or.inl hP
        · exact Or.inr ⟨c, List.mem_append_left _ hc1, hc2⟩)
  rcases key with key | ⟨c, hc1, hc2⟩
  · exact Or.inl key
  · exact Or.inr ⟨c, List.mem_range.1 hc1, hc2⟩

/-- What one successful iteration of the loop of line 145 does to the state. -/
theorem addCity_some (clock : Nat → Bool) (dist : Matrix) (n j : Nat) (st st1 : NNState)
    (hj : 1 ≤ j) (h : addCity clock dist n j st = some st1) :
    ∃ c : Nat, c < n ∧ st.visited c = false ∧ st1.next = (c : Int) ∧
      st1.min = dist (st.temp (j - 1)) (c : Int) ∧
      st1.temp = upd (upd st.temp j (c : Int)) 0
        (wrap (st.temp 0 + dist (st.temp (j - 1)) (c : Int))) ∧
      st1.visited = upd st.visited c true ∧ st1.best = st.best ∧
      st1.timed_out = (if clock st.checks then true else st.timed_out) ∧
      st1.checks = st.checks + 1 := by
  unfold addCity at h
  by_cases hneg : (nearest dist n st.visited (st.temp (j - 1))).1 < 0
  · simp [hneg] at h
  · simp only [if_neg hneg, Option.some.injEq] at h
    rcases nearest_spec dist n st.visited (st.temp (j - 1)) with hs | ⟨c, hc, hc1, hc2, hc3⟩
    · rw [hs] at hneg
      exact absurd (by decide) hneg
    · subst h
      refine ⟨c, hc, hc2, hc1, hc3, ?_, ?_, rfl, rfl, rfl⟩
      · show upd (upd st.temp j (nearest dist n st.visited (st.temp (j - 1))).1) 0
            (wrap (upd st.temp j (nearest dist n st.visited (st.temp (j - 1))).1 0 +
              (nearest dist n st.visited (st.temp (j - 1))).2)) = _
        rw [hc1, hc3, upd_apply, if_neg (by omega)]
      · show upd st.visited (nearest dist n st.visited (st.temp (j - 1))).1.toNat true = _
        rw [hc1, Int.toNat_ofNat]

theorem growPath_timed_out (clock : Nat → Bool) (dist : Matrix) (n : Nat) (js : List Nat)
    (st : NNState) (h : st.timed_out = true) : growPath clock dist n js st = some st := by
  cases js with
  | nil => rfl
  | cons j js =>
    unfold growPath
    rw [if_pos h]

/-- A run of the loop of line 145 that ends with `timed_out` unset has executed every
iteration: it decomposes into its first iteration and the rest. -/
theorem growPath_cons (clock : Nat → Bool) (dist : Matrix) (n j : Nat) (js : List Nat)
    (st st2 : NNState) (h0 : st.timed_out = false)
    (h : growPath clock dist n (j :: js) st = some st2) (h2 : st2.timed_out = false) :
    ∃ st1, addCity clock dist n j st = some st1 ∧ st1.timed_out = false ∧
      growPath clock dist n js st1 = some st2 := by
  unfold growPath at h
  rw [if_neg (by rw [h0]; simp)] at h
  cases h1 : addCity clock dist n j st with
  | none => rw [h1] at h; simp at h
  | some st1 =>
    rw [h1] at h
    simp only [Option.some_bind] at h
    refine ⟨st1, rfl, ?_, h⟩
    cases ht : st1.timed_out
    · rfl
    · rw [growPath_timed_out clock dist n js st1 ht] at h
      simp only [Option.some.injEq] at h
      rw [← h, ht] at h2
      exact absurd h2 (by simp)

/-! ## initialPath: one attempt -/

theorem perm_cast_range (n : Nat) (f : Nat → Int)
    (hr : ∀ p, p < n → ∃ c : Nat, c < n ∧ f p = (c : Int))
    (hinj : ∀ p q, p < q → q < n → f p ≠ f q) :
    List.Perm ((List.range n).map f) ((List.range n).map (fun c : Nat => (c : Int))) := by
  apply List.Subperm.perm_of_length_le
  · apply List.subperm_of_subset
    · apply (List.nodup_range n).map_on
      intro x hx y hy h
      rw [List.mem_range] at hx hy
      rcases Nat.lt_trichotomy x y with hlt | heq | hgt
      · exact absurd h (hinj x y hlt hy)
      · exact heq
      · exact absurd h.symm (hinj y x hgt hx)
    · intro a ha
      rw [List.mem_map] at ha
      obtain ⟨p, hp, rfl⟩ := ha
      obtain ⟨c, hc, hfc⟩ := hr p (List.mem_range.1 hp)
      rw [List.mem_map]
      exact ⟨c, List.mem_range.2 hc, hfc.symm⟩
  · simp

theorem resetVisited_apply (n : Nat) (visited : Nat → Bool) (k : Nat) :
    resetVisited n visited k = if k < n then false else visited k := by
  unfold resetVisited
  exact foldl_upd_range0 (fun _ => false) n visited k

theorem copyTour_apply (n : Nat) (temp best : Nat → Int) (p : Nat) :
    copyTour n temp best p = if p < n + 1 then temp p else best p := by
  unfold copyTour
  exact foldl_upd_range0 temp (n + 1) best p

theorem pathInv_step (clock : Nat → Bool) (dist : Matrix) (n s m : Nat) (st st1 : NNState)
    (hm : 1 ≤ m) (hinv : PathInv dist n s m st)
    (h : addCity clock dist n (m + 1) st = some st1) :
    PathInv dist n s (m + 1) st1 := by
  obtain ⟨c, hc, hvc, hnext, _, htemp, hvis, _, _, _⟩ :=
    addCity_some clock dist n (m + 1) st st1 (by omega) h
  obtain ⟨i1, i2, i3, i4, i5, _⟩ := hinv
  have e : m + 1 - 1 = m := by omega
  rw [e] at htemp
  have hold : ∀ p, 1 ≤ p → p ≤ m → st1.temp p = st.temp p := by
    intro p hp1 hp2
    rw [htemp, upd_apply, upd_apply, if_neg (by omega), if_neg (by omega)]
  have hnew : st1.temp (m + 1) = (c : Int) := by
    rw [htemp, upd_apply, upd_apply, if_neg (by omega), if_pos rfl]
  refine ⟨?_, ?_, ?_, ?_, ?_, ?_⟩
  · rw [hold 1 (le_refl _) hm]
    exact i1
  · intro p hp1 hp2
    by_cases hp : p = m + 1
    · subst hp
      exact ⟨c, hc, hnew, by rw [hvis, upd_apply, if_pos rfl]⟩
    · obtain ⟨c', hc', h1, h2⟩ := i2 p hp1 (by omega)
      refine ⟨c', hc', by rw [hold p hp1 (by omega)]; exact h1, ?_⟩
      rw [hvis, upd_apply]
      split_ifs
      · rfl
      · exact h2
  · intro c' hc' hv
    rw [hvis, upd_apply] at hv
    by_cases hcc : c' = c
    · subst hcc
      exact ⟨m + 1, by omega, le_refl _, hnew⟩
    · rw [if_neg hcc] at hv
      obtain ⟨p, hp1, hp2, hp3⟩ := i3 c' hc' hv
      exact ⟨p, hp1, by omega, by rw [hold p hp1 hp2]; exact hp3⟩
  · intro p q hp hpq hq
    by_cases hqm : q = m + 1
    · subst hqm
      rw [hnew, hold p hp (by omega)]
      obtain ⟨c', _, h1, h2⟩ := i2 p hp (by omega)
      rw [h1]
      intro heq
      have : c' = c := by exact_mod_cast heq
      rw [this, hvc] at h2
      exact absurd h2 (by simp)
    · rw [hold p hp (by omega), hold q (by omega) (by omega)]
      exact i4 p q hp hpq (by omega)
  · have h0 : st1.temp 0 = wrap (st.temp 0 + dist (st.temp m) (c : Int)) := by
      rw [htemp, upd_apply, if_pos rfl]
    rw [h0, i5, wrap_add_wrap, Finset.sum_Ico_succ_top hm, hnew, hold m hm (le_refl _)]
    congr 2
    apply Finset.sum_congr rfl
    intro k hk
    rw [Finset.mem_Ico] at hk
    rw [hold k (by omega) (by omega), hold (k + 1) (by omega) (by omega)]
  · intro _
    rw [hnext, hnew]

theorem growPath_inv (clock : Nat → Bool) (dist : Matrix) (n s : Nat) :
    ∀ (len m : Nat) (st st2 : NNState), 1 ≤ m → PathInv dist n s m st →
      st.timed_out = false →
      growPath clock dist n (List.range' (m + 1) len) st = some st2 →
      st2.timed_out = false → PathInv dist n s (m + len) st2 ∧ st2.best = st.best := by
  intro len
  induction len with
  | zero =>
    intro m st st2 _ hinv _ h _
    simp only [List.range'_zero, growPath, Option.some.injEq] at h
    rw [← h]
    exact ⟨hinv, rfl⟩
  | succ len ih =>
    intro m st st2 hm hinv h0 h h2
    rw [List.range'_succ] at h
    obtain ⟨st1, h1, ht1, hrest⟩ := growPath_cons clock dist n (m + 1) _ st st2 h0 h h2
    have hinv1 := pathInv_step clock dist n s m st st1 hm hinv h1
    obtain ⟨_, _, _, _, _, _, _, hb, _, _⟩ :=
      addCity_some clock dist n (m + 1) st st1 (by omega) h1
    have hres := ih (m + 1) st1 st2 (by omega) hinv1 ht1 hrest h2
    have e : m + (len + 1) = m + 1 + len := by omega
    rw [e]
    exact ⟨hres.1, by rw [hres.2, hb]⟩

theorem pathInv_init (dist : Matrix) (n s : Nat) (st : NNState) (hs : s < n) :
    PathInv dist n s 1
      { st with
        visited := upd (resetVisited n st.visited) s true
        temp := upd (upd st.temp 0 0) 1 (s : Int) } := by
  refine ⟨?_, ?_, ?_, ?_, ?_, ?_⟩
  · simp [upd_apply]
  · intro p hp1 hp2
    have hp : p = 1 := by omega
    subst hp
    exact ⟨s, hs, by simp [upd_apply], by simp [upd_apply]⟩
  · intro c hc hv
    simp only [upd_apply, resetVisited_apply, if_pos hc] at hv
    by_cases hcs : c = s
    · subst hcs
      exact ⟨1, le_refl _, le_refl _, by simp [upd_apply]⟩
    · simp [hcs] at hv
  · intro p q hp hpq hq
    omega
  · simp [upd_apply]
    decide
  · intro h
    omega

/-- The shape of the result of the body of the loop of line 137 when it ends with
`timed_out` unset. -/
theorem attempt_some (clock : Nat → Bool) (dist : Matrix) (n s : Nat) (st st2 : NNState)
    (h : attempt clock dist n s st = some st2) (h2 : st2.timed_out = false) :
    ∃ stg, growPath clock dist n (List.range' 2 (n - 1))
        { st with
          visited := upd (resetVisited n st.visited) s true
          temp := upd (upd st.temp 0 0) 1 (s : Int) } = some stg ∧
      stg.timed_out = false ∧
      st2.temp = upd stg.temp 0 (wrap (stg.temp 0 + dist stg.next (s : Int))) ∧
      st2.best = (if st2.temp 0 < stg.best 0 then copyTour n st2.temp stg.best else stg.best) ∧
      st2.checks = stg.checks := by
  unfold attempt at h
  cases hg : growPath clock dist n (List.range' 2 (n - 1))
      { st with
        visited := upd (resetVisited n st.visited) s true
        temp := upd (upd st.temp 0 0) 1 (s : Int) } with
  | none => rw [hg] at h; simp at h
  | some stg =>
    rw [hg] at h
    simp only [Option.some_bind] at h
    by_cases ht : stg.timed_out = true
    · rw [if_pos ht] at h
      simp only [Option.some.injEq] at h
      rw [← h, ht] at h2
      exact absurd h2 (by simp)
    · rw [if_neg ht] at h
      refine ⟨stg, rfl, by simpa using ht, ?_⟩
      by_cases hlt : upd stg.temp 0 (wrap (stg.temp 0 + dist stg.next (s : Int))) 0 < stg.best 0
      · rw [if_pos hlt] at h
        simp only [Option.some.injEq] at h
        subst h
        exact ⟨rfl, by simp only; rw [if_pos hlt], rfl⟩
      · rw [if_neg hlt] at h
        simp only [Option.some.injEq] at h
        subst h
        exact ⟨rfl, by simp only; rw [if_neg hlt], rfl⟩

/-- A completed attempt from the start `s` leaves in `temp[1..n]` a permutation of
`0..n-1` that begins with `s`, and in `temp[0]` the 32-bit value of its closed-tour length;
`best` is replaced by `temp` exactly when `temp[0] < best[0]`. -/
theorem attempt_spec (clock : Nat → Bool) (dist : Matrix) (n s : Nat) (st st2 : NNState)
    (hn : 2 ≤ n) (hs : s < n) (h0 : st.timed_out = false)
    (h : attempt clock dist n s st = some st2) (h2 : st2.timed_out = false) :
    IsTour n st2.temp ∧ st2.temp 0 = wrap (tourLength dist n st2.temp) ∧
      st2.temp 1 = (s : Int) ∧
      st2.best = (if st2.temp 0 < st.best 0 then copyTour n st2.temp st.best else st.best) := by
  obtain ⟨stg, hg, hgt, htemp, hbest, _⟩ := attempt_some clock dist n s st st2 h h2
  have hres := growPath_inv clock dist n s (n - 1) 1 _ stg (le_refl _)
    (pathInv_init dist n s st hs) h0 hg hgt
  have e : 1 + (n - 1) = n := by omega
  rw [e] at hres
  obtain ⟨⟨i1, i2, _, i4, i5, i6⟩, hb⟩ := hres
  have hb' : stg.best = st.best := hb
  have htour : IsTour n stg.temp := by
    unfold IsTour tourCities
    apply perm_cast_range
    · intro p hp
      obtain ⟨c, hc, h1, _⟩ := i2 (p + 1) (by omega) (by omega)
      exact ⟨c, hc, h1⟩
    · intro p q hpq hq
      exact i4 (p + 1) (q + 1) (by omega) (by omega) (by omega)
  refine ⟨?_, ?_, ?_, ?_⟩
  · rw [htemp]
    unfold IsTour
    rw [tourCities_upd_zero]
    exact htour
  · rw [htemp, tourLength_upd_zero dist n _ _ (by omega), upd_apply, if_pos rfl, i5,
      wrap_add_wrap, i6 hn]
    unfold tourLength
    rw [i1]
  · rw [htemp, upd_apply, if_neg (by omega)]
    exact i1
  · rw [hbest, hb']

/-! ## initialPath: an attempt does not depend on what the arrays held before -/

theorem addCity_next (clock : Nat → Bool) (dist : Matrix) (n j : Nat) (st st1 : NNState)
    (h : addCity clock dist n j st = some st1) :
    st1.next = (nearest dist n st.visited (st.temp (j - 1))).1 ∧
      ¬ (nearest dist n st.visited (st.temp (j - 1))).1 < 0 := by
  unfold addCity at h
  by_cases hneg : (nearest dist n st.visited (st.temp (j - 1))).1 < 0
  · simp [hneg] at h
  · simp only [if_neg hneg, Option.some.injEq] at h
    subst h
    exact ⟨rfl, hneg⟩

theorem addCity_of_selected (clock : Nat → Bool) (dist : Matrix) (n j : Nat) (st : NNState)
    (h : ¬ (nearest dist n st.visited (st.temp (j - 1))).1 < 0) :
    ∃ st1, addCity clock dist n j st = some st1 := by
  unfold addCity
  simp only [if_neg h]
  exact ⟨_, rfl⟩

theorem addCity_agree (clock : Nat → Bool) (dist : Matrix) (n j : Nat)
    (st1 st2 st1' : NNState) (hj : 1 ≤ j)
    (hv : ∀ k, k < n → st1.visited k = st2.visited k)
    (ht : ∀ p, p < j → st1.temp p = st2.temp p)
    (h : addCity clock dist n j st1 = some st1') :
    ∃ st2', addCity never dist n j st2 = some st2' ∧
      (∀ k, k < n → st1'.visited k = st2'.visited k) ∧
      (∀ p, p < j + 1 → st1'.temp p = st2'.temp p) ∧
      st1'.next = st2'.next ∧ st2'.timed_out = st2.timed_out := by
  have hnm : nearest dist n st2.visited (st2.temp (j - 1)) =
      nearest dist n st1.visited (st1.temp (j - 1)) := by
    rw [← ht (j - 1) (by omega)]
    exact (nearest_congr dist n st1.visited st2.visited _ hv).symm
  obtain ⟨hn1, hsel⟩ := addCity_next clock dist n j st1 st1' h
  obtain ⟨st2', h2⟩ := addCity_of_selected never dist n j st2 (by rw [hnm]; exact hsel)
  obtain ⟨hn2, _⟩ := addCity_next never dist n j st2 st2' h2
  obtain ⟨c1, _, _, hc1, _, htemp1, hvis1, _, _, _⟩ := addCity_some clock dist n j st1 st1' hj h
  obtain ⟨c2, _, _, hc2, _, htemp2, hvis2, _, hto2, _⟩ :=
    addCity_some never dist n j st2 st2' hj h2
  have hnext : st1'.next = st2'.next := by rw [hn1, hn2, hnm]
  have hc : c1 = c2 := by
    have : (c1 : Int) = (c2 : Int) := by rw [← hc1, ← hc2, hnext]
    exact_mod_cast this
  subst hc
  refine ⟨st2', h2, ?_, ?_, hnext, ?_⟩
  · intro k hk
    rw [hvis1, hvis2, upd_apply, upd_apply, hv k hk]
  · intro p hp
    rw [htemp1, htemp2]
    simp only [upd_apply]
    rw [ht 0 (by omega), ht (j - 1) (by omega)]
    by_cases hp0 : p = 0
    · rw [if_pos hp0, if_pos hp0]
    · rw [if_neg hp0, if_neg hp0]
      by_cases hpj : p = j
      · rw [if_pos hpj, if_pos hpj]
      · rw [if_neg hpj, if_neg hpj]
        exact ht p (by omega)
  · rw [hto2]
    simp [never]

theorem growPath_agree (clock : Nat → Bool) (dist : Matrix) (n : Nat) :
    ∀ (len j : Nat) (st1 st2 st1' : NNState), 1 ≤ j →
      (∀ k, k < n → st1.visited k = st2.visited k) →
      (∀ p, p < j → st1.temp p = st2.temp p) →
      st1.timed_out = false → st2.timed_out = false →
      (len = 0 → st1.next = st2.next) →
      growPath clock dist n (List.range' j len) st1 = some st1' →
      st1'.timed_out = false →
      ∃ st2', growPath never dist n (List.range' j len) st2 = some st2' ∧
        (∀ k, k < n → st1'.visited k = st2'.visited k) ∧
        (∀ p, p < j + len → st1'.temp p = st2'.temp p) ∧
        st1'.next = st2'.next ∧ st2'.timed_out = false := by
  intro len
  induction len with
  | zero =>
    intro j st1 st2 st1' _ hv ht _ h02 hnext h _
    simp only [List.range'_zero, growPath, Option.some.injEq] at h
    subst h
    exact ⟨st2, by simp [growPath], hv, ht, hnext rfl, h02⟩
  | succ len ih =>
    intro j st1 st2 st1' hj hv ht h01 h02 _ h h1'
    rw [List.range'_succ] at h
    obtain ⟨st1a, ha, hta, hrest⟩ := growPath_cons clock dist n j _ st1 st1' h01 h h1'
    obtain ⟨st2a, ha2, hva, htma, hna, htoa⟩ :=
      addCity_agree clock dist n j st1 st2 st1a hj hv ht ha
    obtain ⟨st2', hg2, hv', ht', hn', hto'⟩ :=
      ih (j + 1) st1a st2a st1' (by omega) hva htma hta (by rw [htoa, h02]) (fun _ => hna)
        hrest h1'
    refine ⟨st2', ?_, hv', ?_, hn', hto'⟩
    · rw [List.range'_succ]
      unfold growPath
      rw [if_neg (by rw [h02]; simp), ha2]
      exact hg2
    · intro p hp
      exact ht' p (by omega)

/-- The body of the loop of line 137, run to its end from any state under any clock,
builds the same `temp[0..n]` as a run from any other state under a clock that never reaches
the limit. -/
theorem attempt_agree (clock : Nat → Bool) (dist : Matrix) (n s : Nat) (st st' st0 : NNState)
    (hn : 2 ≤ n) (h0 : st.timed_out = false) (h00 : st0.timed_out = false)
    (h : attempt clock dist n s st = some st') (h2 : st'.timed_out = false) :
    ∃ st0', attempt never dist n s st0 = some st0' ∧ st0'.timed_out = false ∧
      ∀ p, p ≤ n → st'.temp p = st0'.temp p := by
  obtain ⟨stg, hg, hgt, htemp, _, _⟩ := attempt_some clock dist n s st st' h h2
  obtain ⟨stg0, hg0, _, htm, hnx, hto⟩ :=
    growPath_agree clock dist n (n - 1) 2
      { st with
        visited := upd (resetVisited n st.visited) s true
        temp := upd (upd st.temp 0 0) 1 (s : Int) }
      { st0 with
        visited := upd (resetVisited n st0.visited) s true
        temp := upd (upd st0.temp 0 0) 1 (s : Int) }
      stg (by omega)
      (by
        intro k hk
        simp only [upd_apply, resetVisited_apply, if_pos hk])
      (by
        intro p hp
        simp only [upd_apply]
        by_cases hp1 : p = 1
        · rw [if_pos hp1, if_pos hp1]
        · have hp0 : p = 0 := by omega
          rw [if_neg hp1, if_neg hp1, if_pos hp0, if_pos hp0])
      h0 h00 (fun hlen => by omega) hg hgt
  have hrun : attempt never dist n s st0 =
      (if upd stg0.temp 0 (wrap (stg0.temp 0 + dist stg0.next (s : Int))) 0 < stg0.best 0 then
        some { stg0 with
          temp := upd stg0.temp 0 (wrap (stg0.temp 0 + dist stg0.next (s : Int)))
          best := copyTour n (upd stg0.temp 0 (wrap (stg0.temp 0 + dist stg0.next (s : Int))))
            stg0.best }
      else some { stg0 with
          temp := upd stg0.temp 0 (wrap (stg0.temp 0 + dist stg0.next (s : Int))) }) := by
    unfold attempt
    rw [hg0]
    simp only [Option.some_bind]
    rw [if_neg (by rw [hto]; simp)]
  have hagree : ∀ p, p ≤ n →
      st'.temp p = upd stg0.temp 0 (wrap (stg0.temp 0 + dist stg0.next (s : Int))) p := by
    intro p hp
    rw [htemp]
    simp only [upd_apply]
    rw [htm 0 (by omega), hnx]
    by_cases hp0 : p = 0
    · rw [if_pos hp0, if_pos hp0]
    · rw [if_neg hp0, if_neg hp0]
      exact htm p (by omega)
  by_cases hlt : upd stg0.temp 0 (wrap (stg0.temp 0 + dist stg0.next (s : Int))) 0 < stg0.best 0
  · rw [if_pos hlt] at hrun
    exact ⟨_, hrun, hto, hagree⟩
  · rw [if_neg hlt] at hrun
    exact ⟨_, hrun, hto, hagree⟩

/-- A completed attempt of a run of `initialPath` builds the array of `nnAttempt`. -/
theorem attempt_nnAttempt (clock : Nat → Bool) (dist : Matrix) (n s : Nat) (st st' : NNState)
    (hn : 2 ≤ n) (h0 : st.timed_out = false)
    (h : attempt clock dist n s st = some st') (h2 : st'.timed_out = false) :
    ∃ t, nnAttempt dist n s = some t ∧ ∀ p, p ≤ n → st'.temp p = t p := by
  obtain ⟨st0', hrun, _, hag⟩ :=
    attempt_agree clock dist n s st st' zeroState hn h0 rfl h h2
  refine ⟨st0'.temp, ?_, hag⟩
  unfold nnAttempt
  rw [hrun]
  rfl

/-! ## initialPath: the loop over the starts -/

theorem jump_pos (n : Nat) : 1 ≤ jump n := by
  unfold jump NN_CHECK
  split_ifs with h
  · exact le_refl _
  · omega

theorem tourLength_congr (dist : Matrix) (n : Nat) (b1 b2 : Nat → Int) (hn : 1 ≤ n)
    (h : ∀ p, 1 ≤ p → p ≤ n → b1 p = b2 p) : tourLength dist n b1 = tourLength dist n b2 := by
  unfold tourLength
  rw [h n hn (le_refl _), h 1 (le_refl _) hn]
  congr 1
  apply Finset.sum_congr rfl
  intro k hk
  rw [Finset.mem_Ico] at hk
  rw [h k (by omega) (by omega), h (k + 1) (by omega) (by omega)]

theorem isTour_congr (n : Nat) (b1 b2 : Nat → Int) (h : ∀ p, 1 ≤ p → p ≤ n → b1 p = b2 p)
    (h1 : IsTour n b1) : IsTour n b2 := by
  unfold IsTour at h1 ⊢
  have e : tourCities n b2 = tourCities n b1 := by
    unfold tourCities
    apply List.map_congr_left
    intro k hk
    rw [List.mem_range] at hk
    exact (h (k + 1) (by omega) (by omega)).symm
  rw [e]
  exact h1

theorem growPath_never (dist : Matrix) (n : Nat) (js : List Nat) (st st' : NNState)
    (h0 : st.timed_out = false) (h : growPath never dist n js st = some st') :
    st'.timed_out = false := by
  induction js generalizing st with
  | nil =>
    simp only [growPath, Option.some.injEq] at h
    rw [← h]; exact h0
  | cons j js ih =>
    unfold growPath at h
    rw [if_neg (by rw [h0]; simp)] at h
    cases h1 : addCity never dist n j st with
    | none => rw [h1] at h; simp at h
    | some st1 =>
      rw [h1] at h
      simp only [Option.some_bind] at h
      apply ih st1 _ h
      unfold addCity at h1
      by_cases hneg : (nearest dist n st.visited (st.temp (j - 1))).1 < 0
      · simp [hneg] at h1
      · simp only [if_neg hneg, Option.some.injEq] at h1
        subst h1
        simp [never, h0]

theorem attempt_never (dist : Matrix) (n s : Nat) (st st' : NNState)
    (h0 : st.timed_out = false) (h : attempt never dist n s st = some st') :
    st'.timed_out = false := by
  unfold attempt at h
  cases hg : growPath never dist n (List.range' 2 (n - 1))
      { st with
        visited := upd (resetVisited n st.visited) s true
        temp := upd (upd st.temp 0 0) 1 (s : Int) } with
  | none => rw [hg] at h; simp at h
  | some stg =>
    have hgt : stg.timed_out = false := by
      apply growPath_never dist n _ _ stg _ hg
      exact h0
    rw [hg] at h
    simp only [Option.some_bind] at h
    rw [if_neg (by rw [hgt]; simp)] at h
    split_ifs at h <;>
    · simp only [Option.some.injEq] at h
      subst h
      exact hgt

/-- The array of `nnAttempt` holds a permutation of `0..n-1` beginning with the start, and
in its cell `0` the 32-bit value of the closed-tour length. -/
theorem nnAttempt_spec (dist : Matrix) (n s : Nat) (t : Nat → Int) (hn : 2 ≤ n) (hs : s < n)
    (h : nnAttempt dist n s = some t) :
    IsTour n t ∧ t 0 = wrap (tourLength dist n t) ∧ t 1 = (s : Int) := by
  unfold nnAttempt at h
  cases ha : attempt never dist n s zeroState with
  | none => rw [ha] at h; simp at h
  | some st' =>
    rw [ha] at h
    simp only [Option.map_some', Option.some.injEq] at h
    subst h
    have hto := attempt_never dist n s zeroState st' rfl ha
    obtain ⟨h1, h2, h3, _⟩ := attempt_spec never dist n s zeroState st' hn hs rfl ha hto
    exact ⟨h1, h2, h3⟩

/-- With non-negative entries and a tour length below `INT_MAX`, the cost of an attempt is
its closed-tour length, without wrap-around. -/
theorem nnAttempt_cost (dist : Matrix) (n s : Nat) (t : Nat → Int) (hn : 2 ≤ n) (hs : s < n)
    (hnonneg : EntriesIn dist n 2147483648) (h : nnAttempt dist n s = some t)
    (hlt : tourLength dist n t < INT_MAX) : t 0 = tourLength dist n t := by
  obtain ⟨h1, h2, _⟩ := nnAttempt_spec dist n s t hn hs h
  rw [h2]
  apply wrap_of_range
  · have h0 : 0 ≤ tourLength dist n t := by
      apply tourLength_nonneg dist n t (by omega)
      intro k l hk1 hk2 hl1 hl2
      exact (isTour_lift n t (fun x y => 0 ≤ dist x y ∧ dist x y < 2147483648) h1 hnonneg
        k l hk1 hk2 hl1 hl2).1
    unfold INT_MIN
    omega
  · omega

theorem startsLoop_timed_out (clock : Nat → Bool) (dist : Matrix) (n fuel i : Nat)
    (st : NNState) (h : st.timed_out = true) :
    startsLoop clock dist n fuel i st = some st := by
  cases fuel with
  | zero =>
    unfold startsLoop
    rw [if_neg (by rw [h]; simp)]
  | succ fuel =>
    unfold startsLoop
    rw [if_neg (by rw [h]; simp)]

theorem multiple_in_window (j i s : Nat) (hi : i % j = 0) (hs : s % j = 0) (h1 : i ≤ s)
    (h2 : s < i + j) : s = i := by
  have h3 : (s - i) % j = 0 := Nat.sub_mod_eq_zero_of_mod_eq (by rw [hi, hs])
  have h4 : (s - i) % j = s - i := Nat.mod_eq_of_lt (by omega)
  omega

theorem bestOf_mono (dist : Matrix) (n i : Nat) (best : Nat → Int) (hi : n ≤ i)
    (h : BestOf dist n i best) : BestOf dist n n best := by
  obtain ⟨s, t, _, hs, hsj, hnn, hb, hmin⟩ := h
  exact ⟨s, t, hs, hs, hsj, hnn, hb, fun s' t' _ hs' hs'j hnn' =>
    hmin s' t' (by omega) hs' hs'j hnn'⟩

/-- One completed attempt extends the record of the best attempt by the start `i`. -/
theorem bestOf_step (clock : Nat → Bool) (dist : Matrix) (n i : Nat) (st st1 : NNState)
    (hn : 2 ≤ n) (hnonneg : EntriesIn dist n 2147483648) (hcost : NNCostsBelowIntMax dist n)
    (hi : i % jump n = 0) (hin : i < n) (h0 : st.timed_out = false)
    (hinv : (i = 0 ∧ st.best 0 = INT_MAX) ∨ BestOf dist n i st.best)
    (ha : attempt clock dist n i st = some st1) (h1 : st1.timed_out = false) :
    BestOf dist n (i + jump n) st1.best := by
  obtain ⟨_, _, _, hbest⟩ := attempt_spec clock dist n i st st1 hn hin h0 ha h1
  obtain ⟨t, hnn, hag⟩ := attempt_nnAttempt clock dist n i st st1 hn h0 ha h1
  obtain ⟨t0, hnn0, hlt0⟩ := hcost i hin hi
  rw [hnn] at hnn0
  simp only [Option.some.injEq] at hnn0
  subst hnn0
  have hcostt := nnAttempt_cost dist n i t hn hin hnonneg hnn hlt0
  have ht0 : st1.temp 0 = t 0 := hag 0 (by omega)
  have hjp := jump_pos n
  rcases hinv with ⟨hi0, hmax⟩ | ⟨s, ts, hsi, hsn, hsj, hnns, hbs, hmin⟩
  · have hlt : st1.temp 0 < st.best 0 := by rw [ht0, hcostt, hmax]; exact hlt0
    rw [if_pos hlt] at hbest
    refine ⟨i, t, by omega, hin, hi, hnn, ?_, ?_⟩
    · intro p hp
      rw [hbest, copyTour_apply, if_pos (by omega)]
      exact hag p hp
    · intro s' t' hs' _ hs'j hnn'
      have : s' = i := multiple_in_window (jump n) i s' hi hs'j (by omega) hs'
      subst this
      rw [hnn] at hnn'
      simp only [Option.some.injEq] at hnn'
      subst hnn'
      exact ⟨le_refl _, fun _ => le_refl _⟩
  · have hb0 : st.best 0 = ts 0 := hbs 0 (by omega)
    by_cases hlt : st1.temp 0 < st.best 0
    · rw [if_pos hlt] at hbest
      refine ⟨i, t, by omega, hin, hi, hnn, ?_, ?_⟩
      · intro p hp
        rw [hbest, copyTour_apply, if_pos (by omega)]
        exact hag p hp
      · intro s' t' hs' hs'n hs'j hnn'
        by_cases hlt' : s' < i
        · have := (hmin s' t' hlt' hs'n hs'j hnn').1
          exact ⟨by omega, fun heq => by omega⟩
        · have : s' = i := multiple_in_window (jump n) i s' hi hs'j (by omega) hs'
          subst this
          rw [hnn] at hnn'
          simp only [Option.some.injEq] at hnn'
          subst hnn'
          exact ⟨le_refl _, fun _ => le_refl _⟩
    · rw [if_neg hlt] at hbest
      refine ⟨s, ts, by omega, hsn, hsj, hnns, ?_, ?_⟩
      · intro p hp
        rw [hbest]
        exact hbs p hp
      · intro s' t' hs' hs'n hs'j hnn'
        by_cases hlt' : s' < i
        · exact hmin s' t' hlt' hs'n hs'j hnn'
        · have : s' = i := multiple_in_window (jump n) i s' hi hs'j (by omega) hs'
          subst this
          rw [hnn] at hnn'
          simp only [Option.some.injEq] at hnn'
          subst hnn'
          exact ⟨by omega, fun _ => by omega⟩

theorem startsLoop_best (clock : Nat → Bool) (dist : Matrix) (n : Nat) (hn : 2 ≤ n)
    (hnonneg : EntriesIn dist n 2147483648) (hcost : NNCostsBelowIntMax dist n) :
    ∀ (fuel i : Nat) (st r : NNState), i % jump n = 0 → st.timed_out = false →
      ((i = 0 ∧ st.best 0 = INT_MAX) ∨ BestOf dist n i st.best) →
      startsLoop clock dist n fuel i st = some r → r.timed_out = false →
      BestOf dist n n r.best := by
  have hend : ∀ (i : Nat) (st : NNState), ¬ (i < n ∧ st.timed_out = false) →
      st.timed_out = false →
      ((i = 0 ∧ st.best 0 = INT_MAX) ∨ BestOf dist n i st.best) →
      BestOf dist n n st.best := by
    intro i st hc h0 hinv
    have hni : n ≤ i := by
      by_contra hlt
      exact hc ⟨by omega, h0⟩
    rcases hinv with ⟨hi0, _⟩ | hb
    · omega
    · exact bestOf_mono dist n i st.best hni hb
  intro fuel
  induction fuel with
  | zero =>
    intro i st r _ h0 hinv hrun _
    unfold startsLoop at hrun
    by_cases hc : i < n ∧ st.timed_out = false
    · rw [if_pos hc] at hrun
      simp at hrun
    · rw [if_neg hc] at hrun
      simp only [Option.some.injEq] at hrun
      subst hrun
      exact hend i st hc h0 hinv
  | succ fuel ih =>
    intro i st r hi h0 hinv hrun hr
    unfold startsLoop at hrun
    by_cases hc : i < n ∧ st.timed_out = false
    · rw [if_pos hc] at hrun
      cases ha : attempt clock dist n i st with
      | none => rw [ha] at hrun; simp at hrun
      | some st1 =>
        rw [ha] at hrun
        simp only [Option.some_bind] at hrun
        have h1 : st1.timed_out = false := by
          cases ht : st1.timed_out
          · rfl
          · rw [startsLoop_timed_out clock dist n fuel _ st1 ht] at hrun
            simp only [Option.some.injEq] at hrun
            rw [← hrun, ht] at hr
            exact absurd hr (by simp)
        apply ih (i + jump n) st1 r _ h1 _ hrun hr
        · rw [Nat.add_mod_right]
          exact hi
        · exact Or.inr (bestOf_step clock dist n i st st1 hn hnonneg hcost hi hc.1 h0 hinv ha h1)
    · rw [if_neg hc] at hrun
      simp only [Option.some.injEq] at hrun
      subst hrun
      exact hend i st hc h0 hinv

theorem initialPath_bestOf (clock : Nat → Bool) (dist : Matrix) (n : Nat) (mem r : NNState)
    (hn : 2 ≤ n) (hnonneg : EntriesIn dist n 2147483648) (hcost : NNCostsBelowIntMax dist n)
    (hrun : initialPath clock dist n mem = some r) (hdone : r.timed_out = false) :
    BestOf dist n n r.best := by
  unfold initialPath at hrun
  exact startsLoop_best clock dist n hn hnonneg hcost n 0 _ r (Nat.zero_mod _) rfl
    (Or.inl ⟨rfl, by simp [upd_apply]⟩) hrun hdone

/-! ## initialPath: completion -/

theorem startsLoop_completes (dist : Matrix) (n : Nat) (hn : 2 ≤ n)
    (hcost : NNCostsBelowIntMax dist n) :
    ∀ (fuel i : Nat) (st : NNState), i % jump n = 0 → st.timed_out = false →
      n ≤ i + fuel * jump n →
      ∃ r, startsLoop never dist n fuel i st = some r ∧ r.timed_out = false := by
  intro fuel
  induction fuel with
  | zero =>
    intro i st _ h0 hfuel
    unfold startsLoop
    rw [if_neg (by omega)]
    exact ⟨st, rfl, h0⟩
  | succ fuel ih =>
    intro i st hi h0 hfuel
    unfold startsLoop
    by_cases hc : i < n ∧ st.timed_out = false
    · rw [if_pos hc]
      obtain ⟨t, hnn, _⟩ := hcost i hc.1 hi
      unfold nnAttempt at hnn
      cases ha0 : attempt never dist n i zeroState with
      | none => rw [ha0] at hnn; simp at hnn
      | some st0 =>
        have hto0 := attempt_never dist n i zeroState st0 rfl ha0
        obtain ⟨st1, ha1, hto1, _⟩ :=
          attempt_agree never dist n i zeroState st0 st hn rfl h0 ha0 hto0
        rw [ha1]
        simp only [Option.some_bind]
        apply ih (i + jump n) st1 _ hto1
        · have e := Nat.succ_mul fuel (jump n)
          generalize fuel * jump n = m at e ⊢
          generalize (fuel + 1) * jump n = m' at e hfuel
          omega
        · rw [Nat.add_mod_right]
          exact hi
    · rw [if_neg hc]
      exact ⟨st, rfl, h0⟩

/-- Under a clock that never reaches the limit `initialPath` returns, with `timed_out`
unset. -/
theorem initialPath_completes (dist : Matrix) (n : Nat) (mem : NNState) (hn : 2 ≤ n)
    (hcost : NNCostsBelowIntMax dist n) :
    ∃ r, initialPath never dist n mem = some r ∧ r.timed_out = false := by
  unfold initialPath
  apply startsLoop_completes dist n hn hcost n 0 _ (Nat.zero_mod _) rfl
  have := Nat.le_mul_of_pos_right n (jump_pos n)
  omega

theorem nnCosts_square : NNCostsBelowIntMax squareDist 4 := by
  intro s hs _
  interval_cases s
  · exact ⟨_, rfl, by decide⟩
  · exact ⟨_, rfl, by decide⟩
  · exact ⟨_, rfl, by decide⟩
  · exact ⟨_, rfl, by decide⟩

/-! ## initialPath: the claims -/

/-- C1: for `n ≥ 2` and a table with non-negative `int` entries whose nearest-neighbour
tours all cost less than `INT_MAX`, `initialPath` completes when the clock never reaches the
limit, and whenever it completes with `timed_out` unset, `best[1..n]` is a permutation of
`0..n-1`: every city index occurs exactly once. -/
theorem initialPath_permutation (dist : Matrix) (n : Nat) (mem : NNState) (hn : 2 ≤ n)
    (hnonneg : EntriesIn dist n 2147483648) (hcost : NNCostsBelowIntMax dist n) :
    (∃ r, initialPath never dist n mem = some r ∧ r.timed_out = false) ∧
      ∀ (clock : Nat → Bool) (r : NNState),
        initialPath clock dist n mem = some r → r.timed_out = false →
          IsTour n r.best ∧ ∀ c : Nat, c < n → (tourCities n r.best).count (c : Int) = 1 := by
  refine ⟨initialPath_completes dist n mem hn hcost, ?_⟩
  intro clock r hrun hdone
  obtain ⟨s, t, _, hs, _, hnn, hb, _⟩ :=
    initialPath_bestOf clock dist n mem r hn hnonneg hcost hrun hdone
  have ht := (nnAttempt_spec dist n s t hn hs hnn).1
  have htour : IsTour n r.best :=
    isTour_congr n t r.best (fun p _ hp => (hb p hp).symm) ht
  refine ⟨htour, ?_⟩
  intro c hc
  have hnd : (tourCities n r.best).Nodup :=
    (List.Perm.nodup_iff htour).2 ((List.nodup_range n).map (fun a b h => by exact_mod_cast h))
  apply List.count_eq_one_of_mem hnd
  rw [List.Perm.mem_iff htour, List.mem_map]
  exact ⟨c, List.mem_range.2 hc, rfl⟩

theorem initialPath_permutation_witness :
    (2 ≤ 4 ∧ EntriesIn squareDist 4 2147483648 ∧ NNCostsBelowIntMax squareDist 4) ∧
      ((∃ r, initialPath never squareDist 4 zeroState = some r ∧ r.timed_out = false) ∧
        ∀ (clock : Nat → Bool) (r : NNState),
          initialPath clock squareDist 4 zeroState = some r → r.timed_out = false →
            IsTour 4 r.best ∧
              ∀ c : Nat, c < 4 → (tourCities 4 r.best).count (c : Int) = 1) :=
  ⟨⟨by decide, by decide, nnCosts_square⟩,
    initialPath_permutation squareDist 4 zeroState (by decide) (by decide) nnCosts_square⟩

/-- C2: under the hypotheses of C1, whenever `initialPath` completes with `timed_out`
unset, the cached cost `best[0]` is the closed-tour length of `best[1..n]` recomputed from
the table, the closing edge `d[best[n]][best[1]]` included. -/
theorem initialPath_cost (dist : Matrix) (n : Nat) (mem : NNState) (hn : 2 ≤ n)
    (hnonneg : EntriesIn dist n 2147483648) (hcost : NNCostsBelowIntMax dist n) :
    (∃ r, initialPath never dist n mem = some r ∧ r.timed_out = false) ∧
      ∀ (clock : Nat → Bool) (r : NNState),
        initialPath clock dist n mem = some r → r.timed_out = false →
          r.best 0 = tourLength dist n r.best := by
  refine ⟨initialPath_completes dist n mem hn hcost, ?_⟩
  intro clock r hrun hdone
  obtain ⟨s, t, _, hs, hsj, hnn, hb, _⟩ :=
    initialPath_bestOf clock dist n mem r hn hnonneg hcost hrun hdone
  obtain ⟨t0, hnn0, hlt0⟩ := hcost s hs hsj
  rw [hnn] at hnn0
  simp only [Option.some.injEq] at hnn0
  subst hnn0
  rw [hb 0 (by omega), nnAttempt_cost dist n s t hn hs hnonneg hnn hlt0]
  exact (tourLength_congr dist n r.best t (by omega) (fun p _ hp => hb p hp)).symm

theorem initialPath_cost_witness :
    (2 ≤ 4 ∧ EntriesIn squareDist 4 2147483648 ∧ NNCostsBelowIntMax squareDist 4) ∧
      ((∃ r, initialPath never squareDist 4 zeroState = some r ∧ r.timed_out = false) ∧
        ∀ (clock : Nat → Bool) (r : NNState),
          initialPath clock squareDist 4 zeroState = some r → r.timed_out = false →
            r.best 0 = tourLength squareDist 4 r.best) :=
  ⟨⟨by decide, by decide, nnCosts_square⟩,
    initialPath_cost squareDist 4 zeroState (by decide) (by decide) nnCosts_square⟩

/-- C10: under the hypotheses of C1, the attempted starts are the multiples of `jump n`
below `n`, where `jump n` is `1` for `n < 250` and `n / 35` otherwise; whenever
`initialPath` completes with `timed_out` unset, `best[0..n]` is the array of the attempt
from an attempted start `s` whose cost, its closed-tour length, is minimal among the costs
of all attempted starts, and `s` is the smallest attempted start of that cost. -/
theorem initialPath_lowest_attempt (dist : Matrix) (n : Nat) (mem : NNState) (hn : 2 ≤ n)
    (hnonneg : EntriesIn dist n 2147483648) (hcost : NNCostsBelowIntMax dist n) :
    (n < 250 → jump n = 1) ∧ (250 ≤ n → jump n = n / 35) ∧
      ∀ (clock : Nat → Bool) (r : NNState),
        initialPath clock dist n mem = some r → r.timed_out = false →
          ∃ s t, s < n ∧ s % jump n = 0 ∧ nnAttempt dist n s = some t ∧
            (∀ p, p ≤ n → r.best p = t p) ∧ t 0 = tourLength dist n t ∧
            ∀ s' t', s' < n → s' % jump n = 0 → nnAttempt dist n s' = some t' →
              t 0 ≤ t' 0 ∧ (t' 0 = t 0 → s ≤ s') := by
  refine ⟨?_, ?_, ?_⟩
  · intro h
    unfold jump
    rw [if_pos h]
  · intro h
    unfold jump NN_CHECK
    rw [if_neg (by omega)]
  · intro clock r hrun hdone
    obtain ⟨s, t, _, hs, hsj, hnn, hb, hmin⟩ :=
      initialPath_bestOf clock dist n mem r hn hnonneg hcost hrun hdone
    obtain ⟨t0, hnn0, hlt0⟩ := hcost s hs hsj
    rw [hnn] at hnn0
    simp only [Option.some.injEq] at hnn0
    subst hnn0
    exact ⟨s, t, hs, hsj, hnn, hb, nnAttempt_cost dist n s t hn hs hnonneg hnn hlt0,
      fun s' t' hs' hs'j hnn' => hmin s' t' hs' hs' hs'j hnn'⟩

theorem initialPath_lowest_attempt_witness :
    (2 ≤ 4 ∧ EntriesIn squareDist 4 2147483648 ∧ NNCostsBelowIntMax squareDist 4) ∧
      ((4 < 250 → jump 4 = 1) ∧ (250 ≤ 4 → jump 4 = 4 / 35) ∧
        ∀ (clock : Nat → Bool) (r : NNState),
          initialPath clock squareDist 4 zeroState = some r → r.timed_out = false →
            ∃ s t, s < 4 ∧ s % jump 4 = 0 ∧ nnAttempt squareDist 4 s = some t ∧
              (∀ p, p ≤ 4 → r.best p = t p) ∧ t 0 = tourLength squareDist 4 t ∧
              ∀ s' t', s' < 4 → s' % jump 4 = 0 → nnAttempt squareDist 4 s' = some t' →
                t 0 ≤ t' 0 ∧ (t' 0 = t 0 → s ≤ s')) :=
  ⟨⟨by decide, by decide, nnCosts_square⟩,
    initialPath_lowest_attempt squareDist 4 zeroState (by decide) (by decide) nnCosts_square⟩

/-! ## initialPath: the nearest unvisited neighbour -/

theorem nearest_upto (dist : Matrix) (visited : Nat → Bool) (cur : Int) (m : Nat) :
    ((List.range m).foldl (nearestStep dist visited cur) (-1, INT_MAX)).2 ≤ INT_MAX ∧
      (∀ k, k < m → visited k = false →
        ((List.range m).foldl (nearestStep dist visited cur) (-1, INT_MAX)).2 ≤
          dist cur (k : Int)) ∧
      ((((List.range m).foldl (nearestStep dist visited cur) (-1, INT_MAX)).1 = -1 ∧
          ((List.range m).foldl (nearestStep dist visited cur) (-1, INT_MAX)).2 = INT_MAX) ∨
        ∃ c : Nat, c < m ∧
          ((List.range m).foldl (nearestStep dist visited cur) (-1, INT_MAX)).1 = (c : Int) ∧
          visited c = false ∧
          ((List.range m).foldl (nearestStep dist visited cur) (-1, INT_MAX)).2 =
            dist cur (c : Int) ∧
          ∀ k, k < c → visited k = false →
            ((List.range m).foldl (nearestStep dist visited cur) (-1, INT_MAX)).2 <
              dist cur (k : Int)) := by
  induction m with
  | zero =>
    refine ⟨le_refl _, ?_, Or.inl ⟨rfl, rfl⟩⟩
    intro k hk
    omega
  | succ m ih =>
    rw [List.range_succ, List.foldl_append]
    simp only [List.foldl_cons, List.foldl_nil]
    generalize (List.range m).foldl (nearestStep dist visited cur) (-1, INT_MAX) = nm at ih ⊢
    obtain ⟨hA, hB, hC⟩ := ih
    unfold nearestStep
    by_cases hc : visited m = false ∧ dist cur (m : Int) < nm.2
    · rw [if_pos hc]
      refine ⟨by simp only; omega, ?_, ?_⟩
      · intro k hk hv
        simp only
        by_cases hkm : k = m
        · subst hkm; exact le_refl _
        · have := hB k (by omega) hv
          omega
      · refine Or.inr ⟨m, by omega, rfl, hc.1, rfl, ?_⟩
        intro k hk hv
        have := hB k hk hv
        simp only
        omega
    · rw [if_neg hc]
      refine ⟨hA, ?_, ?_⟩
      · intro k hk hv
        by_cases hkm : k = m
        · subst hkm
          by_contra hlt
          exact hc ⟨hv, by omega⟩
        · exact hB k (by omega) hv
      · rcases hC with hC | ⟨c, hc1, hc2⟩
        · exact Or.inl hC
        · exact Or.inr ⟨c, by omega, hc2⟩

/-- When the scan selects a city, it is the first unvisited city at the least distance
from the path end. -/
theorem nearest_min (dist : Matrix) (n : Nat) (visited : Nat → Bool) (cur : Int)
    (h : ¬ (nearest dist n visited cur).1 < 0) :
    ∃ c : Nat, c < n ∧ (nearest dist n visited cur).1 = (c : Int) ∧ visited c = false ∧
      (nearest dist n visited cur).2 = dist cur (c : Int) ∧
      (∀ k, k < n → visited k = false → dist cur (c : Int) ≤ dist cur (k : Int)) ∧
      ∀ k, k < c → visited k = false → dist cur (c : Int) < dist cur (k : Int) := by
  unfold nearest at h ⊢
  obtain ⟨_, hB, hC⟩ := nearest_upto dist visited cur n
  rcases hC with ⟨h1, _⟩ | ⟨c, hc, hc1, hc2, hc3, hc4⟩
  · rw [h1] at h
    exact absurd (by decide) h
  · refine ⟨c, hc, hc1, hc2, hc3, ?_, ?_⟩
    · intro k hk hv
      rw [← hc3]
      exact hB k hk hv
    · intro k hk hv
      rw [← hc3]
      exact hc4 k hk hv

/-- The scan selects a city as soon as one unvisited city is closer than `INT_MAX`. -/
theorem nearest_found (dist : Matrix) (n : Nat) (visited : Nat → Bool) (cur : Int)
    (h : ∃ k : Nat, k < n ∧ visited k = false ∧ dist cur (k : Int) < INT_MAX) :
    ¬ (nearest dist n visited cur).1 < 0 := by
  unfold nearest
  obtain ⟨k, hk, hv, hd⟩ := h
  obtain ⟨_, hB, hC⟩ := nearest_upto dist visited cur n
  rcases hC with ⟨_, h2⟩ | ⟨c, _, hc1, _⟩
  · have := hB k hk hv
    omega
  · rw [hc1]
    omega

theorem selected_congr (dist : Matrix) (n j : Nat) (t t' : Nat → Int) (hj : 2 ≤ j)
    (h : ∀ p, 1 ≤ p → p ≤ j → t p = t' p) (hs : Selected dist n t j) :
    Selected dist n t' j := by
  obtain ⟨c, hc, h1, h2, h3⟩ := hs
  refine ⟨c, hc, by rw [← h j (by omega) (le_refl _)]; exact h1, ?_, ?_⟩
  · intro p hp1 hp2
    rw [← h p hp1 (by omega)]
    exact h2 p hp1 hp2
  · intro c' hc' hfree
    rw [← h (j - 1) (by omega) (by omega)]
    apply h3 c' hc'
    intro p hp1 hp2
    rw [h p hp1 (by omega)]
    exact hfree p hp1 hp2

/-- The city that one iteration of the loop of line 145 adds is a nearest unvisited
neighbour of the path end, first in scan order. -/
theorem addCity_selected (clock : Nat → Bool) (dist : Matrix) (n s m : Nat)
    (st st1 : NNState) (hm : 1 ≤ m) (hinv : PathInv dist n s m st)
    (h : addCity clock dist n (m + 1) st = some st1) :
    Selected dist n st1.temp (m + 1) ∧
      ∀ p, 1 ≤ p → p ≤ m → st1.temp p = st.temp p := by
  obtain ⟨hnext, hsel⟩ := addCity_next clock dist n (m + 1) st st1 h
  obtain ⟨c0, _, _, hn0, _, htemp, _, _, _, _⟩ :=
    addCity_some clock dist n (m + 1) st st1 (by omega) h
  have e : m + 1 - 1 = m := by omega
  rw [e] at hnext hsel htemp
  obtain ⟨c, hc, hc1, hc2, _, hc4, hc5⟩ := nearest_min dist n st.visited (st.temp m) hsel
  have hcc : c0 = c := by
    have : (c0 : Int) = (c : Int) := by rw [← hn0, hnext, hc1]
    exact_mod_cast this
  subst hcc
  obtain ⟨_, i2, i3, _, _, _⟩ := hinv
  have hold : ∀ p, 1 ≤ p → p ≤ m → st1.temp p = st.temp p := by
    intro p hp1 hp2
    rw [htemp, upd_apply, upd_apply, if_neg (by omega), if_neg (by omega)]
  have hnew : st1.temp (m + 1) = (c0 : Int) := by
    rw [htemp, upd_apply, upd_apply, if_neg (by omega), if_pos rfl]
  have hfree : ∀ c' : Nat, c' < n →
      (∀ p, 1 ≤ p → p < m + 1 → st1.temp p ≠ (c' : Int)) → st.visited c' = false := by
    intro c' hc' hf
    cases hv : st.visited c'
    · rfl
    · obtain ⟨p, hp1, hp2, hp3⟩ := i3 c' hc' hv
      exact absurd (by rw [hold p hp1 hp2]; exact hp3) (hf p hp1 (by omega))
  refine ⟨⟨c0, hc, hnew, ?_, ?_⟩, hold⟩
  · intro p hp1 hp2 heq
    rw [hold p hp1 (by omega)] at heq
    obtain ⟨c', _, h1, h2⟩ := i2 p hp1 (by omega)
    rw [h1] at heq
    have : c' = c0 := by exact_mod_cast heq
    rw [this, hc2] at h2
    exact absurd h2 (by simp)
  · intro c' hc' hf
    rw [e, hold m hm (le_refl _)]
    have hv := hfree c' hc' hf
    exact ⟨hc4 c' hc' hv, fun hlt => hc5 c' hlt hv⟩

theorem growPath_selected (clock : Nat → Bool) (dist : Matrix) (n s : Nat) :
    ∀ (len m : Nat) (st st2 : NNState), 1 ≤ m → PathInv dist n s m st →
      (∀ j, 2 ≤ j → j ≤ m → Selected dist n st.temp j) →
      st.timed_out = false →
      growPath clock dist n (List.range' (m + 1) len) st = some st2 →
      st2.timed_out = false →
      ∀ j, 2 ≤ j → j ≤ m + len → Selected dist n st2.temp j := by
  intro len
  induction len with
  | zero =>
    intro m st st2 _ _ hsel _ h _ j hj1 hj2
    simp only [List.range'_zero, growPath, Option.some.injEq] at h
    rw [← h]
    exact hsel j hj1 (by omega)
  | succ len ih =>
    intro m st st2 hm hinv hsel h0 h h2 j hj1 hj2
    rw [List.range'_succ] at h
    obtain ⟨st1, h1, ht1, hrest⟩ := growPath_cons clock dist n (m + 1) _ st st2 h0 h h2
    have hinv1 := pathInv_step clock dist n s m st st1 hm hinv h1
    obtain ⟨hnew, hold⟩ := addCity_selected clock dist n s m st st1 hm hinv h1
    apply ih (m + 1) st1 st2 (by omega) hinv1 _ ht1 hrest h2 j hj1 (by omega)
    intro j' hj'1 hj'2
    by_cases hj' : j' = m + 1
    · subst hj'; exact hnew
    · apply selected_congr dist n j' st.temp st1.temp hj'1 _ (hsel j' hj'1 (by omega))
      intro p hp1 hp2
      exact (hold p hp1 (by omega)).symm

/-- In a completed attempt every position `2..n` of `temp` holds a nearest unvisited
neighbour of the position before it, first in scan order. -/
theorem attempt_selected (clock : Nat → Bool) (dist : Matrix) (n s : Nat) (st st2 : NNState)
    (hn : 2 ≤ n) (hs : s < n) (h0 : st.timed_out = false)
    (h : attempt clock dist n s st = some st2) (h2 : st2.timed_out = false) :
    ∀ j, 2 ≤ j → j ≤ n → Selected dist n st2.temp j := by
  obtain ⟨stg, hg, hgt, htemp, _, _⟩ := attempt_some clock dist n s st st2 h h2
  have hres := growPath_selected clock dist n s (n - 1) 1 _ stg (le_refl _)
    (pathInv_init dist n s st hs) (fun j hj1 hj2 => by omega) h0 hg hgt
  intro j hj1 hj2
  apply selected_congr dist n j stg.temp st2.temp hj1 _ (hres j hj1 (by omega))
  intro p hp1 _
  rw [htemp, upd_apply, if_neg (by omega)]

/-! ## initialPath: the selection does not fail on entries below `INT_MAX` -/

theorem exists_unvisited (dist : Matrix) (n s m : Nat) (st : NNState)
    (hinv : PathInv dist n s m st) (hmn : m < n) :
    ∃ c : Nat, c < n ∧ st.visited c = false := by
  by_contra hall
  obtain ⟨_, _, i3, _, _, _⟩ := hinv
  have hvis : ∀ c : Nat, c < n → st.visited c = true := by
    intro c hc
    cases hv : st.visited c
    · exact absurd ⟨c, hc, hv⟩ hall
    · rfl
  have hsub : (List.range n).map (fun c : Nat => (c : Int)) ⊆
      (List.range m).map (fun p => st.temp (p + 1)) := by
    intro a ha
    rw [List.mem_map] at ha
    obtain ⟨c, hc, rfl⟩ := ha
    obtain ⟨p, hp1, hp2, hp3⟩ := i3 c (List.mem_range.1 hc) (hvis c (List.mem_range.1 hc))
    rw [List.mem_map]
    exact ⟨p - 1, List.mem_range.2 (by omega), by
      have e : p - 1 + 1 = p := by omega
      rw [e]; exact hp3⟩
  have hnd : ((List.range n).map (fun c : Nat => (c : Int))).Nodup :=
    (List.nodup_range n).map (fun a b h => by exact_mod_cast h)
  have hlen := (List.subperm_of_subset hnd hsub).length_le
  simp only [List.length_map, List.length_range] at hlen
  omega

theorem addCity_total (clock : Nat → Bool) (dist : Matrix) (n s m : Nat) (st : NNState)
    (hbelow : EntriesBelow dist n INT_MAX) (hm : 1 ≤ m) (hmn : m < n)
    (hinv : PathInv dist n s m st) :
    ∃ st1, addCity clock dist n (m + 1) st = some st1 := by
  apply addCity_of_selected
  apply nearest_found
  obtain ⟨c, hc, hv⟩ := exists_unvisited dist n s m st hinv hmn
  obtain ⟨c0, hc0, h0, _⟩ := hinv.2.1 m hm (le_refl _)
  have e : m + 1 - 1 = m := by omega
  rw [e, h0]
  exact ⟨c, hc, hv, hbelow c0 hc0 c hc⟩

theorem growPath_total (clock : Nat → Bool) (dist : Matrix) (n s : Nat)
    (hbelow : EntriesBelow dist n INT_MAX) :
    ∀ (len m : Nat) (st : NNState), 1 ≤ m → m + len ≤ n → PathInv dist n s m st →
      ∃ st2, growPath clock dist n (List.range' (m + 1) len) st = some st2 := by
  intro len
  induction len with
  | zero =>
    intro m st _ _ _
    exact ⟨st, by simp [growPath]⟩
  | succ len ih =>
    intro m st hm hlen hinv
    rw [List.range'_succ]
    unfold growPath
    by_cases ht : st.timed_out = true
    · rw [if_pos ht]
      exact ⟨st, rfl⟩
    · rw [if_neg ht]
      obtain ⟨st1, h1⟩ := addCity_total clock dist n s m st hbelow hm (by omega) hinv
      rw [h1]
      simp only [Option.some_bind]
      exact ih (m + 1) st1 (by omega) (by omega)
        (pathInv_step clock dist n s m st st1 hm hinv h1)

/-- On a table with entries below `INT_MAX` the body of the loop of line 137 never selects
the placeholder `-1`: it has a result from every state and under every clock. -/
theorem attempt_total (clock : Nat → Bool) (dist : Matrix) (n s : Nat) (st : NNState)
    (hbelow : EntriesBelow dist n INT_MAX) (hs : s < n) :
    ∃ st2, attempt clock dist n s st = some st2 := by
  obtain ⟨stg, hg⟩ := growPath_total clock dist n s hbelow (n - 1) 1
    { st with
      visited := upd (resetVisited n st.visited) s true
      temp := upd (upd st.temp 0 0) 1 (s : Int) }
    (le_refl _) (by omega) (pathInv_init dist n s st hs)
  unfold attempt
  rw [hg]
  simp only [Option.some_bind]
  split_ifs
  · exact ⟨_, rfl⟩
  · exact ⟨_, rfl⟩
  · exact ⟨_, rfl⟩

theorem startsLoop_total (clock : Nat → Bool) (dist : Matrix) (n : Nat)
    (hbelow : EntriesBelow dist n INT_MAX) :
    ∀ (fuel i : Nat) (st : NNState), n ≤ i + fuel * jump n →
      ∃ r, startsLoop clock dist n fuel i st = some r := by
  intro fuel
  induction fuel with
  | zero =>
    intro i st hfuel
    unfold startsLoop
    rw [if_neg (by omega)]
    exact ⟨st, rfl⟩
  | succ fuel ih =>
    intro i st hfuel
    unfold startsLoop
    by_cases hc : i < n ∧ st.timed_out = false
    · rw [if_pos hc]
      obtain ⟨st1, h1⟩ := attempt_total clock dist n i st hbelow hc.1
      rw [h1]
      simp only [Option.some_bind]
      apply ih (i + jump n) st1
      have e := Nat.succ_mul fuel (jump n)
      generalize fuel * jump n = m at e ⊢
      generalize (fuel + 1) * jump n = m' at e hfuel
      omega
    · rw [if_neg hc]
      exact ⟨st, rfl⟩

/-- On a table with entries below `INT_MAX`, `initialPath` returns under every clock. -/
theorem initialPath_total (clock : Nat → Bool) (dist : Matrix) (n : Nat) (mem : NNState)
    (hbelow : EntriesBelow dist n INT_MAX) :
    ∃ r, initialPath clock dist n mem = some r := by
  unfold initialPath
  apply startsLoop_total clock dist n hbelow n 0
  have := Nat.le_mul_of_pos_right n (jump_pos n)
  omega

/-! ## initialPath: the clock -/

theorem growPath_uncons (clock : Nat → Bool) (dist : Matrix) (n j : Nat) (js : List Nat)
    (st st2 : NNState) (h0 : st.timed_out = false)
    (h : growPath clock dist n (j :: js) st = some st2) :
    ∃ st1, addCity clock dist n j st = some st1 ∧ growPath clock dist n js st1 = some st2 := by
  unfold growPath at h
  rw [if_neg (by rw [h0]; simp)] at h
  cases h1 : addCity clock dist n j st with
  | none => rw [h1] at h; simp at h
  | some st1 =>
    rw [h1] at h
    simp only [Option.some_bind] at h
    exact ⟨st1, rfl, h⟩

theorem addCity_clock (clock : Nat → Bool) (dist : Matrix) (n j : Nat) (st st1 : NNState)
    (h : addCity clock dist n j st = some st1) :
    st1.timed_out = (if clock st.checks then true else st.timed_out) ∧
      st1.checks = st.checks + 1 ∧ st1.best = st.best := by
  unfold addCity at h
  by_cases hneg : (nearest dist n st.visited (st.temp (j - 1))).1 < 0
  · simp [hneg] at h
  · simp only [if_neg hneg, Option.some.injEq] at h
    subst h
    exact ⟨rfl, rfl, rfl⟩

/-- As long as the clock answers `false`, the loop of line 145 runs all its iterations,
one comparison each. -/
theorem growPath_no_fire (clock : Nat → Bool) (dist : Matrix) (n : Nat) :
    ∀ (len j : Nat) (st st2 : NNState), st.timed_out = false →
      (∀ m, m < len → clock (st.checks + m) = false) →
      growPath clock dist n (List.range' j len) st = some st2 →
      st2.timed_out = false ∧ st2.checks = st.checks + len ∧ st2.best = st.best := by
  intro len
  induction len with
  | zero =>
    intro j st st2 h0 _ h
    simp only [List.range'_zero, growPath, Option.some.injEq] at h
    subst h
    exact ⟨h0, rfl, rfl⟩
  | succ len ih =>
    intro j st st2 h0 hc h
    rw [List.range'_succ] at h
    obtain ⟨st1, h1, hrest⟩ := growPath_uncons clock dist n j _ st st2 h0 h
    obtain ⟨ht, hk, hb⟩ := addCity_clock clock dist n j st st1 h1
    have hc0 : clock st.checks = false := by
      have := hc 0 (by omega)
      simpa using this
    rw [hc0, h0] at ht
    have hres := ih (j + 1) st1 st2 (by simpa using ht)
      (fun m hm => by
        rw [hk]
        have := hc (m + 1) (by omega)
        rw [show st.checks + 1 + m = st.checks + (m + 1) by omega]
        exact this) hrest
    exact ⟨hres.1, by rw [hres.2.1, hk]; omega, by rw [hres.2.2, hb]⟩

/-- When the clock first answers `true` at the comparison of the iteration `d`, the loop of
line 145 stops right after that comparison. -/
theorem growPath_fire (clock : Nat → Bool) (dist : Matrix) (n : Nat) :
    ∀ (len j d : Nat) (st st2 : NNState), st.timed_out = false → d < len →
      clock (st.checks + d) = true → (∀ m, m < d → clock (st.checks + m) = false) →
      growPath clock dist n (List.range' j len) st = some st2 →
      st2.timed_out = true ∧ st2.checks = st.checks + d + 1 ∧ st2.best = st.best := by
  intro len
  induction len with
  | zero =>
    intro j d st st2 _ hd
    omega
  | succ len ih =>
    intro j d st st2 h0 hd hfire hc h
    rw [List.range'_succ] at h
    obtain ⟨st1, h1, hrest⟩ := growPath_uncons clock dist n j _ st st2 h0 h
    obtain ⟨ht, hk, hb⟩ := addCity_clock clock dist n j st st1 h1
    cases d with
    | zero =>
      rw [Nat.add_zero] at hfire
      rw [hfire] at ht
      simp only [if_true] at ht
      rw [growPath_timed_out clock dist n _ st1 ht] at hrest
      simp only [Option.some.injEq] at hrest
      subst hrest
      exact ⟨ht, by rw [hk], hb⟩
    | succ d =>
      have hc0 : clock st.checks = false := by
        have := hc 0 (by omega)
        simpa using this
      rw [hc0, h0] at ht
      have hres := ih (j + 1) d st1 st2 (by simpa using ht) (by omega)
        (by
          rw [hk, show st.checks + 1 + d = st.checks + (d + 1) by omega]
          exact hfire)
        (fun m hm => by
          rw [hk, show st.checks + 1 + m = st.checks + (m + 1) by omega]
          exact hc (m + 1) (by omega)) hrest
      exact ⟨hres.1, by rw [hres.2.1, hk]; omega, by rw [hres.2.2, hb]⟩

theorem attempt_grow (clock : Nat → Bool) (dist : Matrix) (n s : Nat) (st st2 : NNState)
    (h : attempt clock dist n s st = some st2) :
    ∃ stg, growPath clock dist n (List.range' 2 (n - 1))
        { st with
          visited := upd (resetVisited n st.visited) s true
          temp := upd (upd st.temp 0 0) 1 (s : Int) } = some stg ∧
      st2.timed_out = stg.timed_out ∧ st2.checks = stg.checks ∧
      (stg.timed_out = true → st2 = stg) := by
  unfold attempt at h
  cases hg : growPath clock dist n (List.range' 2 (n - 1))
      { st with
        visited := upd (resetVisited n st.visited) s true
        temp := upd (upd st.temp 0 0) 1 (s : Int) } with
  | none => rw [hg] at h; simp at h
  | some stg =>
    rw [hg] at h
    simp only [Option.some_bind] at h
    refine ⟨stg, rfl, ?_⟩
    by_cases ht : stg.timed_out = true
    · rw [if_pos ht] at h
      simp only [Option.some.injEq] at h
      subst h
      exact ⟨rfl, rfl, fun _ => rfl⟩
    · rw [if_neg ht] at h
      split_ifs at h <;>
      · simp only [Option.some.injEq] at h
        subst h
        exact ⟨rfl, rfl, fun h' => absurd h' ht⟩

theorem attempt_no_fire (clock : Nat → Bool) (dist : Matrix) (n s : Nat) (st st2 : NNState)
    (h0 : st.timed_out = false) (hc : ∀ m, m < n - 1 → clock (st.checks + m) = false)
    (h : attempt clock dist n s st = some st2) :
    st2.timed_out = false ∧ st2.checks = st.checks + (n - 1) := by
  obtain ⟨stg, hg, h1, h2, _⟩ := attempt_grow clock dist n s st st2 h
  obtain ⟨g1, g2, _⟩ := growPath_no_fire clock dist n (n - 1) 2
    { st with
      visited := upd (resetVisited n st.visited) s true
      temp := upd (upd st.temp 0 0) 1 (s : Int) }
    stg h0 hc hg
  exact ⟨by rw [h1, g1], by rw [h2, g2]⟩

theorem attempt_fire (clock : Nat → Bool) (dist : Matrix) (n s d : Nat) (st st2 : NNState)
    (h0 : st.timed_out = false) (hd : d < n - 1) (hfire : clock (st.checks + d) = true)
    (hc : ∀ m, m < d → clock (st.checks + m) = false)
    (h : attempt clock dist n s st = some st2) :
    st2.timed_out = true ∧ st2.checks = st.checks + d + 1 ∧ st2.best = st.best := by
  obtain ⟨stg, hg, _, _, h3⟩ := attempt_grow clock dist n s st st2 h
  obtain ⟨g1, g2, g3⟩ := growPath_fire clock dist n (n - 1) 2 d
    { st with
      visited := upd (resetVisited n st.visited) s true
      temp := upd (upd st.temp 0 0) 1 (s : Int) }
    stg h0 hd hfire hc hg
  rw [h3 g1]
  exact ⟨g1, g2, g3⟩

/-- The loop of line 137 under a clock that first answers `true` at the comparison `c`:
the `q` attempts that end before that comparison are completed, the next one is aborted
right after it, and `best` is what the `q` completed attempts left. -/
theorem startsLoop_fire (clock : Nat → Bool) (dist : Matrix) (n c : Nat) (hn : 2 ≤ n)
    (hfire : clock c = true) (hfirst : ∀ m, m < c → clock m = false) :
    ∀ (q fuel i : Nat) (st r : NNState), st.timed_out = false → st.checks ≤ c →
      (c - st.checks) / (n - 1) = q → i + q * jump n < n →
      startsLoop clock dist n fuel i st = some r →
      ∃ stq, attempts clock dist n q i st = some stq ∧ stq.timed_out = false ∧
        stq.checks = st.checks + q * (n - 1) ∧ r.best = stq.best ∧ r.timed_out = true ∧
        r.checks = c + 1 := by
  intro q
  induction q with
  | zero =>
    intro fuel i st r h0 hle hq hi hrun
    have hd : c - st.checks < n - 1 := by
      rw [Nat.div_eq_zero_iff (by omega)] at hq
      exact hq
    have hin : i < n := by omega
    cases fuel with
    | zero =>
      unfold startsLoop at hrun
      rw [if_pos ⟨hin, h0⟩] at hrun
      simp at hrun
    | succ fuel =>
      unfold startsLoop at hrun
      rw [if_pos ⟨hin, h0⟩] at hrun
      cases ha : attempt clock dist n i st with
      | none => rw [ha] at hrun; simp at hrun
      | some st1 =>
        rw [ha] at hrun
        simp only [Option.some_bind] at hrun
        obtain ⟨f1, f2, f3⟩ := attempt_fire clock dist n i (c - st.checks) st st1 h0 hd
          (by rw [show st.checks + (c - st.checks) = c by omega]; exact hfire)
          (fun m hm => hfirst _ (by omega)) ha
        rw [startsLoop_timed_out clock dist n fuel _ st1 f1] at hrun
        simp only [Option.some.injEq] at hrun
        subst hrun
        exact ⟨st, rfl, h0, by omega, f3, f1, by omega⟩
  | succ q ih =>
    intro fuel i st r h0 hle hq hi hrun
    have e1 := Nat.succ_mul q (n - 1)
    have e2 := Nat.succ_mul q (jump n)
    have hge : (q + 1) * (n - 1) ≤ c - st.checks := by
      rw [← Nat.le_div_iff_mul_le (by omega), hq]
    have hin : i < n := by
      generalize (q + 1) * jump n = x at hi
      omega
    have hdiv : (c - st.checks - (n - 1)) / (n - 1) = q := by
      have := Nat.div_eq_sub_div (show 0 < n - 1 by omega)
        (show n - 1 ≤ c - st.checks by
          generalize q * (n - 1) = y at e1
          generalize (q + 1) * (n - 1) = x at e1 hge
          omega)
      omega
    cases fuel with
    | zero =>
      unfold startsLoop at hrun
      rw [if_pos ⟨hin, h0⟩] at hrun
      simp at hrun
    | succ fuel =>
      unfold startsLoop at hrun
      rw [if_pos ⟨hin, h0⟩] at hrun
      cases ha : attempt clock dist n i st with
      | none => rw [ha] at hrun; simp at hrun
      | some st1 =>
        rw [ha] at hrun
        simp only [Option.some_bind] at hrun
        obtain ⟨f1, f2⟩ := attempt_no_fire clock dist n i st st1 h0
          (fun m hm => hfirst _ (by
            generalize q * (n - 1) = y at e1
            generalize (q + 1) * (n - 1) = x at e1 hge
            omega)) ha
        obtain ⟨stq, g1, g2, g3, g4, g5, g6⟩ := ih fuel (i + jump n) st1 r f1
          (by
            generalize q * (n - 1) = y at e1
            generalize (q + 1) * (n - 1) = x at e1 hge
            omega)
          (by rw [f2, show c - (st.checks + (n - 1)) = c - st.checks - (n - 1) by omega]
              exact hdiv)
          (by
            generalize q * jump n = y at e2 ⊢
            generalize (q + 1) * jump n = x at e2 hi
            omega) hrun
        refine ⟨stq, ?_, g2, ?_, g4, g5, g6⟩
        · unfold attempts
          rw [ha]
          exact g1
        · rw [g3, f2]
          generalize q * (n - 1) = y at e1 ⊢
          generalize (q + 1) * (n - 1) = x at e1
          omega

/-- C13: the clock answers each comparison and first answers `true` at the comparison `c`,
which falls into the attempt of the start number `c / (n - 1) + 1`.  Whenever `initialPath`
returns (it does on entries below `INT_MAX`), it has made no comparison and added no city
after that one, `timed_out` is set, and `best` is exactly what the `c / (n - 1)` completed
attempts left; when the first attempt is the one aborted, `best[0]` is still `INT_MAX` and
no other cell of `best` has been written. -/
theorem initialPath_deadline (clock : Nat → Bool) (dist : Matrix) (n c : Nat)
    (mem : NNState) (hn : 2 ≤ n) (hfire : clock c = true)
    (hfirst : ∀ m, m < c → clock m = false) (hstart : c / (n - 1) * jump n < n) :
    (EntriesBelow dist n INT_MAX → ∃ r, initialPath clock dist n mem = some r) ∧
      ∀ r, initialPath clock dist n mem = some r →
        r.timed_out = true ∧ r.checks = c + 1 ∧
        (∃ stk, attempts clock dist n (c / (n - 1)) 0
              { mem with best := upd mem.best 0 INT_MAX, timed_out := false, checks := 0 } =
            some stk ∧
          stk.timed_out = false ∧ stk.checks = c / (n - 1) * (n - 1) ∧ r.best = stk.best) ∧
        (c < n - 1 → r.best 0 = INT_MAX ∧ ∀ p, 1 ≤ p → r.best p = mem.best p) := by
  refine ⟨fun hbelow => initialPath_total clock dist n mem hbelow, ?_⟩
  intro r hrun
  unfold initialPath at hrun
  obtain ⟨stk, g1, g2, g3, g4, g5, g6⟩ := startsLoop_fire clock dist n c hn hfire hfirst
    (c / (n - 1)) n 0
    { mem with best := upd mem.best 0 INT_MAX, timed_out := false, checks := 0 } r rfl
    (Nat.zero_le _) rfl (by omega) hrun
  refine ⟨g5, g6, ⟨stk, g1, g2, by simpa using g3, g4⟩, ?_⟩
  intro hc
  have hk : c / (n - 1) = 0 := by
    rw [Nat.div_eq_zero_iff (by omega)]
    exact hc
  rw [hk] at g1
  simp only [attempts, Option.some.injEq] at g1
  rw [g4, ← g1]
  refine ⟨by simp [upd_apply], ?_⟩
  intro p hp
  simp only [upd_apply]
  rw [if_neg (by omega)]

theorem initialPath_deadline_witness :
    (2 ≤ 4 ∧ (fun k => decide (k = 4)) 4 = true ∧
        (∀ m, m < 4 → (fun k => decide (k = 4)) m = false) ∧ 4 / (4 - 1) * jump 4 < 4) ∧
      ((EntriesBelow squareDist 4 INT_MAX →
          ∃ r, initialPath (fun k => decide (k = 4)) squareDist 4 zeroState = some r) ∧
        ∀ r, initialPath (fun k => decide (k = 4)) squareDist 4 zeroState = some r →
          r.timed_out = true ∧ r.checks = 4 + 1 ∧
          (∃ stk, attempts (fun k => decide (k = 4)) squareDist 4 (4 / (4 - 1)) 0
                { zeroState with
                  best := upd zeroState.best 0 INT_MAX, timed_out := false, checks := 0 } =
              some stk ∧
            stk.timed_out = false ∧ stk.checks = 4 / (4 - 1) * (4 - 1) ∧ r.best = stk.best) ∧
          (4 < 4 - 1 → r.best 0 = INT_MAX ∧ ∀ p, 1 ≤ p → r.best p = zeroState.best p)) :=
  ⟨⟨by decide, by decide, by decide, by decide⟩,
    initialPath_deadline (fun k => decide (k = 4)) squareDist 4 4 zeroState (by decide)
      (by decide) (by decide) (by decide)⟩

/-! ## optimizePath: the clock, the frame, the empty instance -/

theorem pass_frame (dist : Matrix) (n : Nat) (best : Nat → Int) (p : Nat)
    (hp : p = 1 ∨ n ≤ p) (hp0 : p ≠ 0) : (pass dist n best).1 p = best p := by
  cases hf : (scan dist n best).imp_found
  · rw [pass_of_not_found dist n best hf]
  · rw [pass_of_found dist n best hf]
    obtain ⟨_, hsi, _, hsj, _⟩ := ((scan_spec dist n best).1).2.2 hf
    simp only [upd_apply]
    rw [if_neg hp0]
    unfold twoOpt
    rw [if_neg (by omega)]

theorem scan_small (dist : Matrix) (n : Nat) (best : Nat → Int) (hn : n ≤ 3) :
    (scan dist n best).imp_found = false := by
  cases hf : (scan dist n best).imp_found
  · rfl
  · obtain ⟨_, hsi, hsij, hsj, _⟩ := ((scan_spec dist n best).1).2.2 hf
    omega

/-- C18: `optimizePath` never changes the first or the last position of the tour: after
every number of passes and in every returned array `best[1]` and `best[n]` hold the cities
they held on entry (a swap writes the positions `2..n-1` and the cost cell only), and for
`n ≤ 3` no pass changes anything. -/
theorem optimizePath_frame (dist : Matrix) (n : Nat) (best : Nat → Int) :
    (∀ k, passes dist n k best 1 = best 1 ∧ (1 ≤ n → passes dist n k best n = best n)) ∧
      (∀ (clock : Nat → Bool) (fuel t : Nat) (r : Nat → Int) (flag : Bool),
        optimizePath clock dist n fuel t best = some (r, flag) →
          r 1 = best 1 ∧ (1 ≤ n → r n = best n)) ∧
      (n ≤ 3 → (∀ k, passes dist n k best = best) ∧
        ∀ (clock : Nat → Bool) (fuel t : Nat),
          optimizePath clock dist n (fuel + 1) t best = some (best, clock t)) := by
  have hall : ∀ k, passes dist n k best 1 = best 1 ∧ (1 ≤ n → passes dist n k best n = best n) :=
    fun k => passes_invariant dist n (fun b => b 1 = best 1 ∧ (1 ≤ n → b n = best n))
      (fun b hb => ⟨by rw [pass_frame dist n b 1 (Or.inl rfl) (by omega)]; exact hb.1,
        fun hn => by rw [pass_frame dist n b n (Or.inr (le_refl _)) (by omega)]; exact hb.2 hn⟩)
      k best ⟨rfl, fun _ => rfl⟩
  refine ⟨hall, ?_, ?_⟩
  · intro clock fuel t r flag h
    obtain ⟨k, _, _, hk⟩ := optimizePath_eq_passes clock dist n fuel t best r flag h
    rw [hk]
    exact hall k
  · intro hn
    have hfix : ∀ b, (pass dist n b) = (b, false) := fun b =>
      pass_of_not_found dist n b (scan_small dist n b hn)
    refine ⟨?_, ?_⟩
    · intro k
      exact passes_invariant dist n (fun b => b = best) (fun b hb => by rw [hfix b]; exact hb)
        k best rfl
    · intro clock fuel t
      unfold optimizePath
      rw [hfix best]
      cases hc : clock t <;> simp

/-- C20: with no city, `initialPath` attempts no start and consults the clock not once: it
returns `timed_out = false` whatever the clock, with `best[0] = INT_MAX` and nothing else
written; `optimizePath` then scans no pair and returns that array unchanged, so the cost
handed on is `2147483647`, not `0`. -/
theorem no_cities (clock : Nat → Bool) (dist : Matrix) (mem : NNState) :
    initialPath clock dist 0 mem =
        some { mem with best := upd mem.best 0 INT_MAX, timed_out := false, checks := 0 } ∧
      (∀ (clock2 : Nat → Bool) (fuel t : Nat),
        optimizePath clock2 dist 0 (fuel + 1) t (upd mem.best 0 INT_MAX) =
          some (upd mem.best 0 INT_MAX, clock2 t)) ∧
      upd mem.best 0 INT_MAX 0 = 2147483647 ∧ upd mem.best 0 INT_MAX 0 ≠ 0 ∧
      ∀ p, 1 ≤ p → upd mem.best 0 INT_MAX p = mem.best p := by
  refine ⟨rfl, ?_, by simp [upd_apply, INT_MAX], by simp [upd_apply, INT_MAX], ?_⟩
  · intro clock2 fuel t
    unfold optimizePath
    rw [pass_of_not_found dist 0 _ (scan_small dist 0 _ (by omega))]
    cases hc : clock2 t <;> simp
  · intro p hp
    rw [upd_apply, if_neg (by omega)]

/-! ## initialPath: the number of starts -/

theorem startsFrom_length (n : Nat) :
    ∀ (fuel i : Nat), n ≤ i + fuel * jump n →
      (startsFrom n fuel i).length = (n - i + jump n - 1) / jump n := by
  have hj := jump_pos n
  intro fuel
  induction fuel with
  | zero =>
    intro i h
    have e : n - i + jump n - 1 = jump n - 1 := by omega
    rw [e, Nat.div_eq_of_lt (by omega)]
    rfl
  | succ fuel ih =>
    intro i h
    unfold startsFrom
    by_cases hin : i < n
    · rw [if_pos hin, List.length_cons, ih (i + jump n) (by
        have e := Nat.succ_mul fuel (jump n)
        generalize fuel * jump n = m at e ⊢
        generalize (fuel + 1) * jump n = m' at e h
        omega)]
      by_cases hbig : i + jump n ≤ n
      · have e : n - i + jump n - 1 = (n - (i + jump n) + jump n - 1) + jump n := by omega
        rw [e, Nat.add_div_right _ (by omega)]
      · have e1 : n - (i + jump n) + jump n - 1 = jump n - 1 := by omega
        rw [e1, Nat.div_eq_of_lt (by omega)]
        symm
        apply Nat.div_eq_of_lt_le <;> omega
    · rw [if_neg hin]
      have e : n - i + jump n - 1 = jump n - 1 := by omega
      rw [e, Nat.div_eq_of_lt (by omega)]
      rfl

theorem startsFrom_mem (n : Nat) :
    ∀ (fuel i s : Nat), n ≤ i + fuel * jump n → i % jump n = 0 →
      (s ∈ startsFrom n fuel i ↔ i ≤ s ∧ s < n ∧ s % jump n = 0) := by
  have hj := jump_pos n
  intro fuel
  induction fuel with
  | zero =>
    intro i s h _
    unfold startsFrom
    simp only [List.not_mem_nil, false_iff]
    omega
  | succ fuel ih =>
    intro i s h hi
    unfold startsFrom
    by_cases hin : i < n
    · rw [if_pos hin, List.mem_cons, ih (i + jump n) s (by
        have e := Nat.succ_mul fuel (jump n)
        generalize fuel * jump n = m at e ⊢
        generalize (fuel + 1) * jump n = m' at e h
        omega) (by rw [Nat.add_mod_right]; exact hi)]
      constructor
      · rintro (h1 | ⟨h1, h2, h3⟩)
        · subst h1; exact ⟨le_refl _, hin, hi⟩
        · exact ⟨by omega, h2, h3⟩
      · rintro ⟨h1, h2, h3⟩
        by_cases hsi : s < i + jump n
        · exact Or.inl (multiple_in_window (jump n) i s hi h3 h1 hsi)
        · exact Or.inr ⟨by omega, h2, h3⟩
    · rw [if_neg hin]
      simp only [List.not_mem_nil, false_iff]
      omega

/-- Under a clock that never reaches the limit, the loop of line 137 runs its body once for
each value of `startsFrom`. -/
theorem startsLoop_eq_attempts (dist : Matrix) (n : Nat) :
    ∀ (fuel i : Nat) (st : NNState), n ≤ i + fuel * jump n → st.timed_out = false →
      startsLoop never dist n fuel i st =
        attempts never dist n (startsFrom n fuel i).length i st := by
  intro fuel
  induction fuel with
  | zero =>
    intro i st h _
    unfold startsLoop startsFrom
    rw [if_neg (by omega)]
    rfl
  | succ fuel ih =>
    intro i st h h0
    unfold startsLoop startsFrom
    by_cases hin : i < n
    · rw [if_pos ⟨hin, h0⟩, if_pos hin, List.length_cons]
      unfold attempts
      cases ha : attempt never dist n i st with
      | none => rfl
      | some st1 =>
        simp only [Option.some_bind]
        exact ih (i + jump n) st1 (by
          have e := Nat.succ_mul fuel (jump n)
          generalize fuel * jump n = m at e ⊢
          generalize (fuel + 1) * jump n = m' at e h
          omega) (attempt_never dist n i st st1 h0 ha)
    · rw [if_neg (by omega), if_neg hin]
      rfl

/-- C19: the starts that `initialPath` attempts when the clock never reaches the limit are
the multiples of `jump n` below `n`, and the body of the loop of line 137 is run once for
each of them.  For `n < 250` there are `n` of them; for `n ≥ 250` there are
`ceil (n / (n / 35))`, which is at least `35` and at most `40`, and exactly `35` when `n`
is a multiple of `35`. -/
theorem attemptedStarts_count (n : Nat) :
    (∀ s, s ∈ attemptedStarts n ↔ s < n ∧ s % jump n = 0) ∧
      (∀ (dist : Matrix) (mem : NNState),
        initialPath never dist n mem =
          attempts never dist n (attemptedStarts n).length 0
            { mem with best := upd mem.best 0 INT_MAX, timed_out := false, checks := 0 }) ∧
      (n < 250 → (attemptedStarts n).length = n) ∧
      (250 ≤ n →
        (attemptedStarts n).length = (n + n / 35 - 1) / (n / 35) ∧
          35 ≤ (attemptedStarts n).length ∧ (attemptedStarts n).length ≤ 40 ∧
          (n % 35 = 0 → (attemptedStarts n).length = 35)) := by
  have hfuel : n ≤ 0 + n * jump n := by
    have := Nat.le_mul_of_pos_right n (jump_pos n)
    omega
  have hlen : (attemptedStarts n).length = (n + jump n - 1) / jump n := by
    unfold attemptedStarts
    rw [startsFrom_length n n 0 hfuel, Nat.sub_zero]
  refine ⟨?_, ?_, ?_, ?_⟩
  · intro s
    unfold attemptedStarts
    rw [startsFrom_mem n n 0 s hfuel (Nat.zero_mod _)]
    constructor
    · rintro ⟨_, h2, h3⟩; exact ⟨h2, h3⟩
    · rintro ⟨h2, h3⟩; exact ⟨Nat.zero_le _, h2, h3⟩
  · intro dist mem
    unfold initialPath attemptedStarts
    exact startsLoop_eq_attempts dist n n 0 _ hfuel rfl
  · intro h
    rw [hlen]
    have hj : jump n = 1 := by unfold jump; rw [if_pos h]
    rw [hj]
    simp
  · intro h
    have hj : jump n = n / 35 := by unfold jump NN_CHECK; rw [if_neg (by omega)]
    rw [hlen, hj]
    have h7 : 7 ≤ n / 35 := by omega
    have hlo : 35 * (n / 35) ≤ n := by omega
    have hhi : n < 35 * (n / 35) + 35 := by omega
    generalize n / 35 = q at h7 hlo hhi ⊢
    refine ⟨rfl, ?_, ?_, ?_⟩
    · rw [Nat.le_div_iff_mul_le (by omega)]
      omega
    · have : (n + q - 1) / q < 41 := by
        rw [Nat.div_lt_iff_lt_mul (by omega)]
        omega
      omega
    · intro hm
      apply Nat.div_eq_of_lt_le <;> omega

/-! ## optimizePath: termination -/

/-- On a symmetric table with entries in `0 .. 2^30 - 1`, a pass that applies a swap takes
the cached length of a tour to a smaller, still non-negative value. -/
theorem pass_decrease (dist : Matrix) (n : Nat) (best : Nat → Int)
    (hsym : SymmetricOn dist n) (hbound : EntriesIn dist n 1073741824)
    (h : IsTour n best ∧ best 0 = tourLength dist n best ∧ best 0 ≤ INT_MAX)
    (himp : (pass dist n best).2 = true) :
    0 ≤ (pass dist n best).1 0 ∧ (pass dist n best).1 0 < best 0 := by
  have hf : (scan dist n best).imp_found = true := by rw [← pass_snd]; exact himp
  obtain ⟨_, hsi, hsij, hsj, _⟩ := ((scan_spec dist n best).1).2.2 hf
  have hn : 1 ≤ n := by omega
  have hnn : ∀ b : Nat → Int, IsTour n b → 0 ≤ tourLength dist n b := by
    intro b hb
    apply tourLength_nonneg dist n b hn
    intro k l h1 h2 h3 h4
    exact (isTour_lift n b (fun x y => 0 ≤ dist x y ∧ dist x y < 1073741824) hb hbound
      k l h1 h2 h3 h4).1
  obtain ⟨g1, g2, _⟩ := pass_cost dist n best hsym hbound h
  have h0 : 0 ≤ best 0 := by rw [h.2.1]; exact hnn best h.1
  refine ⟨by rw [g2]; exact hnn _ g1, ?_⟩
  exact ((pass_cost_le dist n best (by omega) h.2.2).2 himp).2

theorem optimizePath_stop (dist : Matrix) (n fuel t : Nat) (best : Nat → Int)
    (hp : (pass dist n best).2 = false) :
    optimizePath never dist n (fuel + 1) t best = some (passes dist n 0 best, false) := by
  unfold optimizePath
  rw [if_neg (by simp [never]), if_neg (by rw [hp]; simp)]
  have hf : (scan dist n best).imp_found = false := by rw [← pass_snd]; exact hp
  rw [pass_of_not_found dist n best hf]
  rfl

theorem optimizePath_converges (dist : Matrix) (n : Nat)
    (hsym : SymmetricOn dist n) (hbound : EntriesIn dist n 1073741824) :
    ∀ (c fuel t : Nat) (best : Nat → Int),
      IsTour n best ∧ best 0 = tourLength dist n best ∧ best 0 ≤ INT_MAX →
      best 0 ≤ (c : Int) → c + 1 ≤ fuel →
      ∃ k, k ≤ c ∧
        optimizePath never dist n fuel t best = some (passes dist n k best, false) ∧
        (∀ m, m < k → (pass dist n (passes dist n m best)).2 = true) ∧
        (pass dist n (passes dist n k best)).2 = false := by
  intro c
  induction c with
  | zero =>
    intro fuel t best hinv hc hfuel
    cases fuel with
    | zero => omega
    | succ fuel =>
      cases hp : (pass dist n best).2
      · exact ⟨0, le_refl _, optimizePath_stop dist n fuel t best hp, fun m hm => by omega, hp⟩
      · obtain ⟨h1, h2⟩ := pass_decrease dist n best hsym hbound hinv hp
        simp only [Nat.cast_zero] at hc
        omega
  | succ c ih =>
    intro fuel t best hinv hc hfuel
    cases fuel with
    | zero => omega
    | succ fuel =>
      cases hp : (pass dist n best).2
      · exact ⟨0, Nat.zero_le _, optimizePath_stop dist n fuel t best hp,
          fun m hm => by omega, hp⟩
      · obtain ⟨h1, h2⟩ := pass_decrease dist n best hsym hbound hinv hp
        obtain ⟨k, hk, hrun, himp, hlast⟩ := ih fuel (t + 1) (pass dist n best).1
          (pass_cost dist n best hsym hbound hinv)
          (by push_cast at hc ⊢; omega) (by omega)
        refine ⟨k + 1, by omega, ?_, ?_, hlast⟩
        · unfold optimizePath
          rw [if_neg (by simp [never]), if_pos hp]
          exact hrun
        · intro m hm
          cases m with
          | zero => exact hp
          | succ m => exact himp m (by omega)

/-- The function alone, on a table that `processInput` builds from no input: on the
symmetric table `wrapDist` of non-negative entries the tour `0 1 4 2 3` has length `0`,
cached in `best[0]`.  The first pass computes `d[0][2] + d[1][3] = 2^31 + 1`, which a
32-bit `int` holds as `-2^31 + 1`, takes `check = INT_MAX` at the positions `1, 4` for an
improvement and applies a swap. -/
theorem optimizePath_swap_count_wraps :
    SymmetricOn wrapDist 5 ∧ EntriesIn wrapDist 5 2147483648 ∧
      IsTour 5 (arr [0, 0, 1, 4, 2, 3]) ∧
      arr [0, 0, 1, 4, 2, 3] 0 = tourLength wrapDist 5 (arr [0, 0, 1, 4, 2, 3]) ∧
      arr [0, 0, 1, 4, 2, 3] 0 = 0 ∧
      (pass wrapDist 5 (passes wrapDist 5 0 (arr [0, 0, 1, 4, 2, 3]))).2 = true ∧
      (List.range 6).map (passes wrapDist 5 1 (arr [0, 0, 1, 4, 2, 3])) =
        [-2147483647, 0, 2, 4, 1, 3] :=
  ⟨by decide, by decide, by decide, by decide, by decide, by decide, by decide⟩

/-! ## optimizePath: the pair that a pass selects -/

/-- The row `i` of the scan, after `j` has run over the first `len` values from `i + 2`:
either the state is as before the row, or it records the first `j` of the row at which
`check` is largest, and that value exceeds `improve` on entry. -/
theorem scanRow_upto (dist : Matrix) (best : Nat → Int) (i : Nat) (s0 : Scan) (len : Nat) :
    s0.improve ≤ ((List.range' (i + 2) len).foldl (scanStep dist best i) s0).improve ∧
      (∀ j', i + 2 ≤ j' → j' < i + 2 + len →
        check dist best i j' ≤
          ((List.range' (i + 2) len).foldl (scanStep dist best i) s0).improve) ∧
      ((List.range' (i + 2) len).foldl (scanStep dist best i) s0 = s0 ∨
        ∃ j, i + 2 ≤ j ∧ j < i + 2 + len ∧
          (List.range' (i + 2) len).foldl (scanStep dist best i) s0 =
            { improve := check dist best i j, swapi := i + 1, swapj := j + 1,
              imp_found := true } ∧
          s0.improve < check dist best i j ∧
          ∀ j', i + 2 ≤ j' → j' < j → check dist best i j' < check dist best i j) := by
  induction len with
  | zero =>
    refine ⟨le_refl _, ?_, Or.inl rfl⟩
    intro j' h1 h2
    omega
  | succ len ih =>
    rw [List.range'_1_concat, List.foldl_append]
    simp only [List.foldl_cons, List.foldl_nil]
    generalize (List.range' (i + 2) len).foldl (scanStep dist best i) s0 = s at ih ⊢
    obtain ⟨hA, hB, hC⟩ := ih
    unfold scanStep
    by_cases hc : s.improve < check dist best i (i + 2 + len)
    · rw [if_pos hc]
      refine ⟨by simp only; omega, ?_, ?_⟩
      · intro j' h1 h2
        simp only
        by_cases hj : j' = i + 2 + len
        · subst hj; exact le_refl _
        · have := hB j' h1 (by omega)
          omega
      · refine Or.inr ⟨i + 2 + len, by omega, by omega, rfl, by omega, ?_⟩
        intro j' h1 h2
        have := hB j' h1 h2
        omega
    · rw [if_neg hc]
      refine ⟨hA, ?_, ?_⟩
      · intro j' h1 h2
        by_cases hj : j' = i + 2 + len
        · subst hj; omega
        · exact hB j' h1 (by omega)
      · rcases hC with hC | ⟨j, h1, h2, h3⟩
        · exact Or.inl hC
        · exact Or.inr ⟨j, h1, by omega, h3⟩

/-- The scan after the rows `0..m-1`: `improve` bounds `check` at every pair of these rows,
and when `imp_found` is set the recorded pair is the first one, in the order of the scan,
at which `check` is largest. -/
theorem scan_upto (dist : Matrix) (n : Nat) (best : Nat → Int) (m : Nat) :
    (∀ i' j', i' < m → i' + 2 ≤ j' → j' + 1 < n →
        check dist best i' j' ≤
          ((List.range m).foldl (fun s i => scanRow dist n best i s)
            { improve := 0, swapi := 0, swapj := 0, imp_found := false }).improve) ∧
      (((List.range m).foldl (fun s i => scanRow dist n best i s)
          { improve := 0, swapi := 0, swapj := 0, imp_found := false }).imp_found = true →
        ∃ a b, a < m ∧ a + 2 ≤ b ∧ b + 1 < n ∧
          (List.range m).foldl (fun s i => scanRow dist n best i s)
              { improve := 0, swapi := 0, swapj := 0, imp_found := false } =
            { improve := check dist best a b, swapi := a + 1, swapj := b + 1,
              imp_found := true } ∧
          ∀ i' j', i' + 2 ≤ j' → j' + 1 < n → (i' < a ∨ (i' = a ∧ j' < b)) →
            check dist best i' j' < check dist best a b) := by
  induction m with
  | zero =>
    refine ⟨?_, ?_⟩
    · intro i' j' h
      omega
    · intro h
      simp at h
  | succ m ih =>
    rw [List.range_succ, List.foldl_append]
    simp only [List.foldl_cons, List.foldl_nil]
    generalize (List.range m).foldl (fun s i => scanRow dist n best i s)
      { improve := 0, swapi := 0, swapj := 0, imp_found := false } = s at ih ⊢
    obtain ⟨hM, hF⟩ := ih
    unfold scanRow
    obtain ⟨rA, rB, rC⟩ := scanRow_upto dist best m s (n - 1 - (m + 2))
    refine ⟨?_, ?_⟩
    · intro i' j' h1 h2 h3
      by_cases hi : i' = m
      · subst hi
        exact rB j' h2 (by omega)
      · exact le_trans (hM i' j' (by omega) h2 h3) rA
    · intro hfound
      rcases rC with rC | ⟨j, h1, h2, h3, h4, h5⟩
      · rw [rC] at hfound ⊢
        obtain ⟨a, b, ha, hab, hb, heq, hfirst⟩ := hF hfound
        exact ⟨a, b, by omega, hab, hb, heq, hfirst⟩
      · refine ⟨m, j, by omega, h1, by omega, h3, ?_⟩
        intro i' j' g1 g2 g3
        rcases g3 with g3 | ⟨g3, g4⟩
        · have := hM i' j' g3 g1 g2
          omega
        · subst g3
          exact h5 j' g1 g4

/-- The pair that the scan of a pass records is the first pair of the scan at which
`check` is largest. -/
theorem scan_first (dist : Matrix) (n : Nat) (best : Nat → Int)
    (hf : (scan dist n best).imp_found = true) :
    ∃ a b, a + 2 ≤ b ∧ b + 1 < n ∧ (scan dist n best).swapi = a + 1 ∧
      (scan dist n best).swapj = b + 1 ∧ (scan dist n best).improve = check dist best a b ∧
      (∀ i' j', i' + 2 ≤ j' → j' + 1 < n → check dist best i' j' ≤ check dist best a b) ∧
      ∀ i' j', i' + 2 ≤ j' → j' + 1 < n → (i' < a ∨ (i' = a ∧ j' < b)) →
        check dist best i' j' < check dist best a b := by
  have hmax := (scan_spec dist n best).2
  unfold scan at hf hmax ⊢
  obtain ⟨a, b, _, hab, hb, heq, hfirst⟩ := (scan_upto dist n best (n - 2)).2 hf
  rw [heq] at hmax ⊢
  exact ⟨a, b, hab, hb, rfl, rfl, rfl, hmax, hfirst⟩

/-- The function alone, on a table that `processInput` builds from no input: on the table
`wrapDist` and the tour `0 1 2 3 4` of length `5` the pass reverses the positions `2..3`,
the pair `(1, 3)`, whose gain `d[0][1] + d[2][3] - d[0][2] - d[1][3]` is `-2147483649` in
unbounded integers: the sum `d[0][2] + d[1][3]` wraps, so `check` is `INT_MAX` there. -/
theorem pass_selects_wrapped_check :
    EntriesIn wrapDist 5 2147483648 ∧ IsTour 5 (arr [5, 0, 1, 2, 3, 4]) ∧
      (pass wrapDist 5 (arr [5, 0, 1, 2, 3, 4])).2 = true ∧
      (scan wrapDist 5 (arr [5, 0, 1, 2, 3, 4])).swapi = 1 ∧
      (scan wrapDist 5 (arr [5, 0, 1, 2, 3, 4])).swapj = 3 ∧
      (List.range 6).map (pass wrapDist 5 (arr [5, 0, 1, 2, 3, 4])).1 =
        [-2147483642, 0, 2, 1, 3, 4] ∧
      gain wrapDist (arr [5, 0, 1, 2, 3, 4]) 1 3 = -2147483649 ∧
      gain wrapDist (arr [5, 0, 1, 2, 3, 4]) 1 4 = 5 ∧
      gain wrapDist (arr [5, 0, 1, 2, 3, 4]) 1 3 < gain wrapDist (arr [5, 0, 1, 2, 3, 4]) 1 4 :=
  ⟨by decide, by decide, by decide, by decide, by decide, by decide, by decide, by decide,
    by decide⟩

theorem pass_swap_spec (dist : Matrix) (n : Nat) (best : Nat → Int)
    (hbound : EntriesIn dist n 1073741824) (htour : IsTour n best)
    (hlo : -1 ≤ best 0) (hhi : best 0 ≤ INT_MAX) (himp : (pass dist n best).2 = true) :
    ∃ p q, 1 ≤ p ∧ p + 2 ≤ q ∧ q + 1 ≤ n ∧
      (scan dist n best).swapi = p ∧ (scan dist n best).swapj = q ∧
      0 < gain dist best p q ∧
      (∀ p' q', 1 ≤ p' → p' + 2 ≤ q' → q' + 1 ≤ n →
        gain dist best p' q' ≤ gain dist best p q) ∧
      (∀ p' q', 1 ≤ p' → p' + 2 ≤ q' → q' + 1 ≤ n → (p' < p ∨ (p' = p ∧ q' < q)) →
        gain dist best p' q' < gain dist best p q) ∧
      (∀ k, 1 ≤ k → (pass dist n best).1 k = twoOpt best p q k) ∧
      (pass dist n best).1 0 = best 0 - gain dist best p q := by
  have hf : (scan dist n best).imp_found = true := by rw [← pass_snd]; exact himp
  have hb := fun k l h1 h2 h3 h4 => isTour_lift n best
    (fun x y => 0 ≤ dist x y ∧ dist x y < 1073741824) htour hbound k l h1 h2 h3 h4
  have hcg : ∀ p' q', 1 ≤ p' → p' + 2 ≤ q' → q' + 1 ≤ n →
      check dist best (p' - 1) (q' - 1) = gain dist best p' q' := by
    intro p' q' h1 h2 h3
    exact check_eq_gain dist best p' q' h1 (by omega)
      (hb _ _ (by omega) (by omega) (by omega) (by omega))
      (hb _ _ (by omega) (by omega) (by omega) (by omega))
      (hb _ _ (by omega) (by omega) (by omega) (by omega))
      (hb _ _ (by omega) (by omega) (by omega) (by omega))
  obtain ⟨a, b, hab, hbn, hsi, hsj, himpv, hmax, hfirst⟩ := scan_first dist n best hf
  obtain ⟨hpos, _⟩ := ((scan_spec dist n best).1).2.2 hf
  have hg : check dist best a b = gain dist best (a + 1) (b + 1) := by
    have := hcg (a + 1) (b + 1) (by omega) (by omega) (by omega)
    simpa using this
  obtain ⟨hc1, hc2⟩ := (pass_cost_le dist n best hlo hhi).2 himp
  refine ⟨a + 1, b + 1, by omega, by omega, by omega, hsi, hsj, ?_, ?_, ?_, ?_, ?_⟩
  · rw [← hg, ← himpv]
    exact hpos
  · intro p' q' h1 h2 h3
    rw [← hg, ← hcg p' q' h1 h2 h3]
    exact hmax (p' - 1) (q' - 1) (by omega) (by omega)
  · intro p' q' h1 h2 h3 h4
    rw [← hg, ← hcg p' q' h1 h2 h3]
    exact hfirst (p' - 1) (q' - 1) (by omega) (by omega) (by omega)
  · intro k hk
    rw [pass_of_found dist n best hf]
    show upd _ 0 _ k = _
    rw [upd_apply, if_neg (by omega), hsi, hsj]
  · rw [hc1, himpv, hg]

/-- C15: on a table with entries in `0 .. 2^30 - 1` (as they are in every table of
non-negative entries that `processInput` builds, see `processInput_distances`), for an
array whose positions `1..n` hold a permutation and whose `int` `best[0]` is not below
`-1`, a pass that finds an improvement applies exactly one swap, at the pair
`(swapi, swapj)` of the scan: this pair attains the maximum of `gain` over all scanned
pairs and is the first to do so in the order of the scan, the maximum is positive, the
positions `swapi+1..swapj` are reversed and every other position is unchanged, and
`best[0]` decreases by exactly that maximum. -/
theorem pass_best_swap (dist : Matrix) (n : Nat) (best : Nat → Int)
    (hbound : EntriesIn dist n 1073741824) (htour : IsTour n best)
    (hlo : -1 ≤ best 0) (hhi : best 0 ≤ INT_MAX) (himp : (pass dist n best).2 = true) :
    ∃ p q, 1 ≤ p ∧ p + 2 ≤ q ∧ q + 1 ≤ n ∧
      (scan dist n best).swapi = p ∧ (scan dist n best).swapj = q ∧
      0 < gain dist best p q ∧
      (∀ p' q', 1 ≤ p' → p' + 2 ≤ q' → q' + 1 ≤ n →
        gain dist best p' q' ≤ gain dist best p q) ∧
      (∀ p' q', 1 ≤ p' → p' + 2 ≤ q' → q' + 1 ≤ n → (p' < p ∨ (p' = p ∧ q' < q)) →
        gain dist best p' q' < gain dist best p q) ∧
      (∀ k, 1 ≤ k → (pass dist n best).1 k = twoOpt best p q k) ∧
      (pass dist n best).1 0 = best 0 - gain dist best p q :=
  pass_swap_spec dist n best hbound htour hlo hhi himp

/-! ## The functions read the table at the cities only -/

theorem processInput_square (mem : Matrix) :
    AgreeOn (processInput squareCities mem).1 squareDist 4 := by
  intro a ha b hb
  rw [processInput_entry squareCities mem a b ha hb]
  interval_cases a <;> interval_cases b <;> decide!

theorem check_congr (dist dist2 : Matrix) (n : Nat) (best best2 : Nat → Int)
    (h : ∀ p q, 1 ≤ p → p ≤ n → 1 ≤ q → q ≤ n →
      dist (best p) (best q) = dist2 (best2 p) (best2 q))
    (i j : Nat) (hj : j + 1 < n) (hij : i + 2 ≤ j) :
    check dist best i j = check dist2 best2 i j := by
  unfold check
  rw [h (i + 1) (i + 2) (by omega) (by omega) (by omega) (by omega),
    h (j + 1) (j + 2) (by omega) (by omega) (by omega) (by omega),
    h (i + 1) (j + 1) (by omega) (by omega) (by omega) (by omega),
    h (i + 2) (j + 2) (by omega) (by omega) (by omega) (by omega)]

/-- The scan reads the table only at pairs of cities found at the positions `1..n`. -/
theorem scan_congr (dist dist2 : Matrix) (n : Nat) (best best2 : Nat → Int)
    (h : ∀ p q, 1 ≤ p → p ≤ n → 1 ≤ q → q ≤ n →
      dist (best p) (best q) = dist2 (best2 p) (best2 q)) :
    scan dist n best = scan dist2 n best2 := by
  unfold scan
  apply foldl_congr_mem
  intro s i _
  unfold scanRow
  apply foldl_congr_mem
  intro s' j hj
  rw [List.mem_range'_1] at hj
  unfold scanStep
  rw [check_congr dist dist2 n best best2 h i j (by omega) hj.1]

theorem agreeOn_tour (dist dist2 : Matrix) (n : Nat) (best : Nat → Int)
    (hag : AgreeOn dist dist2 n) (htour : IsTour n best) :
    ∀ p q, 1 ≤ p → p ≤ n → 1 ≤ q → q ≤ n →
      dist (best p) (best q) = dist2 (best p) (best q) :=
  fun p q h1 h2 h3 h4 =>
    isTour_lift n best (fun x y => dist x y = dist2 x y) htour hag p q h1 h2 h3 h4

theorem pass_congr (dist dist2 : Matrix) (n : Nat) (best : Nat → Int)
    (hag : AgreeOn dist dist2 n) (htour : IsTour n best) :
    pass dist n best = pass dist2 n best := by
  unfold pass
  rw [scan_congr dist dist2 n best best (agreeOn_tour dist dist2 n best hag htour)]

theorem tourLength_agree (dist dist2 : Matrix) (n : Nat) (best : Nat → Int) (hn : 1 ≤ n)
    (hag : AgreeOn dist dist2 n) (htour : IsTour n best) :
    tourLength dist n best = tourLength dist2 n best := by
  have h := agreeOn_tour dist dist2 n best hag htour
  unfold tourLength
  rw [h n 1 hn (le_refl _) (le_refl _) hn]
  congr 1
  apply Finset.sum_congr rfl
  intro k hk
  rw [Finset.mem_Ico] at hk
  exact h k (k + 1) (by omega) (by omega) (by omega) (by omega)

theorem nearest_agree (dist dist2 : Matrix) (n : Nat) (visited : Nat → Bool) (c : Nat)
    (hc : c < n) (hag : AgreeOn dist dist2 n) :
    nearest dist n visited (c : Int) = nearest dist2 n visited (c : Int) := by
  unfold nearest
  apply foldl_congr_mem
  intro acc k hk
  unfold nearestStep
  rw [hag c hc k (List.mem_range.1 hk)]

theorem addCity_agree_dist (clock : Nat → Bool) (dist dist2 : Matrix) (n s m : Nat)
    (st : NNState) (hm : 1 ≤ m) (hag : AgreeOn dist dist2 n) (hinv : PathInv dist n s m st) :
    addCity clock dist n (m + 1) st = addCity clock dist2 n (m + 1) st := by
  obtain ⟨c, hc, h0, _⟩ := hinv.2.1 m hm (le_refl _)
  unfold addCity
  have e : m + 1 - 1 = m := by omega
  rw [e, h0, nearest_agree dist dist2 n st.visited c hc hag]

theorem growPath_agree_dist (clock : Nat → Bool) (dist dist2 : Matrix) (n s : Nat)
    (hag : AgreeOn dist dist2 n) :
    ∀ (len m : Nat) (st : NNState), 1 ≤ m → PathInv dist n s m st →
      growPath clock dist n (List.range' (m + 1) len) st =
        growPath clock dist2 n (List.range' (m + 1) len) st := by
  intro len
  induction len with
  | zero =>
    intro m st _ _
    simp [growPath]
  | succ len ih =>
    intro m st hm hinv
    rw [List.range'_succ]
    unfold growPath
    rw [← addCity_agree_dist clock dist dist2 n s m st hm hag hinv]
    by_cases ht : st.timed_out = true
    · rw [if_pos ht, if_pos ht]
    · rw [if_neg ht, if_neg ht]
      cases h1 : addCity clock dist n (m + 1) st with
      | none => rfl
      | some st1 =>
        simp only [Option.some_bind]
        exact ih (m + 1) st1 (by omega) (pathInv_step clock dist n s m st st1 hm hinv h1)

/-- The body of the loop of line 137 reads the table only between the cities `0..n-1`. -/
theorem attempt_agree_dist (clock : Nat → Bool) (dist dist2 : Matrix) (n s : Nat)
    (st : NNState) (hn : 2 ≤ n) (hs : s < n) (h0 : st.timed_out = false)
    (hag : AgreeOn dist dist2 n) :
    attempt clock dist n s st = attempt clock dist2 n s st := by
  unfold attempt
  rw [← growPath_agree_dist clock dist dist2 n s hag (n - 1) 1 _ (le_refl _)
    (pathInv_init dist n s st hs)]
  cases hg : growPath clock dist n (List.range' (1 + 1) (n - 1))
      { st with
        visited := upd (resetVisited n st.visited) s true
        temp := upd (upd st.temp 0 0) 1 (s : Int) } with
  | none => rfl
  | some stg =>
    simp only [Option.some_bind]
    by_cases ht : stg.timed_out = true
    · rw [if_pos ht, if_pos ht]
    · rw [if_neg ht, if_neg ht]
      have hres := growPath_inv clock dist n s (n - 1) 1 _ stg (le_refl _)
        (pathInv_init dist n s st hs) h0 hg (by simpa using ht)
      have e : 1 + (n - 1) = n := by omega
      rw [e] at hres
      obtain ⟨⟨_, i2, _, _, _, i6⟩, _⟩ := hres
      obtain ⟨c, hc, hcn, _⟩ := i2 n (by omega) (le_refl _)
      rw [i6 hn, hcn, hag c hc s hs]

theorem nnAttempt_agree_dist (dist dist2 : Matrix) (n s : Nat) (hn : 2 ≤ n) (hs : s < n)
    (hag : AgreeOn dist dist2 n) : nnAttempt dist n s = nnAttempt dist2 n s := by
  unfold nnAttempt
  rw [attempt_agree_dist never dist dist2 n s zeroState hn hs rfl hag]

/-! ## The square of side 10 -/

theorem isTour_distinct (n : Nat) (best : Nat → Int) (h : IsTour n best) (p q : Nat)
    (hp : 1 ≤ p) (hpq : p < q) (hq : q ≤ n) : best p ≠ best q := by
  have hnd : (tourCities n best).Nodup :=
    (List.Perm.nodup_iff h).2 ((List.nodup_range n).map (fun a b h => by exact_mod_cast h))
  unfold tourCities at hnd
  intro e
  have e2 : best (p - 1 + 1) = best (q - 1 + 1) := by
    rw [Nat.sub_add_cancel hp, Nat.sub_add_cancel (by omega : 1 ≤ q)]
    exact e
  have := List.inj_on_of_nodup_map hnd (List.mem_range.2 (by omega : p - 1 < n))
    (List.mem_range.2 (by omega : q - 1 < n)) e2
  omega

theorem tourLength_four (dist : Matrix) (r : Nat → Int) :
    tourLength dist 4 r =
      dist (r 1) (r 2) + dist (r 2) (r 3) + dist (r 3) (r 4) + dist (r 4) (r 1) := by
  unfold tourLength
  simp [Finset.sum_Ico_eq_sum_range, Finset.sum_range_succ]

theorem squareDist_attempts (s : Nat) (hs : s < 4) :
    ∃ t, nnAttempt squareDist 4 s = some t ∧ t 0 = 40 ∧ IsTour 4 t ∧ t 1 = (s : Int) ∧
      (∀ p, p < 4 → 1 ≤ p → squareDist (t p) (t (p + 1)) = 10) ∧
      squareDist (t 4) (t 1) = 10 ∧
      (s = 0 → ∀ p, p < 5 → t p = arr [40, 0, 1, 2, 3] p) := by
  interval_cases s
  · exact ⟨_, rfl, by decide!, by decide!, by decide!, by decide!, by decide!, by decide!⟩
  · exact ⟨_, rfl, by decide!, by decide!, by decide!, by decide!, by decide!, by decide!⟩
  · exact ⟨_, rfl, by decide!, by decide!, by decide!, by decide!, by decide!, by decide!⟩
  · exact ⟨_, rfl, by decide!, by decide!, by decide!, by decide!, by decide!, by decide!⟩

/-- On a table that holds the distances of the square, the attempt from each of the four
starts is a tour of cost 40 whose edges, the closing edge included, have length 10. -/
theorem square_attempts (dist : Matrix) (hag : AgreeOn dist squareDist 4) (s : Nat)
    (hs : s < 4) :
    ∃ t, nnAttempt dist 4 s = some t ∧ t 0 = 40 ∧ IsTour 4 t ∧ t 1 = (s : Int) ∧
      (∀ p, 1 ≤ p → p < 4 → dist (t p) (t (p + 1)) = 10) ∧ dist (t 4) (t 1) = 10 ∧
      tourLength dist 4 t = 40 ∧ (s = 0 → ∀ p, p ≤ 4 → t p = arr [40, 0, 1, 2, 3] p) := by
  rw [nnAttempt_agree_dist dist squareDist 4 s (by decide) hs hag]
  obtain ⟨t, h1, h2, htour, h4, h5, h6, h7⟩ := squareDist_attempts s hs
  have hc := agreeOn_tour dist squareDist 4 t hag htour
  have e1 : ∀ p, 1 ≤ p → p < 4 → dist (t p) (t (p + 1)) = 10 := by
    intro p hp1 hp2
    rw [hc p (p + 1) hp1 (by omega) (by omega) (by omega)]
    exact h5 p hp2 hp1
  have e2 : dist (t 4) (t 1) = 10 := by
    rw [hc 4 1 (by omega) (by omega) (by omega) (by omega)]
    exact h6
  refine ⟨t, h1, h2, htour, h4, e1, e2, ?_, fun h p hp => h7 h p (by omega)⟩
  rw [tourLength_four, e1 1 (by omega) (by omega), e1 2 (by omega) (by omega),
    e1 3 (by omega) (by omega), e2]
  rfl

theorem square_entries (dist : Matrix) (hag : AgreeOn dist squareDist 4) :
    EntriesIn dist 4 2147483648 := by
  intro a ha b hb
  rw [hag a ha b hb]
  have h : EntriesIn squareDist 4 2147483648 := by decide
  exact h a ha b hb

theorem square_costs (dist : Matrix) (hag : AgreeOn dist squareDist 4) :
    NNCostsBelowIntMax dist 4 := by
  intro s hs _
  obtain ⟨t, h1, _, _, _, _, _, h7, _⟩ := square_attempts dist hag s hs
  exact ⟨t, h1, by rw [h7]; decide⟩

/-- On a table that holds the distances of the square, a completed `initialPath` returns the
attempt of the start `0`, and the scan of that array finds no improvement. -/
theorem square_initialPath (dist : Matrix) (hag : AgreeOn dist squareDist 4)
    (clock : Nat → Bool) (mem r : NNState) (hrun : initialPath clock dist 4 mem = some r)
    (hdone : r.timed_out = false) :
    (∀ p, p ≤ 4 → r.best p = arr [40, 0, 1, 2, 3] p) ∧
      (scan dist 4 r.best).imp_found = false := by
  obtain ⟨s, t, _, hs, _, hnn, hb, hmin⟩ :=
    initialPath_bestOf clock dist 4 mem r (by decide) (square_entries dist hag)
      (square_costs dist hag) hrun hdone
  obtain ⟨t0, hnn0, h00, _, _, _, _, _, hexp⟩ := square_attempts dist hag 0 (by decide)
  obtain ⟨t1, hnn1, h10, _⟩ := square_attempts dist hag s hs
  rw [hnn] at hnn1
  simp only [Option.some.injEq] at hnn1
  subst hnn1
  have hs0 : s = 0 := by
    have := (hmin 0 t0 (by omega) (by omega) (Nat.zero_mod _) hnn0).2 (by rw [h00, h10])
    omega
  subst hs0
  rw [hnn] at hnn0
  simp only [Option.some.injEq] at hnn0
  subst hnn0
  have hbest : ∀ p, p ≤ 4 → r.best p = arr [40, 0, 1, 2, 3] p := fun p hp =>
    (hb p hp).trans (hexp rfl p hp)
  refine ⟨hbest, ?_⟩
  have hcong : ∀ p q, 1 ≤ p → p ≤ 4 → 1 ≤ q → q ≤ 4 →
      dist (r.best p) (r.best q) =
        squareDist (arr [40, 0, 1, 2, 3] p) (arr [40, 0, 1, 2, 3] q) := by
    intro p q hp1 hp2 hq1 hq2
    rw [hbest p hp2, hbest q hq2]
    exact agreeOn_tour dist squareDist 4 (arr [40, 0, 1, 2, 3]) hag (by decide) p q hp1 hp2
      hq1 hq2
  rw [scan_congr dist squareDist 4 r.best (arr [40, 0, 1, 2, 3]) hcong]
  decide

theorem square_run (dist : Matrix) (hag : AgreeOn dist squareDist 4) (mem : NNState) :
    (∀ s, s < 4 → ∃ t, nnAttempt dist 4 s = some t ∧ t 0 = 40 ∧ IsTour 4 t ∧
        t 1 = (s : Int) ∧ (∀ p, 1 ≤ p → p < 4 → dist (t p) (t (p + 1)) = 10) ∧
        dist (t 4) (t 1) = 10 ∧ tourLength dist 4 t = 40) ∧
      (∃ r, initialPath never dist 4 mem = some r ∧ r.timed_out = false) ∧
      ∀ (clock : Nat → Bool) (r : NNState),
        initialPath clock dist 4 mem = some r → r.timed_out = false →
          r.best 0 = 40 ∧ tourCities 4 r.best = [0, 1, 2, 3] ∧
            ∀ (clock2 : Nat → Bool) (fuel t2 : Nat),
              optimizePath clock2 dist 4 (fuel + 1) t2 r.best = some (r.best, clock2 t2) := by
  refine ⟨?_, initialPath_completes dist 4 mem (by decide) (square_costs dist hag), ?_⟩
  · intro s hs
    obtain ⟨t, h1, h2, h3, h4, h5, h6, h7, _⟩ := square_attempts dist hag s hs
    exact ⟨t, h1, h2, h3, h4, h5, h6, h7⟩
  · intro clock r hrun hdone
    obtain ⟨hbest, hf⟩ := square_initialPath dist hag clock mem r hrun hdone
    refine ⟨(hbest 0 (by omega)).trans (by decide), ?_, ?_⟩
    · show [r.best 1, r.best 2, r.best 3, r.best 4] = _
      rw [hbest 1 (by omega), hbest 2 (by omega), hbest 3 (by omega), hbest 4 (by omega)]
      rfl
    · intro clock2 fuel t2
      unfold optimizePath
      rw [pass_of_not_found dist 4 r.best hf]
      cases hc : clock2 t2 <;> simp

/-- C11: `processInput` on the four cities `(0,0)`, `(0,10)`, `(10,10)`, `(10,0)` builds the
table with `10` between adjacent corners and `14` between opposite ones.  On that table the
nearest-neighbour attempt from each of the four starts yields a tour of cost 40 all of whose
edges, the closing edge included, have length 10, so none is a diagonal; `initialPath`
completes under a clock that never reaches the limit, and whenever it completes it returns
the cost 40 with the sequence `0 1 2 3`; `optimizePath` applied to that result returns the
same array, sequence and cost. -/
theorem square_perimeter_tour (table : Matrix) (mem : NNState) :
    (processInput squareCities table).2 = 4 ∧
      AgreeOn (processInput squareCities table).1 squareDist 4 ∧
      (∀ s, s < 4 → ∃ t, nnAttempt (processInput squareCities table).1 4 s = some t ∧
        t 0 = 40 ∧ IsTour 4 t ∧ t 1 = (s : Int) ∧
        (∀ p, 1 ≤ p → p < 4 →
          (processInput squareCities table).1 (t p) (t (p + 1)) = 10) ∧
        (processInput squareCities table).1 (t 4) (t 1) = 10 ∧
        tourLength (processInput squareCities table).1 4 t = 40) ∧
      (∃ r, initialPath never (processInput squareCities table).1 4 mem = some r ∧
        r.timed_out = false) ∧
      ∀ (clock : Nat → Bool) (r : NNState),
        initialPath clock (processInput squareCities table).1 4 mem = some r →
          r.timed_out = false →
            r.best 0 = 40 ∧ tourCities 4 r.best = [0, 1, 2, 3] ∧
              ∀ (clock2 : Nat → Bool) (fuel t2 : Nat),
                optimizePath clock2 (processInput squareCities table).1 4 (fuel + 1) t2
                  r.best = some (r.best, clock2 t2) :=
  ⟨rfl, processInput_square table,
    square_run _ (processInput_square table) mem⟩

/-! ## The square: crossed orders -/

set_option maxRecDepth 100000 in
theorem squareDist_cross : ∀ a : Nat, a < 4 → ∀ b : Nat, b < 4 → ∀ c : Nat, c < 4 →
    ∀ d : Nat, d < 4 → a ≠ c → a ≠ d → b ≠ c → b ≠ d →
      squareDist (a : Int) (b : Int) = 14 → squareDist (c : Int) (d : Int) = 14 →
        squareDist (a : Int) (c : Int) = 10 ∧ squareDist (c : Int) (b : Int) = 10 ∧
          squareDist (b : Int) (d : Int) = 10 ∧ squareDist (d : Int) (a : Int) = 10 := by
  intro a ha b hb c hc d hd
  interval_cases a <;> interval_cases b <;> interval_cases c <;> interval_cases d <;> decide

theorem scan_four (dist : Matrix) (best : Nat → Int) :
    scan dist 4 best =
      scanStep dist best 0 { improve := 0, swapi := 0, swapj := 0, imp_found := false } 2 :=
  rfl

/-- On a table that holds the distances of the square, in an order whose diagonals are the
edges leaving the positions 1 and 3, the four other pairs of positions are sides, and the
scan records the pair of positions `(1, 3)` with the improvement `8`. -/
theorem square_scan_crossed (dist : Matrix) (hag : AgreeOn dist squareDist 4)
    (best : Nat → Int) (htour : IsTour 4 best) (hd1 : dist (best 1) (best 2) = 14)
    (hd2 : dist (best 3) (best 4) = 14) :
    (dist (best 1) (best 3) = 10 ∧ dist (best 3) (best 2) = 10 ∧
        dist (best 2) (best 4) = 10 ∧ dist (best 4) (best 1) = 10) ∧
      scan dist 4 best = { improve := 8, swapi := 1, swapj := 3, imp_found := true } := by
  have hc := agreeOn_tour dist squareDist 4 best hag htour
  obtain ⟨a, ha, h1⟩ := isTour_range 4 best htour 1 (by omega) (by omega)
  obtain ⟨b, hb, h2⟩ := isTour_range 4 best htour 2 (by omega) (by omega)
  obtain ⟨c, hc3, h3⟩ := isTour_range 4 best htour 3 (by omega) (by omega)
  obtain ⟨d, hd, h4⟩ := isTour_range 4 best htour 4 (by omega) (by omega)
  have n13 := isTour_distinct 4 best htour 1 3 (by omega) (by omega) (by omega)
  have n14 := isTour_distinct 4 best htour 1 4 (by omega) (by omega) (by omega)
  have n23 := isTour_distinct 4 best htour 2 3 (by omega) (by omega) (by omega)
  have n24 := isTour_distinct 4 best htour 2 4 (by omega) (by omega) (by omega)
  rw [hc 1 2 (by omega) (by omega) (by omega) (by omega)] at hd1
  rw [hc 3 4 (by omega) (by omega) (by omega) (by omega)] at hd2
  rw [h1, h2] at hd1
  rw [h3, h4] at hd2
  rw [h1, h3] at n13
  rw [h1, h4] at n14
  rw [h2, h3] at n23
  rw [h2, h4] at n24
  obtain ⟨s1, s2, s3, s4⟩ := squareDist_cross a ha b hb c hc3 d hd
    (fun e => n13 (by rw [e])) (fun e => n14 (by rw [e])) (fun e => n23 (by rw [e]))
    (fun e => n24 (by rw [e])) hd1 hd2
  have e13 : dist (best 1) (best 3) = 10 := by
    rw [hc 1 3 (by omega) (by omega) (by omega) (by omega), h1, h3]
    exact s1
  have e32 : dist (best 3) (best 2) = 10 := by
    rw [hc 3 2 (by omega) (by omega) (by omega) (by omega), h3, h2]
    exact s2
  have e24 : dist (best 2) (best 4) = 10 := by
    rw [hc 2 4 (by omega) (by omega) (by omega) (by omega), h2, h4]
    exact s3
  have e41 : dist (best 4) (best 1) = 10 := by
    rw [hc 4 1 (by omega) (by omega) (by omega) (by omega), h4, h1]
    exact s4
  have e12 : dist (best 1) (best 2) = 14 := by
    rw [hc 1 2 (by omega) (by omega) (by omega) (by omega), h1, h2]
    exact hd1
  have e34 : dist (best 3) (best 4) = 14 := by
    rw [hc 3 4 (by omega) (by omega) (by omega) (by omega), h3, h4]
    exact hd2
  refine ⟨⟨e13, e32, e24, e41⟩, ?_⟩
  have hck : check dist best 0 2 = 8 := by
    show wrap (wrap (dist (best 1) (best 2) + dist (best 3) (best 4)) -
      wrap (dist (best 1) (best 3) + dist (best 2) (best 4))) = 8
    rw [e12, e34, e13, e24]
    decide
  rw [scan_four]
  unfold scanStep
  rw [hck]
  rfl

theorem square_pass_crossed (dist : Matrix) (hag : AgreeOn dist squareDist 4)
    (best : Nat → Int) (htour : IsTour 4 best) (hcost : best 0 = 48)
    (hd1 : dist (best 1) (best 2) = 14) (hd2 : dist (best 3) (best 4) = 14) :
    (pass dist 4 best).2 = true ∧ (pass dist 4 best).1 0 = 40 ∧
      tourCities 4 (pass dist 4 best).1 = [best 1, best 3, best 2, best 4] ∧
      IsTour 4 (pass dist 4 best).1 ∧
      (∀ p, 1 ≤ p → p < 4 →
        dist ((pass dist 4 best).1 p) ((pass dist 4 best).1 (p + 1)) = 10) ∧
      dist ((pass dist 4 best).1 4) ((pass dist 4 best).1 1) = 10 ∧
      tourLength dist 4 (pass dist 4 best).1 = 40 := by
  obtain ⟨⟨e13, e32, e24, e41⟩, hscan⟩ := square_scan_crossed dist hag best htour hd1 hd2
  have hf : (scan dist 4 best).imp_found = true := by rw [hscan]
  have htour2 := pass_isTour dist 4 best htour
  have hp : pass dist 4 best = (upd (twoOpt best 1 3) 0 (wrap (best 0 - 8)), true) := by
    rw [pass_of_found dist 4 best hf, hscan]
  rw [hp] at htour2 ⊢
  have r0 : upd (twoOpt best 1 3) 0 (wrap (best 0 - 8)) 0 = 40 := by
    rw [upd_apply, if_pos rfl, hcost]
    decide
  have r1 : upd (twoOpt best 1 3) 0 (wrap (best 0 - 8)) 1 = best 1 := rfl
  have r2 : upd (twoOpt best 1 3) 0 (wrap (best 0 - 8)) 2 = best 3 := rfl
  have r3 : upd (twoOpt best 1 3) 0 (wrap (best 0 - 8)) 3 = best 2 := rfl
  have r4 : upd (twoOpt best 1 3) 0 (wrap (best 0 - 8)) 4 = best 4 := rfl
  have hedges : ∀ p, 1 ≤ p → p < 4 →
      dist (upd (twoOpt best 1 3) 0 (wrap (best 0 - 8)) p)
        (upd (twoOpt best 1 3) 0 (wrap (best 0 - 8)) (p + 1)) = 10 := by
    intro p hp1 hp4
    interval_cases p
    · rw [r1, r2]; exact e13
    · rw [r2, r3]; exact e32
    · rw [r3, r4]; exact e24
  have hclose : dist (upd (twoOpt best 1 3) 0 (wrap (best 0 - 8)) 4)
      (upd (twoOpt best 1 3) 0 (wrap (best 0 - 8)) 1) = 10 := by
    rw [r4, r1]; exact e41
  refine ⟨rfl, r0, rfl, htour2, hedges, hclose, ?_⟩
  rw [tourLength_four, hedges 1 (by omega) (by omega), hedges 2 (by omega) (by omega),
    hedges 3 (by omega) (by omega), hclose]
  rfl

/-- C12, as stated, fails: in the order `0 1 3 2` of the four cities of the square the two
diagonals are the edge from `best[2]` to `best[3]` and the closing edge, the closed tour
costs 48, and one pass of `optimizePath` finds no improvement: the array, with its cached
cost 48, is returned as it is. -/
theorem pass_keeps_crossed_order :
    IsTour 4 (arr [48, 0, 1, 3, 2]) ∧
      (processInput squareCities (fun _ _ => 0)).1 (arr [48, 0, 1, 3, 2] 2)
        (arr [48, 0, 1, 3, 2] 3) = 14 ∧
      (processInput squareCities (fun _ _ => 0)).1 (arr [48, 0, 1, 3, 2] 4)
        (arr [48, 0, 1, 3, 2] 1) = 14 ∧
      tourLength (processInput squareCities (fun _ _ => 0)).1 4 (arr [48, 0, 1, 3, 2]) = 48 ∧
      pass (processInput squareCities (fun _ _ => 0)).1 4 (arr [48, 0, 1, 3, 2]) =
        (arr [48, 0, 1, 3, 2], false) ∧
      optimizePath never (processInput squareCities (fun _ _ => 0)).1 4 1 0
        (arr [48, 0, 1, 3, 2]) = some (arr [48, 0, 1, 3, 2], false) := by
  have hag := processInput_square (fun _ _ => 0)
  have htour : IsTour 4 (arr [48, 0, 1, 3, 2]) := by decide
  have hp : pass (processInput squareCities (fun _ _ => 0)).1 4 (arr [48, 0, 1, 3, 2]) =
      (arr [48, 0, 1, 3, 2], false) := by
    rw [pass_congr _ squareDist 4 _ hag htour]
    exact pass_of_not_found squareDist 4 _ (by decide)
  refine ⟨htour, ?_, ?_, ?_, hp, ?_⟩
  · decide!
  · decide!
  · rw [tourLength_agree _ squareDist 4 _ (by decide) hag htour]
    decide
  · unfold optimizePath
    rw [hp]
    rfl

/-! ## The tables that processInput builds -/

theorem roundSqrt_range (m : Int) (hm : m ≤ INT_MAX) :
    roundSqrt m = INT_MIN ∨ (0 ≤ roundSqrt m ∧ roundSqrt m ≤ 46341) := by
  unfold roundSqrt
  by_cases h : m < 0
  · left
    rw [if_pos h]
  · right
    rw [if_neg h]
    have hs : Nat.sqrt m.toNat < 46341 := by
      rw [Nat.sqrt_lt]
      unfold INT_MAX at hm
      omega
    split_ifs <;> omega

/-- Every entry that `processInput` writes is `INT_MIN` (the squared distance overflowed to a
negative `int`) or lies in `0 .. 46341`. -/
theorem processInput_entry_range (cities : List City) (mem : Matrix) (i j : Nat)
    (hi : i < cities.length) (hj : j < cities.length) :
    (processInput cities mem).1 i j = INT_MIN ∨
      (0 ≤ (processInput cities mem).1 i j ∧ (processInput cities mem).1 i j ≤ 46341) := by
  rw [processInput_entry cities mem i j hi hj]
  unfold cityDist
  exact roundSqrt_range _ (wrap_range _).2

/-- A table of non-negative entries that `processInput` builds is symmetric and has its
entries in `0 .. 46341`, below `2^30`. -/
theorem processInput_distances (cities : List City) (mem : Matrix)
    (hnonneg : ∀ a : Nat, a < cities.length → ∀ b : Nat, b < cities.length →
      0 ≤ (processInput cities mem).1 a b) :
    SymmetricOn (processInput cities mem).1 cities.length ∧
      EntriesIn (processInput cities mem).1 cities.length 46342 ∧
      EntriesIn (processInput cities mem).1 cities.length 1073741824 := by
  have hr : ∀ a : Nat, a < cities.length → ∀ b : Nat, b < cities.length →
      0 ≤ (processInput cities mem).1 a b ∧ (processInput cities mem).1 a b ≤ 46341 := by
    intro a ha b hb
    rcases processInput_entry_range cities mem a b ha hb with h | h
    · have := hnonneg a ha b hb
      rw [h] at this
      exact absurd this (by decide)
    · exact h
  refine ⟨?_, ?_, ?_⟩
  · intro a ha b hb
    rw [processInput_entry cities mem a b ha hb, processInput_entry cities mem b a hb ha,
      min_comm, max_comm]
  · intro a ha b hb
    have := hr a ha b hb
    exact ⟨this.1, by omega⟩
  · intro a ha b hb
    have := hr a ha b hb
    exact ⟨this.1, by omega⟩

theorem processInput_grid (mem : Matrix) :
    AgreeOn (processInput gridCities mem).1 gridDist 6 := by
  intro a ha b hb
  rw [processInput_entry gridCities mem a b ha hb]
  interval_cases a <;> interval_cases b <;> decide!

/-! ## optimizePath: the cached cost in 32-bit arithmetic -/

theorem check_wrap_gain (dist : Matrix) (best : Nat → Int) (p q : Nat) (hp : 1 ≤ p)
    (hq : 1 ≤ q) : check dist best (p - 1) (q - 1) = wrap (gain dist best p q) := by
  unfold check gain
  have e1 : p - 1 + 1 = p := by omega
  have e2 : p - 1 + 2 = p + 1 := by omega
  have e3 : q - 1 + 1 = q := by omega
  have e4 : q - 1 + 2 = q + 1 := by omega
  rw [e1, e2, e3, e4]
  unfold wrap
  omega

/-- On every table that is symmetric on the cities, a pass keeps `best[0]` equal to the
closed-tour length reduced to 32 bits. -/
theorem pass_cost_wrap (dist : Matrix) (n : Nat) (best : Nat → Int)
    (hsym : SymmetricOn dist n)
    (h : IsTour n best ∧ best 0 = wrap (tourLength dist n best)) :
    IsTour n (pass dist n best).1 ∧
      (pass dist n best).1 0 = wrap (tourLength dist n (pass dist n best).1) := by
  obtain ⟨htour, hcost⟩ := h
  have htour2 := pass_isTour dist n best htour
  refine ⟨htour2, ?_⟩
  cases hf : (scan dist n best).imp_found
  · rw [pass_of_not_found dist n best hf]
    exact hcost
  · rw [pass_of_found dist n best hf]
    obtain ⟨_, hsi, hsij, hsj, himp⟩ := ((scan_spec dist n best).1).2.2 hf
    have hs := fun k l h1 h2 h3 h4 => isTour_lift n best
      (fun x y => dist x y = dist y x) htour hsym k l h1 h2 h3 h4
    have hg : (scan dist n best).improve =
        wrap (gain dist best (scan dist n best).swapi (scan dist n best).swapj) := by
      rw [himp]
      exact check_wrap_gain dist best _ _ hsi (by omega)
    rw [tourLength_upd_zero dist n _ _ (by omega),
      tourLength_twoOpt dist n best _ _ hsi (by omega) hsj hs]
    simp only [upd_apply, if_true]
    rw [hcost, hg]
    unfold wrap
    omega

/-- C3: for every table that is symmetric on the cities and every input whose positions
`1..n` hold a permutation of `0..n-1`: when the `int` `best[0]` is the closed-tour length
as 32-bit arithmetic yields it, it is so again after every number of passes and in every
array that `optimizePath` returns, by convergence or by the deadline.  When moreover the
entries are non-negative and below `2^30` (as in every table of non-negative entries that
`processInput` builds, see `processInput_distances`) and `best[0]` is the closed-tour
length itself, `best[0]` is again the closed-tour length itself, recomputed from the table
in unbounded integers, closing edge included. -/
theorem optimizePath_cost_invariant (dist : Matrix) (n : Nat) (best : Nat → Int)
    (hsym : SymmetricOn dist n) (htour : IsTour n best) :
    (best 0 = wrap (tourLength dist n best) →
        (∀ k, passes dist n k best 0 = wrap (tourLength dist n (passes dist n k best))) ∧
          ∀ (clock : Nat → Bool) (fuel t : Nat) (r : Nat → Int) (flag : Bool),
            optimizePath clock dist n fuel t best = some (r, flag) →
              r 0 = wrap (tourLength dist n r)) ∧
      (EntriesIn dist n 1073741824 → best 0 = tourLength dist n best → best 0 ≤ INT_MAX →
        (∀ k, passes dist n k best 0 = tourLength dist n (passes dist n k best)) ∧
          ∀ (clock : Nat → Bool) (fuel t : Nat) (r : Nat → Int) (flag : Bool),
            optimizePath clock dist n fuel t best = some (r, flag) →
              r 0 = tourLength dist n r) := by
  constructor
  · intro hcost
    have hall : ∀ k, IsTour n (passes dist n k best) ∧
        passes dist n k best 0 = wrap (tourLength dist n (passes dist n k best)) := fun k =>
      passes_invariant dist n (fun b => IsTour n b ∧ b 0 = wrap (tourLength dist n b))
        (fun b hb => pass_cost_wrap dist n b hsym hb) k best ⟨htour, hcost⟩
    refine ⟨fun k => (hall k).2, ?_⟩
    intro clock fuel t r flag h
    obtain ⟨k, _, _, hk⟩ := optimizePath_eq_passes clock dist n fuel t best r flag h
    rw [hk]
    exact (hall k).2
  · intro hbound hcost hmax
    have hall : ∀ k, IsTour n (passes dist n k best) ∧
        passes dist n k best 0 = tourLength dist n (passes dist n k best) ∧
        passes dist n k best 0 ≤ INT_MAX := fun k =>
      passes_invariant dist n
        (fun b => IsTour n b ∧ b 0 = tourLength dist n b ∧ b 0 ≤ INT_MAX)
        (fun b hb => pass_cost dist n b hsym hbound hb) k best ⟨htour, hcost, hmax⟩
    refine ⟨fun k => (hall k).2.1, ?_⟩
    intro clock fuel t r flag h
    obtain ⟨k, _, _, hk⟩ := optimizePath_eq_passes clock dist n fuel t best r flag h
    rw [hk]
    exact (hall k).2.1

theorem optimizePath_cost_invariant_witness :
    (SymmetricOn gridTable 6 ∧ IsTour 6 (arr [18, 3, 5, 0, 4, 1, 2])) ∧
      (arr [18, 3, 5, 0, 4, 1, 2] 0 = wrap (tourLength gridTable 6 (arr [18, 3, 5, 0, 4, 1, 2])) ∧
        EntriesIn gridTable 6 1073741824 ∧
        arr [18, 3, 5, 0, 4, 1, 2] 0 = tourLength gridTable 6 (arr [18, 3, 5, 0, 4, 1, 2]) ∧
        arr [18, 3, 5, 0, 4, 1, 2] 0 ≤ INT_MAX ∧
        (List.range 4).map (fun k => (List.range 7).map
            (passes gridTable 6 k (arr [18, 3, 5, 0, 4, 1, 2]))) =
          [[18, 3, 5, 0, 4, 1, 2], [15, 3, 5, 4, 0, 1, 2], [14, 3, 4, 5, 0, 1, 2],
            [13, 3, 4, 5, 1, 0, 2]]) ∧
      ((arr [18, 3, 5, 0, 4, 1, 2] 0 = wrap (tourLength gridTable 6 (arr [18, 3, 5, 0, 4, 1, 2])) →
          (∀ k, passes gridTable 6 k (arr [18, 3, 5, 0, 4, 1, 2]) 0 =
              wrap (tourLength gridTable 6 (passes gridTable 6 k (arr [18, 3, 5, 0, 4, 1, 2])))) ∧
            ∀ (clock : Nat → Bool) (fuel t : Nat) (r : Nat → Int) (flag : Bool),
              optimizePath clock gridTable 6 fuel t (arr [18, 3, 5, 0, 4, 1, 2]) =
                  some (r, flag) →
                r 0 = wrap (tourLength gridTable 6 r)) ∧
        (EntriesIn gridTable 6 1073741824 →
          arr [18, 3, 5, 0, 4, 1, 2] 0 = tourLength gridTable 6 (arr [18, 3, 5, 0, 4, 1, 2]) →
          arr [18, 3, 5, 0, 4, 1, 2] 0 ≤ INT_MAX →
          (∀ k, passes gridTable 6 k (arr [18, 3, 5, 0, 4, 1, 2]) 0 =
              tourLength gridTable 6 (passes gridTable 6 k (arr [18, 3, 5, 0, 4, 1, 2]))) ∧
            ∀ (clock : Nat → Bool) (fuel t : Nat) (r : Nat → Int) (flag : Bool),
              optimizePath clock gridTable 6 fuel t (arr [18, 3, 5, 0, 4, 1, 2]) =
                  some (r, flag) →
                r 0 = tourLength gridTable 6 r)) :=
  ⟨⟨by decide!, by decide!⟩, ⟨by decide!, by decide!, by decide!, by decide!, by decide!⟩,
    optimizePath_cost_invariant gridTable 6 (arr [18, 3, 5, 0, 4, 1, 2]) (by decide!)
      (by decide!)⟩

/-! ## optimizePath: the cached cost never increases -/

theorem pass_cost_lo (dist : Matrix) (n : Nat) (best : Nat → Int)
    (hsym : SymmetricOn dist n) (hbound : EntriesIn dist n 1073741824)
    (h : IsTour n best ∧ best 0 = tourLength dist n best ∧ best 0 ≤ INT_MAX ∧ -1 ≤ best 0) :
    IsTour n (pass dist n best).1 ∧
      (pass dist n best).1 0 = tourLength dist n (pass dist n best).1 ∧
      (pass dist n best).1 0 ≤ INT_MAX ∧ -1 ≤ (pass dist n best).1 0 := by
  obtain ⟨htour, hcost, hmax, hlo⟩ := h
  obtain ⟨p1, p2, p3⟩ := pass_cost dist n best hsym hbound ⟨htour, hcost, hmax⟩
  refine ⟨p1, p2, p3, ?_⟩
  cases hf : (scan dist n best).imp_found
  · rw [pass_of_not_found dist n best hf]
    exact hlo
  · obtain ⟨_, _, _, hsj, _⟩ := ((scan_spec dist n best).1).2.2 hf
    rw [p2]
    have h0 : 0 ≤ tourLength dist n (pass dist n best).1 := by
      apply tourLength_nonneg dist n _ (by omega)
      intro k l h1 h2 h3 h4
      exact (isTour_lift n _ (fun x y => 0 ≤ dist x y ∧ dist x y < 1073741824) p1
        hbound k l h1 h2 h3 h4).1
    omega

/-- C6: for every table and every array whose cached cost before a pass is an `int` not
below `-1` (every non-negative cost is), the value of `best[0]` after the pass is less than
or equal to its value before, and strictly less when the pass applies a swap.  Across
successive passes: on a symmetric table with entries in `0 .. 2^30 - 1` (as in every table
of non-negative entries that `processInput` builds, see `processInput_distances`), from an
input whose positions `1..n` hold a permutation and whose `best[0]` is its closed-tour
length, the cost after the pass `k + 1` is less than or equal to the cost after the pass
`k`, for every `k`, and strictly less when the pass `k + 1` applies a swap. -/
theorem pass_cost_nonincreasing (dist : Matrix) (n : Nat) (best : Nat → Int)
    (hlo : -1 ≤ best 0) (hhi : best 0 ≤ INT_MAX) :
    ((pass dist n best).1 0 ≤ best 0 ∧
        ((pass dist n best).2 = true → (pass dist n best).1 0 < best 0)) ∧
      (SymmetricOn dist n → EntriesIn dist n 1073741824 → IsTour n best →
        best 0 = tourLength dist n best →
        ∀ k, passes dist n (k + 1) best 0 ≤ passes dist n k best 0 ∧
          ((pass dist n (passes dist n k best)).2 = true →
            passes dist n (k + 1) best 0 < passes dist n k best 0)) := by
  refine ⟨⟨(pass_cost_le dist n best hlo hhi).1,
    fun h => ((pass_cost_le dist n best hlo hhi).2 h).2⟩, ?_⟩
  intro hsym hbound htour hcost k
  obtain ⟨_, _, k3, k4⟩ := passes_invariant dist n
    (fun b => IsTour n b ∧ b 0 = tourLength dist n b ∧ b 0 ≤ INT_MAX ∧ -1 ≤ b 0)
    (fun b hb => pass_cost_lo dist n b hsym hbound hb) k best ⟨htour, hcost, hhi, hlo⟩
  rw [passes_succ_last]
  exact ⟨(pass_cost_le dist n _ k4 k3).1, fun h => ((pass_cost_le dist n _ k4 k3).2 h).2⟩

theorem pass_cost_nonincreasing_witness :
    (-1 ≤ arr [18, 3, 5, 0, 4, 1, 2] 0 ∧ arr [18, 3, 5, 0, 4, 1, 2] 0 ≤ INT_MAX) ∧
      (SymmetricOn gridTable 6 ∧ EntriesIn gridTable 6 1073741824 ∧
        IsTour 6 (arr [18, 3, 5, 0, 4, 1, 2]) ∧
        arr [18, 3, 5, 0, 4, 1, 2] 0 = tourLength gridTable 6 (arr [18, 3, 5, 0, 4, 1, 2]) ∧
        (List.range 5).map (fun k => passes gridTable 6 k (arr [18, 3, 5, 0, 4, 1, 2]) 0) =
          [18, 15, 14, 13, 13] ∧
        (List.range 4).map
            (fun k => (pass gridTable 6 (passes gridTable 6 k (arr [18, 3, 5, 0, 4, 1, 2]))).2) =
          [true, true, true, false]) ∧
      (((pass gridTable 6 (arr [18, 3, 5, 0, 4, 1, 2])).1 0 ≤ arr [18, 3, 5, 0, 4, 1, 2] 0 ∧
          ((pass gridTable 6 (arr [18, 3, 5, 0, 4, 1, 2])).2 = true →
            (pass gridTable 6 (arr [18, 3, 5, 0, 4, 1, 2])).1 0 <
              arr [18, 3, 5, 0, 4, 1, 2] 0)) ∧
        (SymmetricOn gridTable 6 → EntriesIn gridTable 6 1073741824 →
          IsTour 6 (arr [18, 3, 5, 0, 4, 1, 2]) →
          arr [18, 3, 5, 0, 4, 1, 2] 0 = tourLength gridTable 6 (arr [18, 3, 5, 0, 4, 1, 2]) →
          ∀ k, passes gridTable 6 (k + 1) (arr [18, 3, 5, 0, 4, 1, 2]) 0 ≤
              passes gridTable 6 k (arr [18, 3, 5, 0, 4, 1, 2]) 0 ∧
            ((pass gridTable 6 (passes gridTable 6 k (arr [18, 3, 5, 0, 4, 1, 2]))).2 = true →
              passes gridTable 6 (k + 1) (arr [18, 3, 5, 0, 4, 1, 2]) 0 <
                passes gridTable 6 k (arr [18, 3, 5, 0, 4, 1, 2]) 0))) :=
  ⟨⟨by decide, by decide⟩, ⟨by decide!, by decide!, by decide!, by decide!, by decide!,
      by decide!⟩,
    pass_cost_nonincreasing gridTable 6 (arr [18, 3, 5, 0, 4, 1, 2]) (by decide) (by decide)⟩

theorem pass_best_swap_witness :
    (EntriesIn gridTable 6 1073741824 ∧ IsTour 6 (arr [18, 3, 5, 0, 4, 1, 2]) ∧
        -1 ≤ arr [18, 3, 5, 0, 4, 1, 2] 0 ∧ arr [18, 3, 5, 0, 4, 1, 2] 0 ≤ INT_MAX ∧
        (pass gridTable 6 (arr [18, 3, 5, 0, 4, 1, 2])).2 = true) ∧
      ([(1, 3), (1, 4), (1, 5), (2, 4), (2, 5), (3, 5)].map
            (fun pq : Nat × Nat => gain gridTable (arr [18, 3, 5, 0, 4, 1, 2]) pq.1 pq.2) =
          [0, 1, -1, 3, 1, 3] ∧
        (scan gridTable 6 (arr [18, 3, 5, 0, 4, 1, 2])).swapi = 2 ∧
        (scan gridTable 6 (arr [18, 3, 5, 0, 4, 1, 2])).swapj = 4 ∧
        (List.range 7).map (pass gridTable 6 (arr [18, 3, 5, 0, 4, 1, 2])).1 =
          [15, 3, 5, 4, 0, 1, 2]) ∧
      ∃ p q, 1 ≤ p ∧ p + 2 ≤ q ∧ q + 1 ≤ 6 ∧
        (scan gridTable 6 (arr [18, 3, 5, 0, 4, 1, 2])).swapi = p ∧
        (scan gridTable 6 (arr [18, 3, 5, 0, 4, 1, 2])).swapj = q ∧
        0 < gain gridTable (arr [18, 3, 5, 0, 4, 1, 2]) p q ∧
        (∀ p' q', 1 ≤ p' → p' + 2 ≤ q' → q' + 1 ≤ 6 →
          gain gridTable (arr [18, 3, 5, 0, 4, 1, 2]) p' q' ≤
            gain gridTable (arr [18, 3, 5, 0, 4, 1, 2]) p q) ∧
        (∀ p' q', 1 ≤ p' → p' + 2 ≤ q' → q' + 1 ≤ 6 → (p' < p ∨ (p' = p ∧ q' < q)) →
          gain gridTable (arr [18, 3, 5, 0, 4, 1, 2]) p' q' <
            gain gridTable (arr [18, 3, 5, 0, 4, 1, 2]) p q) ∧
        (∀ k, 1 ≤ k →
          (pass gridTable 6 (arr [18, 3, 5, 0, 4, 1, 2])).1 k =
            twoOpt (arr [18, 3, 5, 0, 4, 1, 2]) p q k) ∧
        (pass gridTable 6 (arr [18, 3, 5, 0, 4, 1, 2])).1 0 =
          arr [18, 3, 5, 0, 4, 1, 2] 0 - gain gridTable (arr [18, 3, 5, 0, 4, 1, 2]) p q :=
  ⟨⟨by decide!, by decide!, by decide, by decide, by decide!⟩,
    ⟨by decide!, by decide!, by decide!, by decide!⟩,
    pass_best_swap gridTable 6 (arr [18, 3, 5, 0, 4, 1, 2]) (by decide!) (by decide!)
      (by decide) (by decide) (by decide!)⟩

/-! ## optimizePath: what the deadline return hands back -/

/-- The loop of line 145 from the position `m + 1` on: it fills the positions up to some
`m2`, making one clock comparison for each, every city added being a nearest unvisited
neighbour; it stops short of the last position only when the comparison made last answered
`true`, and every comparison before the last answered `false`. -/
theorem growPath_selected_upto (clock : Nat → Bool) (dist : Matrix) (n s : Nat) :
    ∀ (len m : Nat) (st st2 : NNState), 1 ≤ m → PathInv dist n s m st →
      (∀ j, 2 ≤ j → j ≤ m → Selected dist n st.temp j) →
      st.timed_out = false →
      growPath clock dist n (List.range' (m + 1) len) st = some st2 →
      ∃ m2, m ≤ m2 ∧ m2 ≤ m + len ∧ st2.checks = st.checks + (m2 - m) ∧
        (∀ j, 2 ≤ j → j ≤ m2 → Selected dist n st2.temp j) ∧
        (st2.timed_out = false → m2 = m + len) ∧
        (m < m2 → st2.timed_out = clock (st2.checks - 1)) ∧
        (m2 = m → st2.timed_out = false) ∧
        ∀ k, st.checks ≤ k → k + 1 < st2.checks → clock k = false := by
  intro len
  induction len with
  | zero =>
    intro m st st2 _ _ hsel h0 h
    simp only [List.range'_zero, growPath, Option.some.injEq] at h
    subst h
    exact ⟨m, le_refl _, le_refl _, by omega, hsel, fun _ => rfl, fun h => absurd h (by omega),
      fun _ => h0, fun k h1 h2 => by omega⟩
  | succ len ih =>
    intro m st st2 hm hinv hsel h0 h
    rw [List.range'_succ] at h
    obtain ⟨st1, h1, hrest⟩ := growPath_uncons clock dist n (m + 1) _ st st2 h0 h
    obtain ⟨ht, hk, _⟩ := addCity_clock clock dist n (m + 1) st st1 h1
    have hinv1 := pathInv_step clock dist n s m st st1 hm hinv h1
    obtain ⟨hnew, hold⟩ := addCity_selected clock dist n s m st st1 hm hinv h1
    have hsel1 : ∀ j, 2 ≤ j → j ≤ m + 1 → Selected dist n st1.temp j := by
      intro j' hj'1 hj'2
      by_cases hj' : j' = m + 1
      · subst hj'; exact hnew
      · apply selected_congr dist n j' st.temp st1.temp hj'1 _ (hsel j' hj'1 (by omega))
        intro p hp1 hp2
        exact (hold p hp1 (by omega)).symm
    by_cases hc : clock st.checks = true
    · rw [hc] at ht
      simp only [if_true] at ht
      rw [growPath_timed_out clock dist n _ st1 ht] at hrest
      simp only [Option.some.injEq] at hrest
      subst hrest
      refine ⟨m + 1, by omega, by omega, by omega, hsel1,
        fun h => absurd (ht.symm.trans h) (by simp), ?_, fun h => absurd h (by omega),
        fun k h1 h2 => by omega⟩
      intro _
      rw [ht, hk, Nat.add_sub_cancel, hc]
    · have hc0 : clock st.checks = false := by simpa using hc
      rw [hc0, h0] at ht
      have ht1 : st1.timed_out = false := by simpa using ht
      obtain ⟨m2, g1, g2, g3, g4, g5, g6, g7, g8⟩ :=
        ih (m + 1) st1 st2 (by omega) hinv1 hsel1 ht1 hrest
      refine ⟨m2, by omega, by omega, by omega, g4, fun h => by have := g5 h; omega, ?_,
        fun h => absurd h (by omega), ?_⟩
      · intro _
        by_cases hm2 : m2 = m + 1
        · have e : st2.checks - 1 = st.checks := by omega
          rw [g7 hm2, e, hc0]
        · exact g6 (by omega)
      · intro k hk1 hk2
        by_cases hks : k = st.checks
        · rw [hks]; exact hc0
        · exact g8 k (by omega) hk2

theorem attempt_temp (clock : Nat → Bool) (dist : Matrix) (n s : Nat) (st st2 : NNState)
    (h : attempt clock dist n s st = some st2) :
    ∃ stg, growPath clock dist n (List.range' 2 (n - 1))
        { st with
          visited := upd (resetVisited n st.visited) s true
          temp := upd (upd st.temp 0 0) 1 (s : Int) } = some stg ∧
      st2.timed_out = stg.timed_out ∧ st2.checks = stg.checks ∧
      ∀ p, 1 ≤ p → st2.temp p = stg.temp p := by
  unfold attempt at h
  cases hg : growPath clock dist n (List.range' 2 (n - 1))
      { st with
        visited := upd (resetVisited n st.visited) s true
        temp := upd (upd st.temp 0 0) 1 (s : Int) } with
  | none => rw [hg] at h; simp at h
  | some stg =>
    rw [hg] at h
    simp only [Option.some_bind] at h
    refine ⟨stg, rfl, ?_⟩
    by_cases ht : stg.timed_out = true
    · rw [if_pos ht] at h
      simp only [Option.some.injEq] at h
      subst h
      exact ⟨rfl, rfl, fun _ _ => rfl⟩
    · rw [if_neg ht] at h
      split_ifs at h <;>
      · simp only [Option.some.injEq] at h
        subst h
        refine ⟨rfl, rfl, ?_⟩
        intro p hp
        show upd stg.temp 0 _ p = _
        rw [upd_apply, if_neg (by omega)]

/-- Every run of the body of the loop of line 137, completed or aborted by the clock: the
positions `2..m` of `temp` are filled, `m - 1` being the number of clock comparisons the
run made, each with a nearest unvisited neighbour of the position before it, first in scan
order; `timed_out` is the answer of the comparison made last, every earlier comparison
answered `false`, and a run that ends with `timed_out` unset has filled all of `2..n`. -/
theorem attempt_selected_upto (clock : Nat → Bool) (dist : Matrix) (n s : Nat)
    (st st2 : NNState) (hn : 2 ≤ n) (hs : s < n) (h0 : st.timed_out = false)
    (h : attempt clock dist n s st = some st2) :
    ∃ m, 2 ≤ m ∧ m ≤ n ∧ st2.checks = st.checks + (m - 1) ∧
      (∀ j, 2 ≤ j → j ≤ m → Selected dist n st2.temp j) ∧
      (st2.timed_out = false → m = n) ∧
      st2.timed_out = clock (st2.checks - 1) ∧
      ∀ k, st.checks ≤ k → k + 1 < st2.checks → clock k = false := by
  obtain ⟨stg, hg, a1, a2, a3⟩ := attempt_temp clock dist n s st st2 h
  obtain ⟨m2, g1, g2, g3, g4, g5, g6, g7, g8⟩ :=
    growPath_selected_upto clock dist n s (n - 1) 1
      { st with
        visited := upd (resetVisited n st.visited) s true
        temp := upd (upd st.temp 0 0) 1 (s : Int) }
      stg (le_refl _) (pathInv_init dist n s st hs) (fun j hj1 hj2 => by omega) h0 hg
  have hm2 : 2 ≤ m2 := by
    by_contra hlt
    have e : m2 = 1 := by omega
    have := g5 (g7 e)
    omega
  have g3' : stg.checks = st.checks + (m2 - 1) := g3
  refine ⟨m2, hm2, by omega, by rw [a2, g3'], ?_, fun ht => ?_, ?_, ?_⟩
  · intro j hj1 hj2
    apply selected_congr dist n j stg.temp st2.temp hj1 _ (g4 j hj1 hj2)
    intro p hp1 _
    exact (a3 p hp1).symm
  · have := g5 (by rw [← a1]; exact ht)
    omega
  · rw [a1, a2]
    exact g6 (by omega)
  · intro k hk1 hk2
    rw [a2] at hk2
    exact g8 k hk1 hk2

/-- C14: on a table with entries below `INT_MAX` and for `n ≥ 2`, no selection of a
nearest-neighbour attempt yields the placeholder `-1`: every attempt has a result, under
every clock and from every start.  In every attempt, completed or aborted by the clock,
the positions `2..m` of `temp` have been filled, one clock comparison for each, and the
city at each position `j` in `2..m` is an unvisited city, not among `temp[1..j-1]`, at the
least distance from `temp[j-1]` over all unvisited cities, and of smallest index among the
unvisited cities at that distance.  The attempt stops before `m = n` only when the clock
answered `true` at the comparison made last: `timed_out` is that answer, and an attempt
that ends with `timed_out` unset has filled every position `2..n`. -/
theorem attempt_nearest_neighbour (dist : Matrix) (n : Nat) (hn : 2 ≤ n)
    (hbelow : EntriesBelow dist n INT_MAX) :
    (∀ (clock : Nat → Bool) (s : Nat) (st : NNState), s < n →
        ∃ st2, attempt clock dist n s st = some st2) ∧
      (∀ s, s < n → ∃ t, nnAttempt dist n s = some t) ∧
      ∀ (clock : Nat → Bool) (s : Nat) (st st2 : NNState), s < n → st.timed_out = false →
        attempt clock dist n s st = some st2 →
          ∃ m, 2 ≤ m ∧ m ≤ n ∧ st2.checks = st.checks + (m - 1) ∧
            (∀ j, 2 ≤ j → j ≤ m → Selected dist n st2.temp j) ∧
            (st2.timed_out = false → m = n) ∧
            st2.timed_out = clock (st2.checks - 1) ∧
            ∀ k, st.checks ≤ k → k + 1 < st2.checks → clock k = false := by
  refine ⟨?_, ?_, ?_⟩
  · intro clock s st hs
    exact attempt_total clock dist n s st hbelow hs
  · intro s hs
    obtain ⟨st2, h⟩ := attempt_total never dist n s zeroState hbelow hs
    refine ⟨st2.temp, ?_⟩
    unfold nnAttempt
    rw [h]
    rfl
  · intro clock s st st2 hs h0 h
    exact attempt_selected_upto clock dist n s st st2 hn hs h0 h

theorem attempt_nearest_neighbour_witness :
    (2 ≤ 6 ∧ EntriesBelow gridTable 6 INT_MAX) ∧
      ((attempt (fun c => decide (c = 1)) gridTable 6 0 zeroState).map
            (fun st => (st.timed_out, st.checks, (List.range 4).map st.temp)) =
          some (true, 2, [3, 0, 1, 4]) ∧
        (attempt never gridTable 6 0 zeroState).map
            (fun st => (st.timed_out, st.checks, (List.range 7).map st.temp)) =
          some (false, 5, [16, 0, 1, 4, 3, 5, 2])) ∧
      ((∀ (clock : Nat → Bool) (s : Nat) (st : NNState), s < 6 →
          ∃ st2, attempt clock gridTable 6 s st = some st2) ∧
        (∀ s, s < 6 → ∃ t, nnAttempt gridTable 6 s = some t) ∧
        ∀ (clock : Nat → Bool) (s : Nat) (st st2 : NNState), s < 6 → st.timed_out = false →
          attempt clock gridTable 6 s st = some st2 →
            ∃ m, 2 ≤ m ∧ m ≤ 6 ∧ st2.checks = st.checks + (m - 1) ∧
              (∀ j, 2 ≤ j → j ≤ m → Selected gridTable 6 st2.temp j) ∧
              (st2.timed_out = false → m = 6) ∧
              st2.timed_out = clock (st2.checks - 1) ∧
              ∀ k, st.checks ≤ k → k + 1 < st2.checks → clock k = false) :=
  ⟨⟨by decide, by decide!⟩, ⟨by decide!, by decide!⟩,
    attempt_nearest_neighbour gridTable 6 (by decide) (by decide!)⟩

/-! ## The square: every crossed order -/

set_option maxRecDepth 100000 in
theorem squareDist_crossed_orders : ∀ a : Nat, a < 4 → ∀ b : Nat, b < 4 → ∀ c : Nat, c < 4 →
    ∀ d : Nat, d < 4 → a ≠ b → a ≠ c → a ≠ d → b ≠ c → b ≠ d → c ≠ d →
      squareDist (a : Int) (b : Int) + squareDist (b : Int) (c : Int) +
          squareDist (c : Int) (d : Int) + squareDist (d : Int) (a : Int) = 48 →
        (squareDist (a : Int) (b : Int) = 14 ∧ squareDist (c : Int) (d : Int) = 14) ∨
          (squareDist (b : Int) (c : Int) = 14 ∧ squareDist (d : Int) (a : Int) = 14 ∧
            squareDist (a : Int) (b : Int) = 10 ∧ squareDist (c : Int) (d : Int) = 10 ∧
            squareDist (a : Int) (c : Int) = 10 ∧ squareDist (b : Int) (d : Int) = 10) := by
  intro a ha b hb c hc d hd
  interval_cases a <;> interval_cases b <;> interval_cases c <;> interval_cases d <;> decide

/-- On a table that holds the distances of the square, an order of closed-tour length 48
has its two diagonals either at the edges leaving the positions 1 and 3, or at the edge
leaving the position 2 and the closing edge; in the second case the scan finds no
improvement. -/
theorem square_crossed_cases (dist : Matrix) (hag : AgreeOn dist squareDist 4)
    (best : Nat → Int) (htour : IsTour 4 best) (hcross : tourLength dist 4 best = 48) :
    (dist (best 1) (best 2) = 14 ∧ dist (best 3) (best 4) = 14) ∨
      (dist (best 2) (best 3) = 14 ∧ dist (best 4) (best 1) = 14 ∧
        dist (best 1) (best 2) = 10 ∧ dist (best 3) (best 4) = 10 ∧
        (scan dist 4 best).imp_found = false) := by
  have hc := agreeOn_tour dist squareDist 4 best hag htour
  obtain ⟨a, ha, h1⟩ := isTour_range 4 best htour 1 (by omega) (by omega)
  obtain ⟨b, hb, h2⟩ := isTour_range 4 best htour 2 (by omega) (by omega)
  obtain ⟨c, hc3, h3⟩ := isTour_range 4 best htour 3 (by omega) (by omega)
  obtain ⟨d, hd, h4⟩ := isTour_range 4 best htour 4 (by omega) (by omega)
  have n12 := isTour_distinct 4 best htour 1 2 (by omega) (by omega) (by omega)
  have n13 := isTour_distinct 4 best htour 1 3 (by omega) (by omega) (by omega)
  have n14 := isTour_distinct 4 best htour 1 4 (by omega) (by omega) (by omega)
  have n23 := isTour_distinct 4 best htour 2 3 (by omega) (by omega) (by omega)
  have n24 := isTour_distinct 4 best htour 2 4 (by omega) (by omega) (by omega)
  have n34 := isTour_distinct 4 best htour 3 4 (by omega) (by omega) (by omega)
  rw [h1, h2] at n12
  rw [h1, h3] at n13
  rw [h1, h4] at n14
  rw [h2, h3] at n23
  rw [h2, h4] at n24
  rw [h3, h4] at n34
  rw [tourLength_four, hc 1 2 (by omega) (by omega) (by omega) (by omega),
    hc 2 3 (by omega) (by omega) (by omega) (by omega),
    hc 3 4 (by omega) (by omega) (by omega) (by omega),
    hc 4 1 (by omega) (by omega) (by omega) (by omega), h1, h2, h3, h4] at hcross
  have e12 := hc 1 2 (by omega) (by omega) (by omega) (by omega)
  have e34 := hc 3 4 (by omega) (by omega) (by omega) (by omega)
  have e23 := hc 2 3 (by omega) (by omega) (by omega) (by omega)
  have e41 := hc 4 1 (by omega) (by omega) (by omega) (by omega)
  have e13 := hc 1 3 (by omega) (by omega) (by omega) (by omega)
  have e24 := hc 2 4 (by omega) (by omega) (by omega) (by omega)
  rw [h1, h2] at e12
  rw [h3, h4] at e34
  rw [h2, h3] at e23
  rw [h4, h1] at e41
  rw [h1, h3] at e13
  rw [h2, h4] at e24
  rcases squareDist_crossed_orders a ha b hb c hc3 d hd
    (fun e => n12 (by rw [e])) (fun e => n13 (by rw [e])) (fun e => n14 (by rw [e]))
    (fun e => n23 (by rw [e])) (fun e => n24 (by rw [e])) (fun e => n34 (by rw [e]))
    hcross with ⟨s1, s2⟩ | ⟨s1, s2, s3, s4, s5, s6⟩
  · left
    exact ⟨by rw [h1, h2, e12]; exact s1, by rw [h3, h4, e34]; exact s2⟩
  · right
    refine ⟨by rw [h2, h3, e23]; exact s1, by rw [h4, h1, e41]; exact s2,
      by rw [h1, h2, e12]; exact s3, by rw [h3, h4, e34]; exact s4, ?_⟩
    have hck : check dist best 0 2 = 0 := by
      show wrap (wrap (dist (best 1) (best 2) + dist (best 3) (best 4)) -
        wrap (dist (best 1) (best 3) + dist (best 2) (best 4))) = 0
      rw [h1, h2, h3, h4, e12, e34, e13, e24, s3, s4, s5, s6]
      decide
    rw [scan_four]
    unfold scanStep
    rw [hck]
    rfl

/-- C12, amended: for the four cities of the square, the table built by `processInput`,
and every visiting order of them whose closed tour uses both diagonals (closed-tour length
48, cached in `best[0]`): the diagonals are either the edges from `best[1]` to `best[2]`
and from `best[3]` to `best[4]`, or the edge from `best[2]` to `best[3]` and the closing
edge from `best[4]` to `best[1]`.  In the first case one pass of `optimizePath` finds an
improvement, reverses `best[2..3]`, and leaves a tour all of whose edges, the closing edge
included, have length 10, with the cached cost 40, the length of that tour.  In the second
case the pass finds no improvement and `optimizePath` returns the array as it is, crossed
and with the cost 48, under every clock. -/
theorem pass_uncrosses_square (table : Matrix) (best : Nat → Int) (htour : IsTour 4 best)
    (hcost : best 0 = 48)
    (hcross : tourLength (processInput squareCities table).1 4 best = 48) :
    (((processInput squareCities table).1 (best 1) (best 2) = 14 ∧
          (processInput squareCities table).1 (best 3) (best 4) = 14) ∨
        ((processInput squareCities table).1 (best 2) (best 3) = 14 ∧
          (processInput squareCities table).1 (best 4) (best 1) = 14)) ∧
      ((processInput squareCities table).1 (best 1) (best 2) = 14 →
        (pass (processInput squareCities table).1 4 best).2 = true ∧
          (pass (processInput squareCities table).1 4 best).1 0 = 40 ∧
          tourCities 4 (pass (processInput squareCities table).1 4 best).1 =
            [best 1, best 3, best 2, best 4] ∧
          IsTour 4 (pass (processInput squareCities table).1 4 best).1 ∧
          (∀ p, 1 ≤ p → p < 4 →
            (processInput squareCities table).1
              ((pass (processInput squareCities table).1 4 best).1 p)
              ((pass (processInput squareCities table).1 4 best).1 (p + 1)) = 10) ∧
          (processInput squareCities table).1
            ((pass (processInput squareCities table).1 4 best).1 4)
            ((pass (processInput squareCities table).1 4 best).1 1) = 10 ∧
          tourLength (processInput squareCities table).1 4
            (pass (processInput squareCities table).1 4 best).1 = 40) ∧
      ((processInput squareCities table).1 (best 2) (best 3) = 14 →
        pass (processInput squareCities table).1 4 best = (best, false) ∧
          ∀ (clock : Nat → Bool) (fuel t : Nat),
            optimizePath clock (processInput squareCities table).1 4 (fuel + 1) t best =
              some (best, clock t)) := by
  have hag := processInput_square table
  have hcases := square_crossed_cases _ hag best htour hcross
  refine ⟨?_, ?_, ?_⟩
  · rcases hcases with ⟨a1, a2⟩ | ⟨b1, b2, _⟩
    · exact Or.inl ⟨a1, a2⟩
    · exact Or.inr ⟨b1, b2⟩
  · intro h12
    rcases hcases with ⟨a1, a2⟩ | ⟨_, _, b3, _⟩
    · exact square_pass_crossed _ hag best htour hcost a1 a2
    · rw [b3] at h12
      exact absurd h12 (by decide)
  · intro h23
    rcases hcases with ⟨a1, a2⟩ | ⟨_, _, _, _, b5⟩
    · obtain ⟨⟨_, e32, _, _⟩, _⟩ := square_scan_crossed _ hag best htour a1 a2
      have hs := agreeOn_tour _ squareDist 4 best hag htour
      have hsym : (processInput squareCities table).1 (best 2) (best 3) =
          (processInput squareCities table).1 (best 3) (best 2) := by
        have h := isTour_lift 4 best (fun x y => squareDist x y = squareDist y x) htour
          (by decide) 2 3 (by omega) (by omega) (by omega) (by omega)
        rw [hs 2 3 (by omega) (by omega) (by omega) (by omega),
          hs 3 2 (by omega) (by omega) (by omega) (by omega)]
        exact h
      rw [hsym, e32] at h23
      exact absurd h23 (by decide)
    · have hp := pass_of_not_found _ 4 best b5
      refine ⟨hp, ?_⟩
      intro clock fuel t
      unfold optimizePath
      rw [hp]
      cases hc : clock t <;> simp

theorem pass_uncrosses_square_witness :
    (IsTour 4 (arr [48, 0, 2, 3, 1]) ∧ arr [48, 0, 2, 3, 1] 0 = 48 ∧
        tourLength (processInput squareCities (fun _ _ => 0)).1 4 (arr [48, 0, 2, 3, 1]) = 48) ∧
      ((processInput squareCities (fun _ _ => 0)).1 (arr [48, 0, 2, 3, 1] 1)
            (arr [48, 0, 2, 3, 1] 2) = 14 ∧
        (List.range 5).map (pass (processInput squareCities (fun _ _ => 0)).1 4
            (arr [48, 0, 2, 3, 1])).1 = [40, 0, 3, 2, 1]) ∧
      ((((processInput squareCities (fun _ _ => 0)).1 (arr [48, 0, 2, 3, 1] 1)
              (arr [48, 0, 2, 3, 1] 2) = 14 ∧
            (processInput squareCities (fun _ _ => 0)).1 (arr [48, 0, 2, 3, 1] 3)
              (arr [48, 0, 2, 3, 1] 4) = 14) ∨
          ((processInput squareCities (fun _ _ => 0)).1 (arr [48, 0, 2, 3, 1] 2)
              (arr [48, 0, 2, 3, 1] 3) = 14 ∧
            (processInput squareCities (fun _ _ => 0)).1 (arr [48, 0, 2, 3, 1] 4)
              (arr [48, 0, 2, 3, 1] 1) = 14)) ∧
        ((processInput squareCities (fun _ _ => 0)).1 (arr [48, 0, 2, 3, 1] 1)
            (arr [48, 0, 2, 3, 1] 2) = 14 →
          (pass (processInput squareCities (fun _ _ => 0)).1 4 (arr [48, 0, 2, 3, 1])).2 = true ∧
            (pass (processInput squareCities (fun _ _ => 0)).1 4 (arr [48, 0, 2, 3, 1])).1 0 =
              40 ∧
            tourCities 4 (pass (processInput squareCities (fun _ _ => 0)).1 4
                (arr [48, 0, 2, 3, 1])).1 =
              [arr [48, 0, 2, 3, 1] 1, arr [48, 0, 2, 3, 1] 3, arr [48, 0, 2, 3, 1] 2,
                arr [48, 0, 2, 3, 1] 4] ∧
            IsTour 4 (pass (processInput squareCities (fun _ _ => 0)).1 4
              (arr [48, 0, 2, 3, 1])).1 ∧
            (∀ p, 1 ≤ p → p < 4 →
              (processInput squareCities (fun _ _ => 0)).1
                ((pass (processInput squareCities (fun _ _ => 0)).1 4
                  (arr [48, 0, 2, 3, 1])).1 p)
                ((pass (processInput squareCities (fun _ _ => 0)).1 4
                  (arr [48, 0, 2, 3, 1])).1 (p + 1)) = 10) ∧
            (processInput squareCities (fun _ _ => 0)).1
              ((pass (processInput squareCities (fun _ _ => 0)).1 4
                (arr [48, 0, 2, 3, 1])).1 4)
              ((pass (processInput squareCities (fun _ _ => 0)).1 4
                (arr [48, 0, 2, 3, 1])).1 1) = 10 ∧
            tourLength (processInput squareCities (fun _ _ => 0)).1 4
              (pass (processInput squareCities (fun _ _ => 0)).1 4
                (arr [48, 0, 2, 3, 1])).1 = 40) ∧
        ((processInput squareCities (fun _ _ => 0)).1 (arr [48, 0, 2, 3, 1] 2)
            (arr [48, 0, 2, 3, 1] 3) = 14 →
          pass (processInput squareCities (fun _ _ => 0)).1 4 (arr [48, 0, 2, 3, 1]) =
              (arr [48, 0, 2, 3, 1], false) ∧
            ∀ (clock : Nat → Bool) (fuel t : Nat),
              optimizePath clock (processInput squareCities (fun _ _ => 0)).1 4 (fuel + 1) t
                  (arr [48, 0, 2, 3, 1]) =
                some (arr [48, 0, 2, 3, 1], clock t))) :=
  ⟨⟨by decide, by decide, by decide!⟩, ⟨by decide!, by decide!⟩,
    pass_uncrosses_square (fun _ _ => 0) (arr [48, 0, 2, 3, 1]) (by decide) (by decide)
      (by decide!)⟩

/-! ## Inputs whose squared distances overflow -/

theorem roundSqrt_of_sq (m r : Int) (hr : 0 ≤ r) (h : m = r * r) : roundSqrt m = r := by
  obtain ⟨d, rfl⟩ := Int.eq_ofNat_of_zero_le hr
  subst h
  unfold roundSqrt
  have hn : ¬ ((d : Int) * (d : Int) < 0) := not_lt.2 (mul_self_nonneg _)
  have e : ((d : Int) * (d : Int)).toNat = d * d := by
    rw [← Int.natCast_mul, Int.toNat_ofNat]
  rw [if_neg hn, e, Nat.sqrt_eq, if_neg (by omega)]

theorem processInput_line (mem : Matrix) :
    AgreeOn (processInput lineCities mem).1 lineDist 4 := by
  intro a ha b hb
  rw [processInput_entry lineCities mem a b ha hb]
  interval_cases a <;> interval_cases b <;>
    first
    | decide
    | (rw [cityDist_of_fit _ _ (by decide)]
       exact roundSqrt_of_sq _ _ (by decide) (by decide))

theorem processInput_line5 (mem : Matrix) :
    AgreeOn (processInput lineCities5 mem).1 lineDist5 5 := by
  intro a ha b hb
  rw [processInput_entry lineCities5 mem a b ha hb]
  interval_cases a <;> interval_cases b <;>
    first
    | decide
    | (rw [cityDist_of_fit _ _ (by decide)]
       exact roundSqrt_of_sq _ _ (by decide) (by decide))

theorem processInput_far (mem : Matrix) :
    AgreeOn (processInput farCities mem).1 farDist 4 := by
  intro a ha b hb
  rw [processInput_entry farCities mem a b ha hb]
  interval_cases a <;> interval_cases b <;>
    first
    | decide
    | (rw [cityDist_of_fit _ _ (by decide)]
       exact roundSqrt_of_sq _ _ (by decide) (by decide))

theorem startsLoop_agree_dist (clock : Nat → Bool) (dist dist2 : Matrix) (n : Nat)
    (hn : 2 ≤ n) (hag : AgreeOn dist dist2 n) :
    ∀ (fuel i : Nat) (st : NNState),
      startsLoop clock dist n fuel i st = startsLoop clock dist2 n fuel i st := by
  intro fuel
  induction fuel with
  | zero =>
    intro i st
    rfl
  | succ fuel ih =>
    intro i st
    unfold startsLoop
    by_cases hc : i < n ∧ st.timed_out = false
    · rw [if_pos hc, if_pos hc, attempt_agree_dist clock dist dist2 n i st hn hc.1 hc.2 hag]
      cases attempt clock dist2 n i st with
      | none => rfl
      | some st1 =>
        simp only [Option.some_bind]
        exact ih _ _
    · rw [if_neg hc, if_neg hc]

/-- The function `initialPath` reads the table only between the cities `0..n-1`. -/
theorem initialPath_agree_dist (clock : Nat → Bool) (dist dist2 : Matrix) (n : Nat)
    (mem : NNState) (hn : 2 ≤ n) (hag : AgreeOn dist dist2 n) :
    initialPath clock dist n mem = initialPath clock dist2 n mem := by
  unfold initialPath
  exact startsLoop_agree_dist clock dist dist2 n hn hag _ _ _

/-- The function `optimizePath`, run on a tour, reads the table only between the cities
`0..n-1`. -/
theorem optimizePath_agree_dist (clock : Nat → Bool) (dist dist2 : Matrix) (n : Nat)
    (hag : AgreeOn dist dist2 n) :
    ∀ (fuel t : Nat) (best : Nat → Int), IsTour n best →
      optimizePath clock dist n fuel t best = optimizePath clock dist2 n fuel t best := by
  intro fuel
  induction fuel with
  | zero =>
    intro t best _
    rfl
  | succ fuel ih =>
    intro t best htour
    unfold optimizePath
    rw [pass_congr dist dist2 n best hag htour,
      ih (t + 1) (pass dist2 n best).1 (pass_isTour dist2 n best htour)]

theorem gain_agree (dist dist2 : Matrix) (n : Nat) (best : Nat → Int)
    (hag : AgreeOn dist dist2 n) (htour : IsTour n best) (p q : Nat) (hp : 1 ≤ p)
    (hp2 : p + 1 ≤ n) (hq : 1 ≤ q) (hq2 : q + 1 ≤ n) :
    gain dist best p q = gain dist2 best p q := by
  have h := agreeOn_tour dist dist2 n best hag htour
  unfold gain
  rw [h p (p + 1) hp (by omega) (by omega) hp2, h q (q + 1) hq (by omega) (by omega) hq2,
    h p q hp (by omega) hq (by omega), h (p + 1) (q + 1) (by omega) hp2 (by omega) hq2]


/-- A run of `optimizePath` whose first pass swaps and whose second pass finds nothing
returns the array of the first pass. -/
theorem optimizePath_one_swap (dist : Matrix) (n fuel t : Nat) (best : Nat → Int)
    (h1 : (pass dist n best).2 = true)
    (h2 : (pass dist n (pass dist n best).1).2 = false) :
    optimizePath never dist n (fuel + 2) t best = some ((pass dist n best).1, false) := by
  have e : optimizePath never dist n (fuel + 2) t best =
      optimizePath never dist n (fuel + 1) (t + 1) (pass dist n best).1 := by
    show (if never t then _ else if (pass dist n best).2 then _ else _) = _
    rw [if_neg (by simp [never]), if_pos h1]
  rw [e]
  exact optimizePath_stop dist n fuel (t + 1) _ h2

theorem lineDist_run :
    ∃ r, initialPath never lineDist 4 zeroState = some r ∧ IsTour 4 r.best ∧
      r.timed_out = false ∧ (List.range 5).map r.best = [-2147433648, 0, 3, 2, 1] ∧
      (pass lineDist 4 r.best).2 = true ∧
      (List.range 5).map (pass lineDist 4 r.best).1 = [100000, 0, 2, 3, 1] ∧
      r.best 0 < (pass lineDist 4 r.best).1 0 ∧
      (pass lineDist 4 (pass lineDist 4 r.best).1).2 = false :=
  ⟨_, rfl, by decide!, by decide!, by decide!, by decide!, by decide!, by decide!,
    by decide!⟩

/-- C6, an input on which the code departs from it: the cities at `x = 0, 10000, 20000,
50000` on a line.  The squared distance `50000^2` exceeds `INT_MAX`, the `int` product is
negative and `processInput` stores `INT_MIN` in `d[0][3]`.  `initialPath` returns the order
`0 3 2 1` with `best[0] = INT_MIN + 50000 = -2147433648`.  The first pass of `optimizePath`
computes `check = (INT_MIN + 10000) - (20000 + 40000)`, which a 32-bit `int` holds as
`2147433648`, reverses `best[2..3]` and subtracts: `best[0] - check` is below `INT_MIN`
and the `int` holds `100000`.  The cached cost has risen from `-2147433648` to `100000`,
and `optimizePath` returns this array. -/
theorem pass_cost_rises_after_overflow :
    lineTable 0 3 = INT_MIN ∧
      ∃ r, initialPath never lineTable 4 zeroState = some r ∧ r.timed_out = false ∧
        (List.range 5).map r.best = [-2147433648, 0, 3, 2, 1] ∧
        (pass lineTable 4 r.best).2 = true ∧
        (List.range 5).map (pass lineTable 4 r.best).1 = [100000, 0, 2, 3, 1] ∧
        r.best 0 < (pass lineTable 4 r.best).1 0 ∧
        optimizePath never lineTable 4 5 0 r.best =
          some ((pass lineTable 4 r.best).1, false) := by
  have hag : AgreeOn lineTable lineDist 4 := processInput_line _
  obtain ⟨r, h1, ht, h2, h3, h4, h5, h6, h7⟩ := lineDist_run
  refine ⟨by decide, r, ?_, h2, h3, ?_⟩
  · rw [initialPath_agree_dist never lineTable lineDist 4 zeroState (by decide) hag]
    exact h1
  · rw [optimizePath_agree_dist never lineTable lineDist 4 hag 5 0 r.best ht,
      pass_congr lineTable lineDist 4 r.best hag ht]
    exact ⟨h4, h5, h6, optimizePath_one_swap lineDist 4 3 0 r.best h4 h7⟩

theorem lineDist5_run :
    ∃ r, initialPath never lineDist5 5 zeroState = some r ∧ IsTour 5 r.best ∧
      r.timed_out = false ∧ (List.range 6).map r.best = [-2147433648, 0, 4, 3, 2, 1] ∧
      (pass lineDist5 5 r.best).2 = true ∧
      (scan lineDist5 5 r.best).swapi = 1 ∧ (scan lineDist5 5 r.best).swapj = 3 ∧
      (List.range 6).map (pass lineDist5 5 r.best).1 = [100000, 0, 3, 4, 2, 1] ∧
      gain lineDist5 r.best 1 3 = -2147533648 ∧ gain lineDist5 r.best 1 4 = -2147533648 ∧
      gain lineDist5 r.best 2 4 = -20000 :=
  ⟨_, rfl, by decide!, by decide!, by decide!, by decide!, by decide!, by decide!,
    by decide!, by decide!, by decide!, by decide!⟩

/-- C15, an input on which the code departs from it: the cities at `x = 0, 10000, 20000,
30000, 50000` on a line.  The squared distance `50000^2` exceeds `INT_MAX` and
`processInput` stores `INT_MIN` in `d[0][4]`.  `initialPath` returns the order `0 4 3 2 1`.
In the first pass of `optimizePath` the three scanned pairs `(1,3)`, `(1,4)`, `(2,4)` have
the gains `-2147533648`, `-2147533648` and `-20000`: none is positive.  The first two are
below `INT_MIN` and a 32-bit `int` holds them as `2147433648`, so the pass finds an
improvement and swaps the pair `(1,3)`, whose gain is neither positive nor the largest. -/
theorem pass_swaps_without_gain :
    lineTable5 0 4 = INT_MIN ∧
      ∃ r, initialPath never lineTable5 5 zeroState = some r ∧ r.timed_out = false ∧
        IsTour 5 r.best ∧ (List.range 6).map r.best = [-2147433648, 0, 4, 3, 2, 1] ∧
        (pass lineTable5 5 r.best).2 = true ∧
        (scan lineTable5 5 r.best).swapi = 1 ∧ (scan lineTable5 5 r.best).swapj = 3 ∧
        (List.range 6).map (pass lineTable5 5 r.best).1 = [100000, 0, 3, 4, 2, 1] ∧
        gain lineTable5 r.best 1 3 = -2147533648 ∧
        gain lineTable5 r.best 1 4 = -2147533648 ∧
        gain lineTable5 r.best 2 4 = -20000 ∧
        gain lineTable5 r.best 1 3 < gain lineTable5 r.best 2 4 ∧
        ¬ 0 < gain lineTable5 r.best 1 3 := by
  have hag : AgreeOn lineTable5 lineDist5 5 := processInput_line5 _
  obtain ⟨r, h1, ht, h2, h3, h4, h5, h6, h7, h8, h9, h10⟩ := lineDist5_run
  have g13 := gain_agree lineTable5 lineDist5 5 r.best hag ht 1 3 (by omega) (by omega)
    (by omega) (by omega)
  have g14 := gain_agree lineTable5 lineDist5 5 r.best hag ht 1 4 (by omega) (by omega)
    (by omega) (by omega)
  have g24 := gain_agree lineTable5 lineDist5 5 r.best hag ht 2 4 (by omega) (by omega)
    (by omega) (by omega)
  refine ⟨by decide, r, ?_, h2, ht, h3, ?_⟩
  · rw [initialPath_agree_dist never lineTable5 lineDist5 5 zeroState (by decide) hag]
    exact h1
  · rw [pass_congr lineTable5 lineDist5 5 r.best hag ht,
      scan_congr lineTable5 lineDist5 5 r.best r.best
        (agreeOn_tour lineTable5 lineDist5 5 r.best hag ht), g13, g14, g24, h8, h9, h10]
    exact ⟨h4, h5, h6, h7, rfl, rfl, rfl, by decide, by decide⟩

theorem farDist_run :
    ∃ r, initialPath never farDist 4 zeroState = some r ∧ IsTour 4 r.best ∧
      r.timed_out = false ∧ (List.range 5).map r.best = [-2147423648, 2, 3, 0, 1] ∧
      tourLength farDist 4 r.best = -2147423648 ∧
      (pass farDist 4 r.best).2 = true ∧
      (List.range 5).map (pass farDist 4 r.best).1 = [70000, 2, 0, 3, 1] ∧
      tourLength farDist 4 (pass farDist 4 r.best).1 = -4294897296 ∧
      (pass farDist 4 (pass farDist 4 r.best).1).2 = false :=
  ⟨_, rfl, by decide!, by decide!, by decide!, by decide!, by decide!, by decide!,
    by decide!, by decide!⟩

/-- C3, an input on which the code departs from it: the cities at `x = 0, 10000, 40000,
60000` on a line.  The squared distances `60000^2` and `50000^2` exceed `INT_MAX`, the
`int` products are negative and `processInput` stores `INT_MIN` in `d[0][3]` and `d[1][3]`.
`initialPath` returns the order `2 3 0 1` with `best[0] = -2147423648`, the sum
`20000 + INT_MIN + 10000 + 30000` of its four edges.  The first pass of `optimizePath`
finds `check = 2147473648` for the positions `1, 3`, reverses `best[2..3]` and subtracts:
`best[0] - check` is below `INT_MIN` and the `int` holds `70000`, while the edges of the
new order `2 0 3 1` sum to `40000 + INT_MIN + INT_MIN + 30000 = -4294897296`.
`optimizePath` returns this array. -/
theorem optimizePath_cost_departs :
    farTable 0 3 = INT_MIN ∧ farTable 1 3 = INT_MIN ∧ SymmetricOn farTable 4 ∧
      ∃ r, initialPath never farTable 4 zeroState = some r ∧ r.timed_out = false ∧
        IsTour 4 r.best ∧ (List.range 5).map r.best = [-2147423648, 2, 3, 0, 1] ∧
        r.best 0 = tourLength farTable 4 r.best ∧
        (pass farTable 4 r.best).2 = true ∧
        (List.range 5).map (pass farTable 4 r.best).1 = [70000, 2, 0, 3, 1] ∧
        tourLength farTable 4 (pass farTable 4 r.best).1 = -4294897296 ∧
        (pass farTable 4 r.best).1 0 ≠ tourLength farTable 4 (pass farTable 4 r.best).1 ∧
        optimizePath never farTable 4 5 0 r.best =
          some ((pass farTable 4 r.best).1, false) := by
  have hag : AgreeOn farTable farDist 4 := processInput_far _
  obtain ⟨r, h1, ht, h2, h3, h4, h5, h6, h7, h8⟩ := farDist_run
  have hsym : SymmetricOn farTable 4 := by
    intro a ha b hb
    rw [hag a ha b hb, hag b hb a ha]
    exact (by decide! : SymmetricOn farDist 4) a ha b hb
  have hb0 : r.best 0 = -2147423648 := by
    have := congrArg (fun l => l.getD 0 0) h3
    simpa using this
  have hp0 : (pass farDist 4 r.best).1 0 = 70000 := by
    have := congrArg (fun l => l.getD 0 0) h6
    simpa using this
  refine ⟨by decide, by decide, hsym, r, ?_, h2, ht, h3, ?_, ?_⟩
  · rw [initialPath_agree_dist never farTable farDist 4 zeroState (by decide) hag]
    exact h1
  · rw [tourLength_agree farTable farDist 4 r.best (by decide) hag ht, h4, hb0]
  · rw [optimizePath_agree_dist never farTable farDist 4 hag 5 0 r.best ht,
      pass_congr farTable farDist 4 r.best hag ht,
      tourLength_agree farTable farDist 4 _ (by decide) hag (pass_isTour farDist 4 r.best ht),
      h7, hp0]
    exact ⟨h5, h6, rfl, by decide, optimizePath_one_swap farDist 4 3 0 r.best h5 h8⟩

/-! ## optimizePath: termination -/

theorem optimizePath_swap_bound (dist : Matrix) (n : Nat) (best : Nat → Int)
    (hsym : SymmetricOn dist n) (hbound : EntriesIn dist n 1073741824)
    (htour : IsTour n best) (hcost : best 0 = tourLength dist n best)
    (hmax : best 0 ≤ INT_MAX) :
    ∀ fuel t, (best 0).toNat + 1 ≤ fuel →
      ∃ k, k ≤ (best 0).toNat ∧
        optimizePath never dist n fuel t best = some (passes dist n k best, false) ∧
        (∀ m, m < k → (pass dist n (passes dist n m best)).2 = true ∧
          passes dist n (m + 1) best 0 < passes dist n m best 0) ∧
        (pass dist n (passes dist n k best)).2 = false ∧
        ∀ m, passes dist n m best 0 = tourLength dist n (passes dist n m best) := by
  intro fuel t hfuel
  obtain ⟨k, h1, h2, h3, h4⟩ := optimizePath_converges dist n hsym hbound (best 0).toNat
    fuel t best ⟨htour, hcost, hmax⟩ (Int.self_le_toNat _) hfuel
  have hall : ∀ m, IsTour n (passes dist n m best) ∧
      passes dist n m best 0 = tourLength dist n (passes dist n m best) ∧
      passes dist n m best 0 ≤ INT_MAX := fun m =>
    passes_invariant dist n
      (fun b => IsTour n b ∧ b 0 = tourLength dist n b ∧ b 0 ≤ INT_MAX)
      (fun b hb => pass_cost dist n b hsym hbound hb) m best ⟨htour, hcost, hmax⟩
  refine ⟨k, h1, h2, ?_, h4, fun m => (hall m).2.1⟩
  intro m hm
  refine ⟨h3 m hm, ?_⟩
  obtain ⟨i1, i2, i3⟩ := hall m
  have hn : 4 ≤ n := by
    by_contra hlt
    have hf := scan_small dist n (passes dist n m best) (by omega)
    have := h3 m hm
    rw [pass_snd, hf] at this
    exact absurd this (by simp)
  have h0 : 0 ≤ tourLength dist n (passes dist n m best) := by
    apply tourLength_nonneg dist n _ (by omega)
    intro a b h1 h2 h3 h4
    exact (isTour_lift n _ (fun x y => 0 ≤ dist x y ∧ dist x y < 1073741824) i1
      hbound a b h1 h2 h3 h4).1
  rw [passes_succ_last]
  exact ((pass_cost_le dist n _ (by omega) i3).2 (h3 m hm)).2

/-- C17: with a clock that never reaches the limit, `optimizePath` terminates by convergence
on every input in which the table is symmetric with non-negative entries, the positions
`1..n` of `best` hold a permutation of `0..n-1` and the `int` `best[0]` is the closed-tour
length: the number `k` of passes that apply a swap is at most the value of `best[0]` on
entry, each of them lowers `best[0]`, which stays the closed-tour length, and the pass
after them finds no improvement.  This is proved for every table with entries below `2^30`,
and for every table that `processInput` builds, whose entries, when non-negative, are at
most `46341`. -/
theorem optimizePath_terminates :
    (∀ (dist : Matrix) (n : Nat) (best : Nat → Int),
        SymmetricOn dist n → EntriesIn dist n 1073741824 → IsTour n best →
        best 0 = tourLength dist n best → best 0 ≤ INT_MAX →
        ∀ fuel t, (best 0).toNat + 1 ≤ fuel →
          ∃ k, k ≤ (best 0).toNat ∧
            optimizePath never dist n fuel t best = some (passes dist n k best, false) ∧
            (∀ m, m < k → (pass dist n (passes dist n m best)).2 = true ∧
              passes dist n (m + 1) best 0 < passes dist n m best 0) ∧
            (pass dist n (passes dist n k best)).2 = false ∧
            ∀ m, passes dist n m best 0 = tourLength dist n (passes dist n m best)) ∧
      ∀ (cities : List City) (table : Matrix) (best : Nat → Int),
        (∀ a : Nat, a < cities.length → ∀ b : Nat, b < cities.length →
          0 ≤ (processInput cities table).1 a b) →
        IsTour cities.length best →
        best 0 = tourLength (processInput cities table).1 cities.length best →
        best 0 ≤ INT_MAX →
        ∀ fuel t, (best 0).toNat + 1 ≤ fuel →
          ∃ k, k ≤ (best 0).toNat ∧
            optimizePath never (processInput cities table).1 cities.length fuel t best =
              some (passes (processInput cities table).1 cities.length k best, false) ∧
            (∀ m, m < k →
              (pass (processInput cities table).1 cities.length
                (passes (processInput cities table).1 cities.length m best)).2 = true ∧
              passes (processInput cities table).1 cities.length (m + 1) best 0 <
                passes (processInput cities table).1 cities.length m best 0) ∧
            (pass (processInput cities table).1 cities.length
              (passes (processInput cities table).1 cities.length k best)).2 = false ∧
            ∀ m, passes (processInput cities table).1 cities.length m best 0 =
              tourLength (processInput cities table).1 cities.length
                (passes (processInput cities table).1 cities.length m best) := by
  refine ⟨fun dist n best hsym hbound htour hcost hmax =>
    optimizePath_swap_bound dist n best hsym hbound htour hcost hmax, ?_⟩
  intro cities table best hnonneg htour hcost hmax
  obtain ⟨hsym, _, hbound⟩ := processInput_distances cities table hnonneg
  exact optimizePath_swap_bound _ _ best hsym hbound htour hcost hmax

theorem optimizePath_terminates_witness :
    ((∀ a : Nat, a < gridCities.length → ∀ b : Nat, b < gridCities.length →
          0 ≤ (processInput gridCities (fun _ _ => 0)).1 a b) ∧
        IsTour gridCities.length (arr [18, 3, 5, 0, 4, 1, 2]) ∧
        arr [18, 3, 5, 0, 4, 1, 2] 0 =
          tourLength (processInput gridCities (fun _ _ => 0)).1 gridCities.length
            (arr [18, 3, 5, 0, 4, 1, 2]) ∧
        arr [18, 3, 5, 0, 4, 1, 2] 0 ≤ INT_MAX ∧
        (arr [18, 3, 5, 0, 4, 1, 2] 0).toNat + 1 ≤ 19) ∧
      ((optimizePath never (processInput gridCities (fun _ _ => 0)).1 gridCities.length 19 0
            (arr [18, 3, 5, 0, 4, 1, 2])).map (fun o => ((List.range 7).map o.1, o.2)) =
          some ([13, 3, 4, 5, 1, 0, 2], false)) ∧
      ∃ k, k ≤ (arr [18, 3, 5, 0, 4, 1, 2] 0).toNat ∧
        optimizePath never (processInput gridCities (fun _ _ => 0)).1 gridCities.length 19 0
            (arr [18, 3, 5, 0, 4, 1, 2]) =
          some (passes (processInput gridCities (fun _ _ => 0)).1 gridCities.length k
            (arr [18, 3, 5, 0, 4, 1, 2]), false) ∧
        (∀ m, m < k →
          (pass (processInput gridCities (fun _ _ => 0)).1 gridCities.length
            (passes (processInput gridCities (fun _ _ => 0)).1 gridCities.length m
              (arr [18, 3, 5, 0, 4, 1, 2]))).2 = true ∧
          passes (processInput gridCities (fun _ _ => 0)).1 gridCities.length (m + 1)
              (arr [18, 3, 5, 0, 4, 1, 2]) 0 <
            passes (processInput gridCities (fun _ _ => 0)).1 gridCities.length m
              (arr [18, 3, 5, 0, 4, 1, 2]) 0) ∧
        (pass (processInput gridCities (fun _ _ => 0)).1 gridCities.length
          (passes (processInput gridCities (fun _ _ => 0)).1 gridCities.length k
            (arr [18, 3, 5, 0, 4, 1, 2]))).2 = false ∧
        ∀ m, passes (processInput gridCities (fun _ _ => 0)).1 gridCities.length m
            (arr [18, 3, 5, 0, 4, 1, 2]) 0 =
          tourLength (processInput gridCities (fun _ _ => 0)).1 gridCities.length
            (passes (processInput gridCities (fun _ _ => 0)).1 gridCities.length m
              (arr [18, 3, 5, 0, 4, 1, 2])) :=
  ⟨⟨by decide!, by decide!, by decide!, by decide, by decide⟩, by decide!,
    optimizePath_terminates.2 gridCities (fun _ _ => 0) (arr [18, 3, 5, 0, 4, 1, 2])
      (by decide!) (by decide!) (by decide!) (by decide) 19 0 (by decide)⟩

end TSP
